import Mathlib

/-!
# goson: a shallow embedding of the pattern compiler, the random string
generator, the directive parser and the record evaluator

Go strings are modelled as lists of bytes (`List Nat`), Go `int` as `Int` with
an explicit 64-bit wrap where the source adds, and every Go call that can
return an error or abort has a three-way result `Res`.  The random source and
the clock are explicit inputs.
-/

namespace Goson

/-! ## Strings, results, errors -/

/-- A Go string: its bytes, in order. -/
abbrev GoString := List Nat

/-- The bytes of an ASCII literal. -/
def bytesOf (s : String) : GoString := s.toList.map Char.toNat

/-- The decimal text of a natural number, as bytes. -/
def decimal (n : Nat) : GoString := bytesOf (Nat.repr n)

/-- The error values the package produces or passes on. -/
inductive GoError where
  /-- errors.New("can't locate pattern") -/
  | cantLocate
  /-- errors.New("can't split pattern correctly") -/
  | cantSplit
  /-- strconv.NumError with Err = ErrSyntax, for the given text -/
  | atoiSyntax (s : GoString)
  /-- strconv.NumError with Err = ErrRange, for the given text -/
  | atoiRange (s : GoString)
  /-- The error with the text "max pattern len is 64. actual: n" -/
  | tooLong (actual : Int)
  /-- invalidPatternError: the raw pattern and the cause -/
  | invalidPattern (pattern : GoString) (cause : GoError)
  /-- an error made outside the package (a custom keyword constructor) -/
  | other (msg : GoString)
  deriving DecidableEq, Repr

/-- The run-time aborts of the Go code under study. -/
inductive GoPanic where
  /-- index out of range -/
  | indexOutOfRange
  /-- slice bounds out of range -/
  | sliceBounds
  /-- makeslice: len out of range -/
  | makeLen
  /-- invalid argument to Intn or Shuffle -/
  | randArg
  /-- invalid memory address or nil pointer dereference -/
  | nilDeref
  deriving DecidableEq, Repr

/-- Outcome of a Go call: a value, a returned error, or a panic. -/
inductive Res (α : Type) where
  | ok (a : α)
  | err (e : GoError)
  | panic (p : GoPanic)
  deriving DecidableEq, Repr

/-- The call returned a value and no error. -/
def Res.isOk {α : Type} : Res α → Bool
  | .ok _ => true
  | _ => false

/-- The call returned an error value (it did not panic). -/
def Res.isErr {α : Type} : Res α → Bool
  | .err _ => true
  | _ => false

/-- The call aborted. -/
def Res.isPanic {α : Type} : Res α → Bool
  | .panic _ => true
  | _ => false

/-- The wrap of a Go `int` result to 64 bits, two's complement. -/
def wrap64 (x : Int) : Int := (x + 2 ^ 63) % 2 ^ 64 - 2 ^ 63

/-- The slice expression `s[lo:hi]`; `none` when the bounds are out of range. -/
def sliceStr (s : GoString) (lo hi : Int) : Option GoString :=
  if 0 ≤ lo ∧ lo ≤ hi ∧ hi ≤ (s.length : Int) then
    some ((s.take hi.toNat).drop lo.toNat)
  else none

/-! ## Library functions used by the package -/

/-- Digit loop of strconv.ParseUint(s, 10, 64): `n` is the value read so far.
A byte that is not a decimal digit is a syntax error; a value that leaves 64
bits is a range error. -/
def parseUintLoop (s0 : GoString) : GoString → Nat → Except GoError Nat
  | [], n => .ok n
  | c :: rest, n =>
    if 48 ≤ c ∧ c ≤ 57 then
      if n ≥ (2 ^ 64 - 1) / 10 + 1 then .error (.atoiRange s0)
      else
        let n1 := n * 10 + (c - 48)
        if n1 > 2 ^ 64 - 1 then .error (.atoiRange s0)
        else parseUintLoop s0 rest n1
    else .error (.atoiSyntax s0)

/-- strconv.ParseUint(s, 10, 64). -/
def parseUint (s0 s : GoString) : Except GoError Nat :=
  if s = [] then .error (.atoiSyntax s0) else parseUintLoop s0 s 0

/-- strconv.Atoi on a 64-bit platform, which is ParseInt(s, 10, 0): an optional
sign, then decimal digits, the value within the range of int64. -/
def Atoi (s : GoString) : Except GoError Int :=
  match s with
  | [] => .error (.atoiSyntax s)
  | c :: rest =>
    let neg : Bool := c = 45
    let body := if c = 43 ∨ c = 45 then rest else s
    match parseUint s body with
    | .error e => .error e
    | .ok un =>
      if !neg ∧ un ≥ 2 ^ 63 then .error (.atoiRange s)
      else if neg ∧ un > 2 ^ 63 then .error (.atoiRange s)
      else .ok (if neg then -(un : Int) else (un : Int))

/-- strings.Split(s, sep) for a one-byte separator: the pieces between the
occurrences of `sep`, one more than there are occurrences. -/
def splitByte (sep : Nat) : GoString → List GoString
  | [] => [[]]
  | c :: rest =>
    if c = sep then [] :: splitByte sep rest
    else
      match splitByte sep rest with
      | [] => [[c]]
      | seg :: segs => (c :: seg) :: segs

/-- The rune U+FFFD that decoding yields for invalid UTF-8. -/
def runeError : Nat := 0xFFFD

/-- A UTF-8 continuation byte. -/
def isCont (b : Nat) : Bool := 0x80 ≤ b ∧ b ≤ 0xBF

/-- The rune at the front of a string and the number of bytes it takes, as the
Go `for range` loop over a string decodes it. -/
def decodeRune : GoString → Nat × Nat
  | [] => (runeError, 1)
  | s0 :: t =>
    if s0 < 0x80 then (s0, 1)
    else if 0xC0 ≤ s0 ∧ s0 < 0xE0 then
      match t with
      | s1 :: _ =>
        let r := (s0 % 32) * 64 + s1 % 64
        if isCont s1 ∧ 0x7F < r then (r, 2) else (runeError, 1)
      | _ => (runeError, 1)
    else if 0xE0 ≤ s0 ∧ s0 < 0xF0 then
      match t with
      | s1 :: s2 :: _ =>
        let r := (s0 % 16) * 4096 + (s1 % 64) * 64 + s2 % 64
        if isCont s1 ∧ isCont s2 ∧ 0x7FF < r ∧ ¬ (0xD800 ≤ r ∧ r ≤ 0xDFFF) then (r, 3)
        else (runeError, 1)
      | _ => (runeError, 1)
    else if 0xF0 ≤ s0 ∧ s0 < 0xF8 then
      match t with
      | s1 :: s2 :: s3 :: _ =>
        let r := (s0 % 8) * 262144 + (s1 % 64) * 4096 + (s2 % 64) * 64 + s3 % 64
        if isCont s1 ∧ isCont s2 ∧ isCont s3 ∧ 0xFFFF < r ∧ r ≤ 0x10FFFF then (r, 4)
        else (runeError, 1)
      | _ => (runeError, 1)
    else (runeError, 1)

/-- The pairs (byte index, rune) that `for i, char := range s` visits, from
byte index `i` on; `skip` is how many bytes of the current rune remain. -/
def rangeFrom : Nat → Nat → GoString → List (Nat × Nat)
  | _, _, [] => []
  | i, 0, b :: rest => (i, (decodeRune (b :: rest)).1) ::
      rangeFrom (i + 1) ((decodeRune (b :: rest)).2 - 1) rest
  | i, k + 1, _ :: rest => rangeFrom (i + 1) k rest

/-- The iteration of `for i, char := range s`. -/
def rangeString (s : GoString) : List (Nat × Nat) := rangeFrom 0 0 s

/-- The random source: the raw outcome of each successive draw. -/
structure Rng where
  draws : Nat → Nat
  pos : Nat

/-- rand.Intn(n): aborts when n is not positive, else a number below n. -/
def Rng.Intn (g : Rng) (n : Nat) : Option (Nat × Rng) :=
  if n = 0 then none else some (g.draws g.pos % n, { g with pos := g.pos + 1 })

/-! ## pattern_generator.go -/

/-- The pattern descriptor. The fields `prefixStr` and `suffixStr` are the
source's `prefix` and `suffix`. -/
structure strPattern where
  prefixStr : GoString
  suffixStr : GoString
  letters : Int
  digits : Int
  specials : Int
  length : Int
  deriving DecidableEq, Repr

/-- The zero value `var pattern strPattern`. -/
def strPattern.zero : strPattern := ⟨[], [], 0, 0, 0, 0⟩

/-- The generator built around a pattern. -/
structure generator where
  pattern : strPattern
  deriving DecidableEq, Repr

def bytePoolLetters : GoString := bytesOf "abcdefghijklmnopqrstuvwxyzABCDEFGHIJKLMNOPQRSTUVWXYZ"
def bytePoolDigits : GoString := bytesOf "0123456789"
def bytePoolSpecials : GoString := bytesOf "~!@#$%^&*()_+-=\x7b\x7d[]"

/-- Source function getRandomCharFromSource: `source[rand.Intn(len(source))]`. -/
def getRandomCharFromSource (source : GoString) (g : Rng) : Res (Nat × Rng) :=
  match g.Intn source.length with
  | none => .panic .randArg
  | some (k, g1) =>
    match source[k]? with
    | none => .panic .indexOutOfRange
    | some char => .ok (char, g1)

/-- One of the three filling loops of `generate`: `count` iterations, each
drawing a byte of `source` and storing it at `bytes[i]`, then `i++`. -/
def fillLoop (source : GoString) : Nat → List Nat → Nat → Rng → Res (List Nat × Nat × Rng)
  | 0, bytes, i, g => .ok (bytes, i, g)
  | k + 1, bytes, i, g =>
    match getRandomCharFromSource source g with
    | .ok (char, g1) =>
      if i < bytes.length then fillLoop source k (bytes.set i char) (i + 1) g1
      else .panic .indexOutOfRange
    | .err e => .err e
    | .panic p => .panic p

/-- The swap `bytes[i], bytes[j] = bytes[j], bytes[i]`. -/
def swapBytes (bytes : List Nat) (i j : Nat) : Option (List Nat) :=
  match bytes[i]?, bytes[j]? with
  | some bi, some bj => some ((bytes.set i bj).set j bi)
  | _, _ => none

/-- The loop of rand.Shuffle: for i going down to 1, swap i with a drawn
j in [0, i]. The argument is the current i. -/
def shuffleLoop : Nat → List Nat → Rng → Res (List Nat × Rng)
  | 0, bytes, g => .ok (bytes, g)
  | i + 1, bytes, g =>
    match g.Intn (i + 2) with
    | none => .panic .randArg
    | some (j, g1) =>
      match swapBytes bytes (i + 1) j with
      | none => .panic .indexOutOfRange
      | some bytes1 => shuffleLoop i bytes1 g1

/-- rand.Shuffle(n, swap). -/
def shuffle (n : Int) (bytes : List Nat) (g : Rng) : Res (List Nat × Rng) :=
  if n < 0 then .panic .randArg else shuffleLoop (n.toNat - 1) bytes g

/-- Source method generator.generate: the body of the generated string. -/
def generator.generate (gen : generator) (g : Rng) : Res (GoString × Rng) :=
  let n := gen.pattern.length
  if n < 0 then .panic .makeLen
  else
    let bytes := List.replicate n.toNat 0
    match fillLoop bytePoolLetters gen.pattern.letters.toNat bytes 0 g with
    | .ok (bytes1, i1, g1) =>
      match fillLoop bytePoolDigits gen.pattern.digits.toNat bytes1 i1 g1 with
      | .ok (bytes2, i2, g2) =>
        match fillLoop bytePoolSpecials gen.pattern.specials.toNat bytes2 i2 g2 with
        | .ok (bytes3, _, g3) => shuffle n bytes3 g3
        | .err e => .err e
        | .panic p => .panic p
      | .err e => .err e
      | .panic p => .panic p
    | .err e => .err e
    | .panic p => .panic p

/-- Source method generator.Generate: prefix, generated body, suffix. -/
def generator.Generate (gen : generator) (g : Rng) : Res (GoString × Rng) :=
  match gen.generate g with
  | .ok (body, g1) => .ok (gen.pattern.prefixStr ++ body ++ gen.pattern.suffixStr, g1)
  | .err e => .err e
  | .panic p => .panic p

/-- The loop of unescapeString over `raw[i:]`, `res` being what was appended
so far. Reading `raw[i+1]` past the end aborts. -/
def unescapeLoop : GoString → GoString → Res GoString
  | [], res => .ok res
  | c :: rest, res =>
    if c = 92 then
      match rest with
      | [] => .panic .indexOutOfRange
      | d :: _ => if d ≠ 92 then unescapeLoop rest res else unescapeLoop rest (res ++ [c])
    else unescapeLoop rest (res ++ [c])

/-- Source function unescapeString. -/
def unescapeString (raw : GoString) : Res GoString := unescapeLoop raw []

/-- The body of the loop of locatePattern at byte index `i` with rune `char`. -/
def locateStep (raw : GoString) (st : Int × Int) (ic : Nat × Nat) : Int × Int :=
  if 0 < ic.1 ∧ raw.getD (ic.1 - 1) 0 = 92 then st
  else if ic.2 = 60 ∧ st.1 = -1 then ((ic.1 : Int), st.2)
  else if ic.2 = 60 ∧ st.1 ≠ -1 then (-1, st.2)
  else if ic.2 = 62 ∧ st.2 = -1 then (st.1, (ic.1 : Int))
  else if ic.2 = 62 ∧ st.2 ≠ -1 then (st.1, -1)
  else st

/-- Source function locatePattern: (start, end). -/
def locatePattern (raw : GoString) : Int × Int :=
  (rangeString raw).foldl (locateStep raw) (-1, -1)

def patternMaxLen : Int := 64

/-- The loop of parsePattern over the pieces, `i` the index of the piece. -/
def parseSegments : Nat → List GoString → strPattern → Res strPattern
  | _, [], pattern => .ok pattern
  | i, str :: rest, pattern =>
    match Atoi str with
    | .error e => .err e
    | .ok num =>
      let pattern1 :=
        if i = 0 then
          { pattern with letters := num, length := wrap64 (pattern.length + num) }
        else if i = 1 then
          { pattern with digits := num, length := wrap64 (pattern.length + num) }
        else if i = 2 then
          { pattern with specials := num, length := wrap64 (pattern.length + num) }
        else pattern
      parseSegments (i + 1) rest pattern1

/-- Source function parsePattern. -/
def parsePattern (body : GoString) : Res strPattern :=
  let exploded := splitByte 47 body
  if exploded.length > 3 then .err .cantSplit
  else
    match parseSegments 0 exploded strPattern.zero with
    | .ok pattern =>
      if pattern.length > patternMaxLen then .err (.tooLong pattern.length)
      else .ok pattern
    | .err e => .err e
    | .panic p => .panic p

/-- Source function buildPattern. -/
def buildPattern (raw : GoString) : Res strPattern :=
  let se := locatePattern raw
  if se.1 = -1 ∨ se.2 = -1 ∨ se.1 > se.2 then .err .cantLocate
  else
    match sliceStr raw (se.1 + 1) se.2 with
    | none => .panic .sliceBounds
    | some patternBody =>
      match parsePattern patternBody with
      | .err e => .err e
      | .panic p => .panic p
      | .ok pattern =>
        match sliceStr raw 0 se.1 with
        | none => .panic .sliceBounds
        | some rawPrefix =>
          match unescapeString rawPrefix with
          | .err e => .err e
          | .panic p => .panic p
          | .ok pre =>
            match sliceStr raw (se.2 + 1) raw.length with
            | none => .panic .sliceBounds
            | some rawSuffix =>
              match unescapeString rawSuffix with
              | .err e => .err e
              | .panic p => .panic p
              | .ok suf => .ok { pattern with prefixStr := pre, suffixStr := suf }

/-- Source function newPatternGenerator. -/
def newPatternGenerator (raw : GoString) : Res generator :=
  match buildPattern raw with
  | .ok pattern => .ok { pattern := pattern }
  | .err e => .err (.invalidPattern raw e)
  | .panic p => .panic p

/-! ## fields.go -/

/-- A Go `interface{}` value as the package meets it: what encoding/json
decodes (nil, bool, float64, string, slice, map) and the int64 of the clock.
A float64 is kept as its bit pattern; it is only passed through. -/
inductive Value where
  | nil
  | bool (b : Bool)
  | float64 (bits : Nat)
  | str (s : GoString)
  | int64 (n : Int)
  | array (xs : List Value)
  | object (kvs : List (GoString × Value))

/-- The ambient state a field reads when it is evaluated: the random source
and the successive readings of time.Now().Unix(). -/
structure World where
  rng : Rng
  clock : Nat → Int
  tick : Nat

/-- The implementations of the interface ParsedField: the five of the package
and `custom`, a field type defined by a caller, with a fixed name and value. -/
inductive ParsedField where
  | static (name : GoString) (value : Value)
  | reference (name : GoString) (referenceTo : GoString)
  | timestamp (name : GoString)
  | uuid (name : GoString)
  | pattern (name : GoString) (pattern : generator)
  | custom (name : GoString) (value : Value)

/-- The method Name() of each field type. -/
def ParsedField.Name : ParsedField → GoString
  | .static name _ => name
  | .reference name _ => name
  | .timestamp name => name
  | .uuid name => name
  | .pattern name _ => name
  | .custom name _ => name

/-- The method Value() of each field type. -/
def ParsedField.Value : ParsedField → World → Res (Value × World)
  | .static _ value, w => .ok (value, w)
  | .reference _ referenceTo, w => .ok (.str referenceTo, w)
  | .timestamp _, w => .ok (.int64 (w.clock w.tick), { w with tick := w.tick + 1 })
  | .uuid _, w => .ok (.int64 (w.clock w.tick), { w with tick := w.tick + 1 })
  | .pattern _ gen, w =>
    match gen.Generate w.rng with
    | .ok (s, g1) => .ok (.str s, { w with rng := g1 })
    | .err e => .err e
    | .panic p => .panic p
  | .custom _ value, w => .ok (value, w)

/-- The field is a `*referenceField`. -/
def ParsedField.isReference : ParsedField → Bool
  | .reference _ _ => true
  | _ => false

/-- NewFieldFunc: the signature of a keyword constructor. -/
abbrev NewFieldFunc := GoString → GoString → Res ParsedField

def newStaticField (name : GoString) (value : Value) : ParsedField := .static name value

def newReferenceField (name referenceTo : GoString) : ParsedField := .reference name referenceTo

def newTimestampField : NewFieldFunc := fun name _ => .ok (.timestamp name)

def newUUIDField : NewFieldFunc := fun name _ => .ok (.uuid name)

/-- Source function newPatternField. -/
def newPatternField (name raw : GoString) : Res ParsedField :=
  match newPatternGenerator raw with
  | .ok pattern => .ok (.pattern name pattern)
  | .err e => .err e
  | .panic p => .panic p

/-! ## Go maps with string keys -/

/-- A Go map with string keys, as an association list with distinct keys. -/
abbrev GoMap (α : Type) := List (GoString × α)

/-- The lookup `m[k]` with its `ok` flag. -/
def GoMap.get? {α : Type} : GoMap α → GoString → Option α
  | [], _ => none
  | (k1, v) :: rest, k => if k1 = k then some v else GoMap.get? rest k

/-- The assignment `m[k] = v`. -/
def GoMap.set {α : Type} : GoMap α → GoString → α → GoMap α
  | [], k, v => [(k, v)]
  | (k1, v1) :: rest, k, v =>
    if k1 = k then (k, v) :: rest else (k1, v1) :: GoMap.set rest k v

/-- The keys of a map. -/
def GoMap.keys {α : Type} (m : GoMap α) : List GoString := m.map Prod.fst

/-! ## parser.go -/

/-- The parser: the keyword registry and the decoded template. -/
structure parser where
  keywordSet : GoMap NewFieldFunc
  rawFields : GoMap Value

def goPrefix : GoString := bytesOf "_go:"

/-- strings.Contains(s, substr). -/
def stringsContains : GoString → GoString → Bool
  | [], substr => substr.isEmpty
  | c :: rest, substr => substr.isPrefixOf (c :: rest) || stringsContains rest substr

def parser.isStaticString (_p : parser) (value : GoString) : Bool :=
  !stringsContains value goPrefix

def parser.isValidKeywordString (p : parser) (value : GoString) : Bool :=
  p.keywordSet.keys.any (fun fieldKey => value = fieldKey)

/-- Source method isValidReferenceString; `value[1:]` aborts on the empty string. -/
def parser.isValidReferenceString (p : parser) (value : GoString) : Res Bool :=
  match sliceStr value 1 value.length with
  | none => .panic .sliceBounds
  | some rest => .ok (p.rawFields.get? rest).isSome

/-- Source method parseStringField. -/
def parser.parseStringField (p : parser) (key value : GoString) : Res ParsedField :=
  if p.isStaticString value then .ok (newStaticField key (.str value))
  else
    match sliceStr value goPrefix.length value.length with
    | none => .panic .sliceBounds
    | some body =>
      if p.isValidKeywordString body then
        match p.keywordSet.get? body with
        | some fn => fn key body
        | none => .panic .nilDeref
      else
        match p.isValidReferenceString body with
        | .panic q => .panic q
        | .err e => .err e
        | .ok true =>
          match sliceStr body 1 body.length with
          | none => .panic .sliceBounds
          | some target => .ok (newReferenceField key target)
        | .ok false => newPatternField key body

/-- Source method parseField. reflect.TypeOf of a nil interface is nil, and
calling Kind() on it aborts. -/
def parser.parseField (p : parser) (key : GoString) (rawField : Value) : Res ParsedField :=
  match rawField with
  | .nil => .panic .nilDeref
  | .str s => p.parseStringField key s
  | v => .ok (newStaticField key v)

/-- The loop of parse over the entries of rawFields, in the order the map
iteration yields them; `fields` is the map built so far. -/
def parser.parseLoop (p : parser) : List (GoString × Value) → GoMap ParsedField →
    Res (GoMap ParsedField)
  | [], fields => .ok fields
  | (key, value) :: rest, fields =>
    match p.parseField key value with
    | .ok field => p.parseLoop rest (fields.set key field)
    | .err e => .err e
    | .panic q => .panic q

/-- Source method parse, from the outcome of json.Unmarshal on the body: the
decoded object, or the decoder's error. The list order of the decoded object
is the order in which the map is iterated. -/
def parser.parse (p : parser) (decoded : Except GoError (GoMap Value)) :
    Res (GoMap ParsedField) :=
  match decoded with
  | .error e => .err e
  | .ok rawFields => parser.parseLoop { p with rawFields := rawFields } rawFields []

def getDefaultKeywordSet : GoMap NewFieldFunc :=
  [(bytesOf "timestamp", newTimestampField), (bytesOf "uuid", newUUIDField)]

def newParser : parser := { keywordSet := getDefaultKeywordSet, rawFields := [] }

/-- Source function newParserWithCustomKeywords; the list order of `fields`
is the order in which the caller's map is iterated. -/
def newParserWithCustomKeywords (fields : GoMap NewFieldFunc) : parser :=
  { keywordSet := fields.foldl (fun m kv => m.set kv.1 kv.2) getDefaultKeywordSet,
    rawFields := [] }

/-! ## processor.go -/

/-- The processor: the parsed field set. -/
structure processor where
  fields : GoMap ParsedField

/-- First loop of Generate: `fields[field.Name()] = field.Value()` for every
field, in the given iteration order. -/
def generatePass1 : List ParsedField → GoMap Value → World → Res (GoMap Value × World)
  | [], out, w => .ok (out, w)
  | field :: rest, out, w =>
    match field.Value w with
    | .ok (v, w1) => generatePass1 rest (out.set field.Name v) w1
    | .err e => .err e
    | .panic q => .panic q

/-- Second loop of Generate: for every reference field,
`fields[field.Name()] = fields[field.Value().(string)]`. -/
def generatePass2 : List ParsedField → GoMap Value → GoMap Value
  | [], out => out
  | .reference name referenceTo :: rest, out =>
    generatePass2 rest (out.set name ((out.get? referenceTo).getD .nil))
  | _ :: rest, out => generatePass2 rest out

/-- Source method Generate with the two map iterations made explicit: `order1`
and `order2` list the fields in the order the first and the second loop visit
them. The result is the map handed to json.Marshal. -/
def processor.GenerateIn (_p : processor) (order1 order2 : List ParsedField) (w : World) :
    Res (GoMap Value × World) :=
  match generatePass1 order1 [] w with
  | .ok (out, w1) => .ok (generatePass2 order2 out, w1)
  | .err e => .err e
  | .panic q => .panic q

/-- Source method Generate, both loops visiting the fields in stored order. -/
def processor.Generate (p : processor) (w : World) : Res (GoMap Value × World) :=
  p.GenerateIn (p.fields.map Prod.snd) (p.fields.map Prod.snd) w

/-- Source function New, from the outcome of decoding the body. -/
def New (decoded : Except GoError (GoMap Value)) : Res processor :=
  match newParser.parse decoded with
  | .ok fields => .ok { fields := fields }
  | .err e => .err e
  | .panic q => .panic q

/-- Source function NewWithCustomKeywords. -/
def NewWithCustomKeywords (decoded : Except GoError (GoMap Value))
    (keywordSet : GoMap NewFieldFunc) : Res processor :=
  match (newParserWithCustomKeywords keywordSet).parse decoded with
  | .ok fields => .ok { fields := fields }
  | .err e => .err e
  | .panic q => .panic q

/-! ## Decimal digits -/

/-- The value of a run of decimal digit bytes read after the value `acc`. -/
def digitsVal (acc : Nat) (s : GoString) : Nat :=
  s.foldl (fun a c => a * 10 + (c - 48)) acc

/-- Every byte is an ASCII decimal digit. -/
def allDigits (s : GoString) : Prop := ∀ c ∈ s, 48 ≤ c ∧ c ≤ 57

/-! ## Bytewise reading of locatePattern, escaping, unescaped brackets -/

/-- What one byte `b` at index `i` does to (start, end) in locatePattern, `esc`
telling whether the byte before it is a backslash. -/
def toggleStep (esc : Bool) (i b : Nat) (st : Int × Int) : Int × Int :=
  if esc then st
  else if b = 60 then (if st.1 = -1 then ((i : Int), st.2) else (-1, st.2))
  else if b = 62 then (if st.2 = -1 then (st.1, (i : Int)) else (st.1, -1))
  else st

/-- The scan of locatePattern read byte by byte from index `i` on. -/
def scanBytes : Bool → Nat → Int × Int → GoString → Int × Int
  | _, _, st, [] => st
  | esc, i, st, b :: rest => scanBytes (b = 92) (i + 1) (toggleStep esc i b st) rest

/-- The text `t` with a backslash put before every '<' and every '>'. -/
def escapeBrackets : GoString → GoString
  | [] => []
  | c :: rest =>
    if c = 60 ∨ c = 62 then 92 :: c :: escapeBrackets rest else c :: escapeBrackets rest

/-- The byte at index `i` is `c` and it is unescaped: it is at index 0 or the
byte before it is not a backslash. -/
def unescapedAt (raw : GoString) (c i : Nat) : Bool :=
  raw[i]? = some c ∧ (i = 0 ∨ raw[i - 1]? ≠ some 92)

/-- The indices of the unescaped occurrences of the byte `c`, in order. -/
def unescapedIdx (raw : GoString) (c : Nat) : List Nat :=
  (List.range raw.length).filter (unescapedAt raw c)

/-- Toggle reading of a list of indices: the last one when their number is
odd, -1 when it is even. -/
def toggleOf (idxs : List Nat) : Int :=
  if idxs.length % 2 = 1 then ((idxs.getLast?.getD 0 : Nat) : Int) else -1

/-- The raw pattern made of the text `p` with its brackets escaped, the body
`b` in brackets, and the text `q` with its brackets escaped. -/
def bracketed (p b q : GoString) : GoString :=
  escapeBrackets p ++ bytesOf "<" ++ b ++ bytesOf ">" ++ escapeBrackets q

/-- The body `b`, alone and in brackets, is refused for its length `n`. -/
def refusedTooLong (b : GoString) (n : Int) : Prop :=
  parsePattern b = .err (.tooLong n) ∧
  buildPattern (bracketed [] b []) = .err (.tooLong n) ∧
  newPatternGenerator (bracketed [] b []) =
    .err (.invalidPattern (bracketed [] b []) (.tooLong n))

/-- A run of `t.1` backslashes followed by the byte `t.2`. -/
def escRun (t : Nat × Nat) : GoString := List.replicate t.1 92 ++ [t.2]

/-- What is left of such a run: one backslash fewer (none of none), then the
byte. -/
def escRunKept (t : Nat × Nat) : GoString := List.replicate (t.1 - 1) 92 ++ [t.2]

/-- The unescaped occurrences of the byte `c` from index `i` on, `esc` telling
whether the byte before index `i` is a backslash. -/
def idxFrom (c : Nat) : Bool → Nat → GoString → List Nat
  | _, _, [] => []
  | esc, i, b :: rest =>
    if esc = false ∧ b = c then i :: idxFrom c (b = 92) (i + 1) rest
    else idxFrom c (b = 92) (i + 1) rest

/-- The toggle run over a list of indices from the value `s`: an index sets
the value when it is -1 and clears it to -1 otherwise. -/
def toggleFold (s : Int) (idxs : List Nat) : Int :=
  idxs.foldl (fun v j => if v = -1 then (j : Int) else -1) s

/-- The decoded template with the one field "a", a pattern of -1 letters. -/
def templateNegative : GoMap Value := [(bytesOf "a", .str (bytesOf "_go:<-1>"))]

/-- The field set that New builds from `templateNegative`. -/
def fieldsNegative : GoMap ParsedField :=
  [(bytesOf "a", .pattern (bytesOf "a") ⟨⟨[], [], -1, 0, 0, -1⟩⟩)]

/-- The decoded template with the one field "a", a pattern of 5 letters and
-2 digits. -/
def templateMixed : GoMap Value := [(bytesOf "a", .str (bytesOf "_go:<5/-2>"))]

/-- The field set that New builds from `templateMixed`. -/
def fieldsMixed : GoMap ParsedField :=
  [(bytesOf "a", .pattern (bytesOf "a") ⟨⟨[], [], 5, -2, 0, 3⟩⟩)]

/-- A parser with the default registry and the decoded template `password`
(a plain string) and `confirm` (the directive x followed by password). -/
def parserNoUnderscore : parser :=
  { keywordSet := getDefaultKeywordSet,
    rawFields := [(bytesOf "password", .str (bytesOf "secret")),
      (bytesOf "confirm", .str (bytesOf "_go:xpassword"))] }

/-- A caller's keyword map: a new keyword `dummy`, and `uuid` bound to the
constructor of Timestamp fields. -/
def customKeywords : GoMap NewFieldFunc :=
  [(bytesOf "dummy", fun name _ => .ok (.custom name (.str (bytesOf "dummy")))),
   (bytesOf "uuid", newTimestampField)]

/-- The decoded template of the parser tests: two patterns, a reference to
`password`, and a pattern with escaped brackets. -/
def templateTest : GoMap Value :=
  [(bytesOf "email", .str (bytesOf "_go:<4/1>@test.com")),
   (bytesOf "password", .str (bytesOf "_go:<5/2/1>")),
   (bytesOf "confirm_password", .str (bytesOf "_go:_password")),
   (bytesOf "escaped_field", .str (bytesOf "_go:\\<0\\> <5>"))]

/-- The field set that parse builds from `templateTest`. -/
def fieldsTest : GoMap ParsedField :=
  [(bytesOf "email",
      .pattern (bytesOf "email") ⟨⟨[], bytesOf "@test.com", 4, 1, 0, 5⟩⟩),
   (bytesOf "password", .pattern (bytesOf "password") ⟨⟨[], [], 5, 2, 1, 8⟩⟩),
   (bytesOf "confirm_password",
      .reference (bytesOf "confirm_password") (bytesOf "password")),
   (bytesOf "escaped_field",
      .pattern (bytesOf "escaped_field") ⟨⟨bytesOf "<0> ", [], 5, 0, 0, 5⟩⟩)]

/-- The pattern descriptor has non-negative counts and its length is their
sum. -/
def strPattern.wellFormed (pat : strPattern) : Prop :=
  0 ≤ pat.letters ∧ 0 ≤ pat.digits ∧ 0 ≤ pat.specials ∧
    pat.length = pat.letters + pat.digits + pat.specials

/-- The decoded template with `x` a plain string and `y` a reference to
`x`. -/
def templateXY : GoMap Value :=
  [(bytesOf "x", .str (bytesOf "plain")), (bytesOf "y", .str (bytesOf "_go:_x"))]

/-- The field set that New builds from `templateXY`. -/
def fieldsXY : GoMap ParsedField :=
  [(bytesOf "x", .static (bytesOf "x") (.str (bytesOf "plain"))),
   (bytesOf "y", .reference (bytesOf "y") (bytesOf "x"))]

/-- A sample state of the random source and the clock. -/
def sampleWorld : World := ⟨⟨fun k => 7 * k + 3, 0⟩, fun k => 1000 + k, 0⟩

/-- The decoded template with `x` a plain string, `y` a reference to `x` and
`z` a reference to `y`. -/
def templateXYZ : GoMap Value :=
  [(bytesOf "x", .str (bytesOf "plain")), (bytesOf "y", .str (bytesOf "_go:_x")),
   (bytesOf "z", .str (bytesOf "_go:_y"))]

/-- The field set that New builds from `templateXYZ`. -/
def fieldsXYZ : GoMap ParsedField :=
  [(bytesOf "x", .static (bytesOf "x") (.str (bytesOf "plain"))),
   (bytesOf "y", .reference (bytesOf "y") (bytesOf "x")),
   (bytesOf "z", .reference (bytesOf "z") (bytesOf "y"))]

/-- The decoded template with a number, a boolean, a plain string and a
pattern. -/
def templateStatic : GoMap Value :=
  [(bytesOf "n", .float64 3), (bytesOf "b", .bool true),
   (bytesOf "s", .str (bytesOf "timestamp")), (bytesOf "p", .str (bytesOf "_go:<5/2/1>"))]

/-- The field set that New builds from `templateStatic`. -/
def fieldsStatic : GoMap ParsedField :=
  [(bytesOf "n", .static (bytesOf "n") (.float64 3)),
   (bytesOf "b", .static (bytesOf "b") (.bool true)),
   (bytesOf "s", .static (bytesOf "s") (.str (bytesOf "timestamp"))),
   (bytesOf "p", .pattern (bytesOf "p") ⟨⟨[], [], 5, 2, 1, 8⟩⟩)]

/-! ## Sample inputs used by the witnesses -/

/-- The descriptor that "<5/2/1>" compiles to. -/
def pattern521 : strPattern := ⟨[], [], 5, 2, 1, 8⟩

/-- A sample state of the random source. -/
def sampleRng : Rng := ⟨fun k => 7 * k + 3, 0⟩

/-- The descriptor that "some prefix <4/2/1> some suffix" compiles to. -/
def patternAffixed : strPattern :=
  ⟨bytesOf "some prefix ", bytesOf " some suffix", 4, 2, 1, 7⟩

/-! # Theorems -/


/-! ## The random string generator -/

theorem getRandomCharFromSource_ok (source : GoString) (g : Rng) (h : source ≠ []) :
    ∃ c g1, c ∈ source ∧ getRandomCharFromSource source g = .ok (c, g1) := by
  have hpos : 0 < source.length := List.length_pos.mpr h
  have hlt : g.draws g.pos % source.length < source.length := Nat.mod_lt _ hpos
  refine ⟨source[g.draws g.pos % source.length], { g with pos := g.pos + 1 },
    List.getElem_mem _, ?_⟩
  have hne : source.length ≠ 0 := Nat.pos_iff_ne_zero.mp hpos
  simp [getRandomCharFromSource, Rng.Intn, hne, List.getElem?_eq_getElem hlt]

theorem fillLoop_ok (source : GoString) (h : source ≠ []) :
    ∀ (k : Nat) (bytes : List Nat) (i : Nat) (g : Rng), i + k ≤ bytes.length →
      ∃ chars g1, chars.length = k ∧ (∀ c ∈ chars, c ∈ source) ∧
        fillLoop source k bytes i g =
          .ok (bytes.take i ++ chars ++ bytes.drop (i + k), i + k, g1) := by
  intro k
  induction k with
  | zero =>
    intro bytes i g _
    exact ⟨[], g, rfl, by simp, by simp [fillLoop]⟩
  | succ k ih =>
    intro bytes i g hik
    obtain ⟨c, g1, hc, hdraw⟩ := getRandomCharFromSource_ok source g h
    have hi : i < bytes.length := by omega
    have hlen : (bytes.set i c).length = bytes.length := List.length_set ..
    obtain ⟨chars, g2, hcl, hcs, hrun⟩ := ih (bytes.set i c) (i + 1) g1 (by omega)
    refine ⟨c :: chars, g2, by simp [hcl], ?_, ?_⟩
    · intro x hx
      rcases List.mem_cons.mp hx with rfl | hx
      · exact hc
      · exact hcs x hx
    · have htake : (bytes.set i c).take (i + 1) = bytes.take i ++ [c] := by
        rw [List.set_eq_take_append_cons_drop, if_pos hi]
        rw [List.take_append_eq_append_take]
        simp [List.take_take, Nat.min_eq_left (Nat.le_of_lt hi)]
      have hdrop : (bytes.set i c).drop (i + 1 + k) = bytes.drop (i + (k + 1)) := by
        rw [List.drop_set_of_lt _ _ (by omega)]
        congr 1
        omega
      simp only [fillLoop, hdraw, hi, if_true]
      rw [hrun, htake, hdrop]
      simp [Nat.add_assoc, Nat.add_comm 1 k]

theorem swapBytes_perm (bytes : List Nat) (i j : Nat) (hi : i < bytes.length)
    (hj : j < bytes.length) :
    ∃ out, swapBytes bytes i j = some out ∧ out.Perm bytes := by
  refine ⟨(bytes.set i bytes[j]).set j bytes[i], ?_, ?_⟩
  · simp [swapBytes, List.getElem?_eq_getElem hi, List.getElem?_eq_getElem hj]
  · rw [List.perm_iff_count]
    intro a
    have hj1 : j < (bytes.set i bytes[j]).length := by simpa using hj
    rw [List.count_set _ _ _ _ hj1, List.count_set _ _ _ _ hi]
    simp only [List.getElem_set, ite_self]
    have hle : (if (bytes[i] == a) = true then 1 else 0) ≤ List.count a bytes :=
      List.boole_getElem_le_count a bytes i hi
    have hle2 : (if (bytes[j] == a) = true then 1 else 0) ≤ List.count a bytes :=
      List.boole_getElem_le_count a bytes j hj
    by_cases h1 : (bytes[i] == a) = true <;> by_cases h2 : (bytes[j] == a) = true <;>
      simp only [h1, h2, if_true, if_false] at hle hle2 ⊢ <;> omega

theorem shuffleLoop_perm :
    ∀ (i : Nat) (bytes : List Nat) (g : Rng), (i < bytes.length ∨ i = 0) →
      ∃ out g1, shuffleLoop i bytes g = .ok (out, g1) ∧ out.Perm bytes := by
  intro i
  induction i with
  | zero =>
    intro bytes g _
    exact ⟨bytes, g, rfl, List.Perm.refl _⟩
  | succ i ih =>
    intro bytes g hi
    have hi1 : i + 1 < bytes.length := by omega
    have hj : g.draws g.pos % (i + 2) < bytes.length :=
      Nat.lt_of_lt_of_le (Nat.mod_lt _ (by omega)) (by omega)
    obtain ⟨b1, hswap, hperm⟩ := swapBytes_perm bytes (i + 1) _ hi1 hj
    obtain ⟨out, g2, hrun, hp⟩ := ih b1 { g with pos := g.pos + 1 }
      (Or.inl (by rw [hperm.length_eq]; omega))
    refine ⟨out, g2, ?_, hp.trans hperm⟩
    simp [shuffleLoop, Rng.Intn, hswap, hrun]

theorem fillLoop_append (source : GoString) (h : source ≠ []) (k : Nat)
    (pre rest : List Nat) (g : Rng) (hk : k ≤ rest.length) :
    ∃ chars g1, chars.length = k ∧ (∀ c ∈ chars, c ∈ source) ∧
      fillLoop source k (pre ++ rest) pre.length g =
        .ok ((pre ++ chars) ++ rest.drop k, pre.length + k, g1) := by
  obtain ⟨chars, g1, hcl, hcs, hrun⟩ :=
    fillLoop_ok source h k (pre ++ rest) pre.length g (by simp; omega)
  refine ⟨chars, g1, hcl, hcs, ?_⟩
  rw [hrun]
  simp [List.take_append_eq_append_take, List.drop_append_eq_append_drop,
    List.drop_eq_nil_of_le]

theorem pool_nonempty :
    bytePoolLetters ≠ [] ∧ bytePoolDigits ≠ [] ∧ bytePoolSpecials ≠ [] := by decide

/-- The body that `generate` returns is a rearrangement of `letters` bytes of
the letter pool, then `digits` bytes of the digit pool, then `specials` bytes
of the special pool. -/
theorem generate_perm (gen : generator) (g : Rng)
    (hl : 0 ≤ gen.pattern.letters) (hd : 0 ≤ gen.pattern.digits)
    (hs : 0 ≤ gen.pattern.specials)
    (hlen : gen.pattern.length =
      gen.pattern.letters + gen.pattern.digits + gen.pattern.specials) :
    ∃ body g1 ls ds ss, gen.generate g = .ok (body, g1) ∧
      body.Perm (ls ++ ds ++ ss) ∧
      ls.length = gen.pattern.letters.toNat ∧ (∀ c ∈ ls, c ∈ bytePoolLetters) ∧
      ds.length = gen.pattern.digits.toNat ∧ (∀ c ∈ ds, c ∈ bytePoolDigits) ∧
      ss.length = gen.pattern.specials.toNat ∧ (∀ c ∈ ss, c ∈ bytePoolSpecials) := by
  obtain ⟨hpl, hpd, hps⟩ := pool_nonempty
  have hn : gen.pattern.length.toNat =
      gen.pattern.letters.toNat + gen.pattern.digits.toNat + gen.pattern.specials.toNat := by
    omega
  have hnn : ¬ gen.pattern.length < 0 := by omega
  obtain ⟨ls, g1, hls, hlm, hrun1⟩ := fillLoop_append bytePoolLetters hpl
    gen.pattern.letters.toNat [] (List.replicate gen.pattern.length.toNat 0) g
    (by simp; omega)
  obtain ⟨ds, g2, hds, hdm, hrun2⟩ := fillLoop_append bytePoolDigits hpd
    gen.pattern.digits.toNat ([] ++ ls)
    ((List.replicate gen.pattern.length.toNat 0).drop gen.pattern.letters.toNat) g1
    (by simp; omega)
  obtain ⟨ss, g3, hss, hsm, hrun3⟩ := fillLoop_append bytePoolSpecials hps
    gen.pattern.specials.toNat (([] ++ ls) ++ ds)
    (((List.replicate gen.pattern.length.toNat 0).drop gen.pattern.letters.toNat).drop
      gen.pattern.digits.toNat) g2
    (by simp; omega)
  have hrest : (((List.replicate gen.pattern.length.toNat 0).drop
      gen.pattern.letters.toNat).drop gen.pattern.digits.toNat).drop
      gen.pattern.specials.toNat = [] := by
    apply List.drop_eq_nil_of_le
    simp
    omega
  rw [hrest, List.append_nil] at hrun3
  obtain ⟨body, g4, hsh, hperm⟩ := shuffleLoop_perm (gen.pattern.length.toNat - 1)
    ((([] ++ ls) ++ ds) ++ ss) g3 (by simp [hls, hds, hss]; omega)
  refine ⟨body, g4, ls, ds, ss, ?_, by simpa using hperm, hls, hlm, hds, hdm, hss, hsm⟩
  simp only [List.nil_append, List.length_nil, Nat.zero_add, List.length_append] at hrun1 hrun2 hrun3 hsh
  rw [hls] at hrun2
  rw [hls, hds] at hrun3
  simp only [generator.generate, hnn, if_false, hrun1, hrun2, hrun3, shuffle, hsh]

theorem pools_disjoint :
    (∀ c ∈ bytePoolLetters, c ∉ bytePoolDigits) ∧
    (∀ c ∈ bytePoolLetters, c ∉ bytePoolSpecials) ∧
    (∀ c ∈ bytePoolDigits, c ∉ bytePoolLetters) ∧
    (∀ c ∈ bytePoolDigits, c ∉ bytePoolSpecials) ∧
    (∀ c ∈ bytePoolSpecials, c ∉ bytePoolLetters) ∧
    (∀ c ∈ bytePoolSpecials, c ∉ bytePoolDigits) := by decide

theorem countP_pool_all (pool xs : List Nat) (h : ∀ c ∈ xs, c ∈ pool) :
    xs.countP (fun c => decide (c ∈ pool)) = xs.length := by
  rw [List.countP_eq_length]
  intro a ha
  simpa using h a ha

theorem countP_pool_none (pool other xs : List Nat) (h : ∀ c ∈ xs, c ∈ other)
    (hdis : ∀ c ∈ other, c ∉ pool) :
    xs.countP (fun c => decide (c ∈ pool)) = 0 := by
  rw [List.countP_eq_zero]
  intro a ha
  simpa using hdis a (h a ha)

/-- C2: for a descriptor with non-negative counts whose length is their sum,
and for every state of the random source, `generate` returns a body in which
exactly `letters` bytes are of the 52-byte letter pool, exactly `digits` of the
10-byte digit pool and exactly `specials` of the 19-byte special pool; the
three pools are pairwise disjoint. -/
theorem C2_generate_class_counts (gen : generator) (g : Rng)
    (hl : 0 ≤ gen.pattern.letters) (hd : 0 ≤ gen.pattern.digits)
    (hs : 0 ≤ gen.pattern.specials)
    (hlen : gen.pattern.length =
      gen.pattern.letters + gen.pattern.digits + gen.pattern.specials) :
    ∃ body g1, gen.generate g = .ok (body, g1) ∧
      (body.countP (fun c => decide (c ∈ bytePoolLetters)) : Int) = gen.pattern.letters ∧
      (body.countP (fun c => decide (c ∈ bytePoolDigits)) : Int) = gen.pattern.digits ∧
      (body.countP (fun c => decide (c ∈ bytePoolSpecials)) : Int) = gen.pattern.specials ∧
      bytePoolLetters.length = 52 ∧ bytePoolDigits.length = 10 ∧
      bytePoolSpecials.length = 19 ∧
      (∀ c ∈ bytePoolLetters, c ∉ bytePoolDigits) ∧
      (∀ c ∈ bytePoolLetters, c ∉ bytePoolSpecials) ∧
      (∀ c ∈ bytePoolDigits, c ∉ bytePoolSpecials) := by
  obtain ⟨body, g1, ls, ds, ss, hrun, hperm, hls, hlm, hds, hdm, hss, hsm⟩ :=
    generate_perm gen g hl hd hs hlen
  obtain ⟨hLD, hLS, hDL, hDS, hSL, hSD⟩ := pools_disjoint
  refine ⟨body, g1, hrun, ?_, ?_, ?_, by decide, by decide, by decide, hLD, hLS, hDS⟩
  · rw [hperm.countP_eq, List.countP_append, List.countP_append,
      countP_pool_all _ ls hlm, countP_pool_none _ _ ds hdm hDL,
      countP_pool_none _ _ ss hsm hSL, hls]
    omega
  · rw [hperm.countP_eq, List.countP_append, List.countP_append,
      countP_pool_none _ _ ls hlm hLD, countP_pool_all _ ds hdm,
      countP_pool_none _ _ ss hsm hSD, hds]
    omega
  · rw [hperm.countP_eq, List.countP_append, List.countP_append,
      countP_pool_none _ _ ls hlm hLS, countP_pool_none _ _ ds hdm hDS,
      countP_pool_all _ ss hsm, hss]
    omega

/-- C2 at the pattern "<5/2/1>": 5 letters, 2 digits, 1 special. -/
theorem C2_witness_521 :
    buildPattern (bytesOf "<5/2/1>") = .ok pattern521 ∧
    ∃ body g1, generator.generate ⟨pattern521⟩ sampleRng = .ok (body, g1) ∧
      (body.countP (fun c => decide (c ∈ bytePoolLetters)) : Int) = 5 ∧
      (body.countP (fun c => decide (c ∈ bytePoolDigits)) : Int) = 2 ∧
      (body.countP (fun c => decide (c ∈ bytePoolSpecials)) : Int) = 1 ∧
      bytePoolLetters.length = 52 ∧ bytePoolDigits.length = 10 ∧
      bytePoolSpecials.length = 19 ∧
      (∀ c ∈ bytePoolLetters, c ∉ bytePoolDigits) ∧
      (∀ c ∈ bytePoolLetters, c ∉ bytePoolSpecials) ∧
      (∀ c ∈ bytePoolDigits, c ∉ bytePoolSpecials) :=
  ⟨by decide, C2_generate_class_counts ⟨pattern521⟩ sampleRng (by decide) (by decide)
    (by decide) (by decide)⟩

/-- C3: for a descriptor with non-negative counts whose length is their sum,
and for every state of the random source, `Generate` returns
prefix ++ body ++ suffix, where body is what `generate` returns and has exactly
`length` bytes; the result starts with the prefix, ends with the suffix and has
len(prefix) + length + len(suffix) bytes. -/
theorem C3_Generate_shape (gen : generator) (g : Rng)
    (hl : 0 ≤ gen.pattern.letters) (hd : 0 ≤ gen.pattern.digits)
    (hs : 0 ≤ gen.pattern.specials)
    (hlen : gen.pattern.length =
      gen.pattern.letters + gen.pattern.digits + gen.pattern.specials) :
    ∃ out body g1, gen.generate g = .ok (body, g1) ∧ gen.Generate g = .ok (out, g1) ∧
      out = gen.pattern.prefixStr ++ body ++ gen.pattern.suffixStr ∧
      (body.length : Int) = gen.pattern.length ∧
      gen.pattern.prefixStr <+: out ∧ gen.pattern.suffixStr <:+ out ∧
      (out.length : Int) =
        gen.pattern.prefixStr.length + gen.pattern.length + gen.pattern.suffixStr.length := by
  obtain ⟨body, g1, ls, ds, ss, hrun, hperm, hls, _, hds, _, hss, _⟩ :=
    generate_perm gen g hl hd hs hlen
  have hbody : (body.length : Int) = gen.pattern.length := by
    rw [hperm.length_eq]
    simp only [List.length_append, hls, hds, hss]
    omega
  refine ⟨gen.pattern.prefixStr ++ body ++ gen.pattern.suffixStr, body, g1, hrun, ?_, rfl,
    hbody, ?_, ?_, ?_⟩
  · simp [generator.Generate, hrun]
  · exact ⟨body ++ gen.pattern.suffixStr, by simp⟩
  · exact ⟨gen.pattern.prefixStr ++ body, rfl⟩
  · simp only [List.length_append]
    omega

/-- C3 at the pattern "some prefix <4/2/1> some suffix". -/
theorem C3_witness_affixed :
    buildPattern (bytesOf "some prefix <4/2/1> some suffix") = .ok patternAffixed ∧
    ∃ out body g1, generator.generate ⟨patternAffixed⟩ sampleRng = .ok (body, g1) ∧
      generator.Generate ⟨patternAffixed⟩ sampleRng = .ok (out, g1) ∧
      out = bytesOf "some prefix " ++ body ++ bytesOf " some suffix" ∧
      (body.length : Int) = 7 ∧
      bytesOf "some prefix " <+: out ∧ bytesOf " some suffix" <:+ out ∧
      (out.length : Int) = (12 : Nat) + 7 + (12 : Nat) :=
  ⟨by decide, C3_Generate_shape ⟨patternAffixed⟩ sampleRng (by decide) (by decide)
    (by decide) (by decide)⟩

/-! ## Decimal text and Atoi -/

theorem digitsVal_ge (s : GoString) : ∀ acc, acc ≤ digitsVal acc s := by
  induction s with
  | nil => intro acc; exact Nat.le_refl _
  | cons c rest ih =>
    intro acc
    have h := ih (acc * 10 + (c - 48))
    simp only [digitsVal, List.foldl_cons] at h ⊢
    omega

theorem parseUintLoop_digits (s0 : GoString) (s : GoString) :
    ∀ acc, allDigits s → digitsVal acc s < 2 ^ 64 →
      parseUintLoop s0 s acc = .ok (digitsVal acc s) := by
  induction s with
  | nil => intro acc _ _; rfl
  | cons c rest ih =>
    intro acc hd hv
    have hc : 48 ≤ c ∧ c ≤ 57 := hd c (List.mem_cons_self _ _)
    have hrest : allDigits rest := fun x hx => hd x (List.mem_cons_of_mem _ hx)
    have hv1 : digitsVal (acc * 10 + (c - 48)) rest < 2 ^ 64 := by
      simpa [digitsVal] using hv
    have hge := digitsVal_ge rest (acc * 10 + (c - 48))
    have h1 : ¬ acc ≥ (2 ^ 64 - 1) / 10 + 1 := by norm_num; omega
    have h2 : ¬ acc * 10 + (c - 48) > 2 ^ 64 - 1 := by norm_num; omega
    rw [parseUintLoop]
    simp only [hc, and_self, if_true, h1, h2, if_false]
    rw [ih _ hrest hv1]
    simp [digitsVal]

theorem digitChar_toNat : ∀ d : Fin 10, (Nat.digitChar d.val).toNat = d.val + 48 := by
  decide

theorem toDigitsCore_append (fuel : Nat) :
    ∀ (n : Nat) (ds : List Char),
      Nat.toDigitsCore 10 fuel n ds = Nat.toDigitsCore 10 fuel n [] ++ ds := by
  induction fuel with
  | zero => intro n ds; simp [Nat.toDigitsCore]
  | succ fuel ih =>
    intro n ds
    simp only [Nat.toDigitsCore]
    by_cases h : n / 10 = 0
    · simp [h]
    · simp only [h, if_false]
      rw [ih (n / 10) (Nat.digitChar (n % 10) :: ds), ih (n / 10) [Nat.digitChar (n % 10)]]
      simp

theorem toDigitsCore_spec (fuel : Nat) :
    ∀ n, n < fuel →
      (Nat.toDigitsCore 10 fuel n []).map Char.toNat ≠ [] ∧
      allDigits ((Nat.toDigitsCore 10 fuel n []).map Char.toNat) ∧
      digitsVal 0 ((Nat.toDigitsCore 10 fuel n []).map Char.toNat) = n := by
  induction fuel with
  | zero => intro n hn; omega
  | succ fuel ih =>
    intro n hn
    have hd : (Nat.digitChar (n % 10)).toNat = n % 10 + 48 :=
      digitChar_toNat ⟨n % 10, Nat.mod_lt _ (by decide)⟩
    simp only [Nat.toDigitsCore]
    by_cases h : n / 10 = 0
    · simp only [h, if_true, List.map_cons, List.map_nil, hd]
      refine ⟨by simp, ?_, ?_⟩
      · intro c hc
        simp only [List.mem_singleton] at hc
        omega
      · simp [digitsVal]
        omega
    · simp only [h, if_false]
      rw [toDigitsCore_append]
      obtain ⟨hne, hall, hval⟩ := ih (n / 10) (by omega)
      simp only [List.map_append, List.map_cons, List.map_nil, hd]
      refine ⟨by simp, ?_, ?_⟩
      · intro c hc
        rcases List.mem_append.mp hc with hc | hc
        · exact hall c hc
        · simp only [List.mem_singleton] at hc
          omega
      · have hfold : digitsVal 0 (List.map Char.toNat (Nat.toDigitsCore 10 fuel (n / 10) []) ++
            [n % 10 + 48]) =
            digitsVal 0 (List.map Char.toNat (Nat.toDigitsCore 10 fuel (n / 10) [])) * 10
              + n % 10 := by
          simp [digitsVal, List.foldl_append]
        rw [hfold, hval]
        omega

theorem decimal_spec (n : Nat) :
    decimal n ≠ [] ∧ allDigits (decimal n) ∧ digitsVal 0 (decimal n) = n := by
  have h := toDigitsCore_spec (n + 1) n (Nat.lt_succ_self n)
  simpa [decimal, bytesOf, Nat.repr, Nat.toDigits, List.asString] using h

theorem Atoi_digits (s : GoString) (hne : s ≠ []) (hall : allDigits s)
    (hv : digitsVal 0 s < 2 ^ 63) : Atoi s = .ok (digitsVal 0 s : Nat) := by
  cases s with
  | nil => exact absurd rfl hne
  | cons c rest =>
    have hc : 48 ≤ c ∧ c ≤ 57 := hall c (List.mem_cons_self _ _)
    have h43 : c ≠ 43 := by omega
    have h45 : c ≠ 45 := by omega
    have hloop := parseUintLoop_digits (c :: rest) (c :: rest) 0 hall
      (Nat.lt_trans hv (by norm_num))
    have hnot : ¬ digitsVal 0 (c :: rest) ≥ 2 ^ 63 := by omega
    have hlt : digitsVal 0 (c :: rest) < 9223372036854775808 := by
      have : (2 : Nat) ^ 63 = 9223372036854775808 := by norm_num
      omega
    simp [Atoi, parseUint, h43, h45, hloop, hlt]

theorem Atoi_decimal (n : Nat) (h : n < 2 ^ 63) : Atoi (decimal n) = .ok (n : Int) := by
  obtain ⟨hne, hall, hval⟩ := decimal_spec n
  have := Atoi_digits (decimal n) hne hall (by rw [hval]; exact h)
  rw [this, hval]

/-! ## Splitting and parsing the pattern body -/

theorem splitByte_ne_nil (sep : Nat) (s : GoString) : splitByte sep s ≠ [] := by
  cases s with
  | nil => simp [splitByte]
  | cons c rest =>
    simp only [splitByte]
    split
    · simp
    · split <;> simp

theorem splitByte_no_sep (sep : Nat) (s : GoString) (h : sep ∉ s) : splitByte sep s = [s] := by
  induction s with
  | nil => rfl
  | cons c rest ih =>
    have hc : c ≠ sep := fun e => h (e ▸ List.mem_cons_self _ _)
    have hr : sep ∉ rest := fun m => h (List.mem_cons_of_mem _ m)
    simp [splitByte, hc, ih hr]

theorem splitByte_append_sep (sep : Nat) (a b : GoString) (h : sep ∉ a) :
    splitByte sep (a ++ sep :: b) = a :: splitByte sep b := by
  induction a with
  | nil => simp [splitByte]
  | cons c rest ih =>
    have hc : c ≠ sep := fun e => h (e ▸ List.mem_cons_self _ _)
    have hr : sep ∉ rest := fun m => h (List.mem_cons_of_mem _ m)
    simp [splitByte, hc, ih hr]

theorem slash_not_mem_digits (s : GoString) (h : allDigits s) : 47 ∉ s := by
  intro hm
  have := h 47 hm
  omega

theorem wrap64_id (x : Int) (h1 : -2 ^ 63 ≤ x) (h2 : x < 2 ^ 63) : wrap64 x = x := by
  unfold wrap64
  have : (x + 2 ^ 63) % 2 ^ 64 = x + 2 ^ 63 := Int.emod_eq_of_lt (by omega) (by omega)
  omega

theorem parsePattern_one (l : Nat) (h : l < 2 ^ 63) :
    parsePattern (decimal l) =
      if (l : Int) > 64 then .err (.tooLong l) else .ok ⟨[], [], l, 0, 0, l⟩ := by
  obtain ⟨_, hall, _⟩ := decimal_spec l
  have hw : wrap64 (0 + (l : Int)) = l := by
    rw [wrap64_id] <;> omega
  simp only [parsePattern, splitByte_no_sep 47 _ (slash_not_mem_digits _ hall),
    parseSegments, Atoi_decimal l h, strPattern.zero, if_true, hw, patternMaxLen]
  simp

theorem parsePattern_two (l d : Nat) (h : l + d < 2 ^ 63) :
    parsePattern (decimal l ++ 47 :: decimal d) =
      if (l : Int) + d > 64 then .err (.tooLong (l + d)) else .ok ⟨[], [], l, d, 0, l + d⟩ := by
  obtain ⟨_, hl, _⟩ := decimal_spec l
  obtain ⟨_, hd, _⟩ := decimal_spec d
  have hw1 : wrap64 (0 + (l : Int)) = l := by
    rw [wrap64_id] <;> omega
  have hw2 : wrap64 ((l : Int) + d) = l + d := by
    rw [wrap64_id] <;> omega
  simp only [parsePattern, splitByte_append_sep 47 _ _ (slash_not_mem_digits _ hl),
    splitByte_no_sep 47 _ (slash_not_mem_digits _ hd),
    parseSegments, Atoi_decimal l (by omega), Atoi_decimal d (by omega), strPattern.zero,
    if_true, hw1, hw2, patternMaxLen]
  simp

theorem parsePattern_three (l d s : Nat) (h : l + d + s < 2 ^ 63) :
    parsePattern (decimal l ++ 47 :: (decimal d ++ 47 :: decimal s)) =
      if (l : Int) + d + s > 64 then .err (.tooLong (l + d + s))
      else .ok ⟨[], [], l, d, s, l + d + s⟩ := by
  obtain ⟨_, hl, _⟩ := decimal_spec l
  obtain ⟨_, hd, _⟩ := decimal_spec d
  obtain ⟨_, hs, _⟩ := decimal_spec s
  have hw1 : wrap64 (0 + (l : Int)) = l := by
    rw [wrap64_id] <;> omega
  have hw2 : wrap64 ((l : Int) + d) = l + d := by
    rw [wrap64_id] <;> omega
  have hw3 : wrap64 ((l : Int) + d + s) = l + d + s := by
    rw [wrap64_id] <;> omega
  simp only [parsePattern, splitByte_append_sep 47 _ _ (slash_not_mem_digits _ hl),
    splitByte_append_sep 47 _ _ (slash_not_mem_digits _ hd),
    splitByte_no_sep 47 _ (slash_not_mem_digits _ hs),
    parseSegments, Atoi_decimal l (by omega), Atoi_decimal d (by omega),
    Atoi_decimal s (by omega), strPattern.zero, if_true, hw1, hw2, hw3, patternMaxLen]
  simp [hw3]

/-- C4: for natural numbers l, d, s with l + d + s at most 64, parsePattern on
the decimal texts "l", "l/d" and "l/d/s" returns the descriptor with these
counts (0 for a missing segment), length their sum, and empty prefix and
suffix. -/
theorem C4_parsePattern_decimal (l d s : Nat) (h : l + d + s ≤ 64) :
    parsePattern (decimal l) = .ok ⟨[], [], l, 0, 0, l⟩ ∧
    parsePattern (decimal l ++ bytesOf "/" ++ decimal d) = .ok ⟨[], [], l, d, 0, l + d⟩ ∧
    parsePattern (decimal l ++ bytesOf "/" ++ decimal d ++ bytesOf "/" ++ decimal s) =
      .ok ⟨[], [], l, d, s, l + d + s⟩ := by
  have e1 : decimal l ++ bytesOf "/" ++ decimal d = decimal l ++ 47 :: decimal d := by
    simp [bytesOf]
  have e2 : decimal l ++ bytesOf "/" ++ decimal d ++ bytesOf "/" ++ decimal s =
      decimal l ++ 47 :: (decimal d ++ 47 :: decimal s) := by
    simp [bytesOf]
  have hb : (2 : Nat) ^ 63 = 9223372036854775808 := by norm_num
  refine ⟨?_, ?_, ?_⟩
  · rw [parsePattern_one l (by omega), if_neg (by omega)]
  · rw [e1, parsePattern_two l d (by omega), if_neg (by omega)]
  · rw [e2, parsePattern_three l d s (by omega), if_neg (by omega)]

/-- C4 at the boundary: 32 + 31 + 1 = 64 is accepted. -/
theorem C4_witness_boundary :
    32 + 31 + 1 ≤ 64 ∧
    decimal 32 ++ bytesOf "/" ++ decimal 31 ++ bytesOf "/" ++ decimal 1 = bytesOf "32/31/1" ∧
    (parsePattern (decimal 32) = .ok ⟨[], [], (32 : Nat), 0, 0, (32 : Nat)⟩ ∧
    parsePattern (decimal 32 ++ bytesOf "/" ++ decimal 31) =
      .ok ⟨[], [], (32 : Nat), (31 : Nat), 0, (32 : Nat) + (31 : Nat)⟩ ∧
    parsePattern (decimal 32 ++ bytesOf "/" ++ decimal 31 ++ bytesOf "/" ++ decimal 1) =
      .ok ⟨[], [], (32 : Nat), (31 : Nat), (1 : Nat), (32 : Nat) + (31 : Nat) + (1 : Nat)⟩) :=
  ⟨by decide, by decide, C4_parsePattern_decimal 32 31 1 (by decide)⟩

/-! ## Rejected pattern bodies -/

theorem parseUintLoop_bad (s0 : GoString) (s : GoString) :
    ∀ acc, (∃ c ∈ s, ¬ (48 ≤ c ∧ c ≤ 57)) → ∃ e, parseUintLoop s0 s acc = .error e := by
  induction s with
  | nil => intro acc h; obtain ⟨c, hc, _⟩ := h; simp at hc
  | cons b rest ih =>
    intro acc h
    rw [parseUintLoop]
    by_cases hb : 48 ≤ b ∧ b ≤ 57
    · have hrest : ∃ c ∈ rest, ¬ (48 ≤ c ∧ c ≤ 57) := by
        obtain ⟨c, hc, hbad⟩ := h
        rcases List.mem_cons.mp hc with rfl | hc
        · exact absurd hb hbad
        · exact ⟨c, hc, hbad⟩
      simp only [hb, and_self, if_true]
      split
      · exact ⟨_, rfl⟩
      · split
        · exact ⟨_, rfl⟩
        · exact ih _ hrest
    · simp only [hb, if_false]
      exact ⟨_, rfl⟩

theorem Atoi_nil : ∃ e, Atoi [] = .error e := ⟨_, rfl⟩

theorem Atoi_bad (s : GoString)
    (h : ∃ c ∈ s, ¬ (48 ≤ c ∧ c ≤ 57) ∧ c ≠ 43 ∧ c ≠ 45) : ∃ e, Atoi s = .error e := by
  obtain ⟨x, hx, hnd, h43, h45⟩ := h
  cases s with
  | nil => simp at hx
  | cons c rest =>
    by_cases hsign : c = 43 ∨ c = 45
    · have hxr : x ∈ rest := by
        rcases List.mem_cons.mp hx with rfl | hxr
        · rcases hsign with e | e
          · exact absurd e h43
          · exact absurd e h45
        · exact hxr
      have hne : rest ≠ [] := List.ne_nil_of_mem hxr
      obtain ⟨e, he⟩ := parseUintLoop_bad (c :: rest) rest 0 ⟨x, hxr, hnd⟩
      refine ⟨e, ?_⟩
      simp only [Atoi, hsign, if_true, parseUint, hne, if_false, he]
    · obtain ⟨e, he⟩ := parseUintLoop_bad (c :: rest) (c :: rest) 0 ⟨x, hx, hnd⟩
      refine ⟨e, ?_⟩
      simp only [Atoi, hsign, if_false, parseUint, he]
      simp

theorem parseSegments_bad (segs : List GoString) :
    ∀ (i : Nat) (p : strPattern), (∃ seg ∈ segs, ∃ e, Atoi seg = .error e) →
      ∃ e, parseSegments i segs p = .err e := by
  induction segs with
  | nil => intro i p h; obtain ⟨seg, hs, _⟩ := h; simp at hs
  | cons str rest ih =>
    intro i p h
    rw [parseSegments]
    cases hA : Atoi str with
    | error e => exact ⟨e, rfl⟩
    | ok num =>
      have hrest : ∃ seg ∈ rest, ∃ e, Atoi seg = .error e := by
        obtain ⟨seg, hs, e, he⟩ := h
        rcases List.mem_cons.mp hs with rfl | hs
        · rw [hA] at he; cases he
        · exact ⟨seg, hs, e, he⟩
      exact ih _ _ hrest

/-- C6: if splitting the body on the slash yields more than three segments, or
some segment is empty or holds a byte that is neither an ASCII digit nor a
sign, parsePattern returns an error (and so no descriptor). -/
theorem C6_parsePattern_rejects (body : GoString)
    (h : (splitByte 47 body).length > 3 ∨
      ∃ seg ∈ splitByte 47 body,
        seg = [] ∨ ∃ c ∈ seg, ¬ (48 ≤ c ∧ c ≤ 57) ∧ c ≠ 43 ∧ c ≠ 45) :
    ∃ e, parsePattern body = .err e := by
  unfold parsePattern
  by_cases hlen : (splitByte 47 body).length > 3
  · exact ⟨.cantSplit, by simp [hlen]⟩
  · rcases h with h | ⟨seg, hseg, hbad⟩
    · exact absurd h hlen
    · have hA : ∃ e, Atoi seg = .error e := by
        rcases hbad with rfl | hbad
        · exact Atoi_nil
        · exact Atoi_bad seg hbad
      obtain ⟨e, he⟩ := parseSegments_bad (splitByte 47 body) 0 strPattern.zero
        ⟨seg, hseg, hA⟩
      exact ⟨e, by simp [hlen, he]⟩

/-- C6 at the bodies "4/2/1/", "4//1", "4/2/c", "a" and the empty body. -/
theorem C6_witness_bodies :
    (splitByte 47 (bytesOf "4/2/1/")).length > 3 ∧
    (∃ e, parsePattern (bytesOf "4/2/1/") = .err e) ∧
    (∃ e, parsePattern (bytesOf "4//1") = .err e) ∧
    (∃ e, parsePattern (bytesOf "4/2/c") = .err e) ∧
    (∃ e, parsePattern (bytesOf "a") = .err e) ∧
    (∃ e, parsePattern (bytesOf "") = .err e) :=
  ⟨by decide,
   C6_parsePattern_rejects (bytesOf "4/2/1/") (Or.inl (by decide)),
   C6_parsePattern_rejects (bytesOf "4//1") (Or.inr ⟨[], by decide, Or.inl rfl⟩),
   C6_parsePattern_rejects (bytesOf "4/2/c")
     (Or.inr ⟨bytesOf "c", by decide, Or.inr ⟨99, by decide, by decide⟩⟩),
   C6_parsePattern_rejects (bytesOf "a")
     (Or.inr ⟨bytesOf "a", by decide, Or.inr ⟨97, by decide, by decide⟩⟩),
   C6_parsePattern_rejects (bytesOf "") (Or.inr ⟨[], by decide, Or.inl rfl⟩)⟩

/-! ## locatePattern, byte by byte -/

theorem decodeRune_spec (b : Nat) (rest : GoString) :
    (b < 128 ∧ decodeRune (b :: rest) = (b, 1)) ∨
    (128 ≤ b ∧ 128 ≤ (decodeRune (b :: rest)).1 ∧
      ∀ c ∈ rest.take ((decodeRune (b :: rest)).2 - 1), 128 ≤ c) := by
  by_cases hb : b < 128
  · left
    exact ⟨hb, by simp [decodeRune, hb]⟩
  · right
    refine ⟨by omega, ?_⟩
    rcases rest with _ | ⟨s1, _ | ⟨s2, _ | ⟨s3, t⟩⟩⟩ <;>
      simp only [decodeRune, hb, if_false, runeError, isCont] <;>
      split_ifs <;> simp_all <;> omega

theorem locateStep_high (raw : GoString) (st : Int × Int) (i b : Nat) (hb : 128 ≤ b) :
    locateStep raw st (i, b) = st := by
  have h60 : b ≠ 60 := by omega
  have h62 : b ≠ 62 := by omega
  simp [locateStep, h60, h62]

theorem locateStep_rune (raw : GoString) (st : Int × Int) (i b : Nat) (rest : GoString) :
    locateStep raw st (i, (decodeRune (b :: rest)).1) = locateStep raw st (i, b) := by
  rcases decodeRune_spec b rest with ⟨_, h⟩ | ⟨hb, hr, _⟩
  · rw [h]
  · rw [locateStep_high raw st i _ hr, locateStep_high raw st i b hb]

theorem rangeFrom_fold (raw : GoString) (rest : GoString) :
    ∀ (i k : Nat) (st : Int × Int), (∀ c ∈ rest.take k, 128 ≤ c) →
      (rangeFrom i k rest).foldl (locateStep raw) st =
        (rest.enumFrom i).foldl (locateStep raw) st := by
  induction rest with
  | nil => intro i k st _; cases k <;> rfl
  | cons b rest ih =>
    intro i k st hk
    cases k with
    | zero =>
      simp only [rangeFrom, List.foldl_cons, List.enumFrom_cons]
      rw [locateStep_rune]
      apply ih
      rcases decodeRune_spec b rest with ⟨_, h⟩ | ⟨_, _, h⟩
      · rw [h]; simp
      · exact h
    | succ k =>
      simp only [rangeFrom, List.foldl_cons, List.enumFrom_cons]
      have hb : 128 ≤ b := hk b (by simp)
      rw [locateStep_high raw st i b hb]
      apply ih
      intro c hc
      exact hk c (by simp [hc])

theorem getD_after (p : List Nat) (x : Nat) (t : List Nat) :
    (p ++ x :: t).getD p.length 0 = x := by
  induction p with
  | nil => rfl
  | cons a p ih => simpa using ih

theorem enum_fold_scan (rest : GoString) :
    ∀ (pre : GoString) (st : Int × Int),
      (rest.enumFrom pre.length).foldl (locateStep (pre ++ rest)) st =
        scanBytes (decide (pre.getLast? = some 92)) pre.length st rest := by
  induction rest with
  | nil => intro pre st; rfl
  | cons b rest ih =>
    intro pre st
    have hraw : pre ++ b :: rest = (pre ++ [b]) ++ rest := by simp
    have hstep : locateStep (pre ++ b :: rest) st (pre.length, b) =
        toggleStep (decide (pre.getLast? = some 92)) pre.length b st := by
      rcases List.eq_nil_or_concat pre with rfl | ⟨p, x, rfl⟩
      · simp [locateStep, toggleStep]
        split_ifs <;> simp_all
      · rw [List.concat_eq_append]
        have hget : (p ++ [x] ++ b :: rest).getD ((p ++ [x]).length - 1) 0 = x := by
          have := getD_after p x (b :: rest)
          simpa using this
        have hpos : 0 < (p ++ [x]).length := by simp
        have hlast : (p ++ [x]).getLast? = some x := by simp
        simp only [locateStep, toggleStep, hget, hpos, hlast, true_and, Option.some.injEq]
        by_cases hx : x = 92
        · simp [hx]
        · simp only [hx, if_false, decide_False]
          split_ifs <;> simp_all
    simp only [List.enumFrom_cons, List.foldl_cons, scanBytes]
    rw [hstep, hraw]
    have := ih (pre ++ [b]) (toggleStep (decide (pre.getLast? = some 92)) pre.length b st)
    simp only [List.length_append, List.length_singleton] at this
    rw [this]
    simp

/-- locatePattern, whose loop goes rune by rune, is the byte-by-byte scan: a
byte of a multi-byte rune is neither a bracket nor a backslash. -/
theorem locatePattern_eq_scan (raw : GoString) :
    locatePattern raw = scanBytes false 0 (-1, -1) raw := by
  unfold locatePattern rangeString
  rw [rangeFrom_fold raw raw 0 0 (-1, -1) (by simp)]
  have := enum_fold_scan raw [] (-1, -1)
  simpa using this

/-! ## buildPattern on escaped text around a bracketed body -/

theorem toggleStep_escaped (i b : Nat) (st : Int × Int) : toggleStep true i b st = st := by
  simp [toggleStep]

theorem toggleStep_other (esc : Bool) (i b : Nat) (st : Int × Int) (h60 : b ≠ 60)
    (h62 : b ≠ 62) : toggleStep esc i b st = st := by
  simp [toggleStep, h60, h62]

theorem scan_escaped (p : GoString) (h : 92 ∉ p) :
    ∀ (i : Nat) (st : Int × Int) (rest : GoString),
      scanBytes false i st (escapeBrackets p ++ rest) =
        scanBytes false (i + (escapeBrackets p).length) st rest := by
  induction p with
  | nil => intro i st rest; rfl
  | cons c p ih =>
    intro i st rest
    have hc : c ≠ 92 := fun e => h (e ▸ List.mem_cons_self _ _)
    have hp : 92 ∉ p := fun m => h (List.mem_cons_of_mem _ m)
    have hd : decide (c = 92) = false := by simp [hc]
    by_cases hb : c = 60 ∨ c = 62
    · have hesc : escapeBrackets (c :: p) = 92 :: c :: escapeBrackets p := by
        simp [escapeBrackets, hb]
      rw [hesc]
      show scanBytes false i st (92 :: c :: (escapeBrackets p ++ rest)) = _
      rw [scanBytes, scanBytes, toggleStep_other false i 92 st (by decide) (by decide)]
      simp only [decide_True, toggleStep_escaped, hd]
      rw [ih hp]
      congr 1
      simp only [List.length_cons]
      omega
    · have h60 : c ≠ 60 := fun e => hb (Or.inl e)
      have h62 : c ≠ 62 := fun e => hb (Or.inr e)
      have hesc : escapeBrackets (c :: p) = c :: escapeBrackets p := by
        simp [escapeBrackets, h60, h62]
      rw [hesc]
      show scanBytes false i st (c :: (escapeBrackets p ++ rest)) = _
      rw [scanBytes, toggleStep_other false i c st h60 h62, hd, ih hp]
      congr 1
      simp only [List.length_cons]
      omega

theorem escapeBrackets_plain (s : GoString) (h : ∀ c ∈ s, c ≠ 60 ∧ c ≠ 62) :
    escapeBrackets s = s := by
  induction s with
  | nil => rfl
  | cons c s ih =>
    have hc := h c (List.mem_cons_self _ _)
    have hs : ∀ x ∈ s, x ≠ 60 ∧ x ≠ 62 := fun x hx => h x (List.mem_cons_of_mem _ hx)
    simp [escapeBrackets, hc.1, hc.2, ih hs]

theorem unescapeLoop_escaped (p : GoString) (h : 92 ∉ p) :
    ∀ res, unescapeLoop (escapeBrackets p) res = .ok (res ++ p) := by
  induction p with
  | nil => intro res; simp [escapeBrackets, unescapeLoop]
  | cons c p ih =>
    intro res
    have hc : c ≠ 92 := fun e => h (e ▸ List.mem_cons_self _ _)
    have hp : 92 ∉ p := fun m => h (List.mem_cons_of_mem _ m)
    by_cases hb : c = 60 ∨ c = 62
    · simp only [escapeBrackets, hb, if_true, unescapeLoop, hc, ne_eq, not_false_eq_true,
        if_false]
      rw [ih hp]
      simp
    · simp only [escapeBrackets, hb, if_false, unescapeLoop, hc]
      rw [ih hp]
      simp

theorem sliceStr_mid (A B C : GoString) :
    sliceStr (A ++ 60 :: (B ++ 62 :: C)) ((A.length : Int) + 1)
      ((A.length : Int) + 1 + B.length) = some B := by
  have h1 : ((A.length : Int) + 1).toNat = A.length + 1 := by omega
  have h2 : ((A.length : Int) + 1 + B.length).toNat = A.length + 1 + B.length := by omega
  have hcond : 0 ≤ (A.length : Int) + 1 ∧
      (A.length : Int) + 1 ≤ (A.length : Int) + 1 + B.length ∧
      (A.length : Int) + 1 + B.length ≤ ((A ++ 60 :: (B ++ 62 :: C)).length : Int) := by
    simp only [List.length_append, List.length_cons]
    omega
  have hAB : A ++ 60 :: (B ++ 62 :: C) = (A ++ [60] ++ B) ++ 62 :: C := by simp
  have hlen : (A ++ [60] ++ B).length = A.length + 1 + B.length := by
    simp only [List.length_append, List.length_singleton]
  have hA1 : (A ++ [60]).length = A.length + 1 := by simp
  rw [sliceStr, if_pos hcond, h1, h2, hAB, ← hlen, List.take_left, ← hA1,
    List.drop_left]

theorem sliceStr_front (A R : GoString) :
    sliceStr (A ++ R) 0 (A.length : Int) = some A := by
  have hcond : (0 : Int) ≤ 0 ∧ (0 : Int) ≤ (A.length : Int) ∧
      (A.length : Int) ≤ ((A ++ R).length : Int) := by
    simp only [List.length_append]
    omega
  rw [sliceStr, if_pos hcond]
  simp

theorem sliceStr_back (A C : GoString) :
    sliceStr (A ++ C) (A.length : Int) ((A ++ C).length : Int) = some C := by
  have hcond : (0 : Int) ≤ (A.length : Int) ∧ (A.length : Int) ≤ ((A ++ C).length : Int) ∧
      ((A ++ C).length : Int) ≤ ((A ++ C).length : Int) := by
    simp only [List.length_append]
    omega
  rw [sliceStr, if_pos hcond, Int.toNat_ofNat, Int.toNat_ofNat, List.take_length,
    List.drop_left]

/-- buildPattern when locatePattern finds the brackets around `B`. -/
theorem buildPattern_of_locate (A B C : GoString)
    (hloc : locatePattern (A ++ 60 :: (B ++ 62 :: C)) =
      ((A.length : Int), (A.length : Int) + 1 + B.length)) :
    buildPattern (A ++ 60 :: (B ++ 62 :: C)) =
      match parsePattern B with
      | .err e => .err e
      | .panic q => .panic q
      | .ok pattern =>
        match unescapeString A with
        | .err e => .err e
        | .panic q => .panic q
        | .ok pre =>
          match unescapeString C with
          | .err e => .err e
          | .panic q => .panic q
          | .ok suf => .ok { pattern with prefixStr := pre, suffixStr := suf } := by
  have hcond : ¬ ((A.length : Int) = -1 ∨ (A.length : Int) + 1 + B.length = -1 ∨
      (A.length : Int) > (A.length : Int) + 1 + B.length) := by omega
  have hback : sliceStr (A ++ 60 :: (B ++ 62 :: C)) ((A.length : Int) + 1 + B.length + 1)
      ((A ++ 60 :: (B ++ 62 :: C)).length : Int) = some C := by
    have e : A ++ 60 :: (B ++ 62 :: C) = (A ++ [60] ++ B ++ [62]) ++ C := by simp
    have l : (A.length : Int) + 1 + B.length + 1 = ((A ++ [60] ++ B ++ [62]).length : Int) := by
      simp only [List.length_append, List.length_singleton]
      omega
    rw [e, l]
    exact sliceStr_back _ C
  unfold buildPattern
  simp only [hloc, hcond, if_false, sliceStr_mid, sliceStr_front, hback]

theorem bracketed_eq (p b q : GoString) :
    bracketed p b q = escapeBrackets p ++ 60 :: (b ++ 62 :: escapeBrackets q) := by
  simp [bracketed, bytesOf]

theorem locate_bracketed (p b q : GoString) (hp : 92 ∉ p) (hq : 92 ∉ q)
    (hb : ∀ c ∈ b, c ≠ 60 ∧ c ≠ 62 ∧ c ≠ 92) :
    locatePattern (bracketed p b q) =
      (((escapeBrackets p).length : Int), ((escapeBrackets p).length : Int) + 1 + b.length) := by
  have hb92 : 92 ∉ b := fun m => (hb 92 m).2.2 rfl
  have hbe : escapeBrackets b = b :=
    escapeBrackets_plain b (fun c hc => ⟨(hb c hc).1, (hb c hc).2.1⟩)
  have hscanb := scan_escaped b hb92
  rw [hbe] at hscanb
  have hq0 := scan_escaped q hq
  rw [bracketed_eq, locatePattern_eq_scan, scan_escaped p hp]
  rw [scanBytes, show decide ((60 : Nat) = 92) = false by decide, hscanb, scanBytes]
  have := hq0 (0 + (escapeBrackets p).length + 1 + b.length + 1)
    (toggleStep false (0 + (escapeBrackets p).length + 1 + b.length) 62
      (toggleStep false (0 + (escapeBrackets p).length) 60 (-1, -1))) []
  simp only [List.append_nil, scanBytes] at this
  simp only [show decide ((62 : Nat) = 92) = false by decide]
  rw [this]
  simp [toggleStep]

theorem buildPattern_bracketed (p b q : GoString) (hp : 92 ∉ p) (hq : 92 ∉ q)
    (hb : ∀ c ∈ b, c ≠ 60 ∧ c ≠ 62 ∧ c ≠ 92) :
    buildPattern (bracketed p b q) =
      match parsePattern b with
      | .err e => .err e
      | .panic x => .panic x
      | .ok pattern => .ok { pattern with prefixStr := p, suffixStr := q } := by
  have hloc := locate_bracketed p b q hp hq hb
  rw [bracketed_eq] at hloc ⊢
  rw [buildPattern_of_locate _ _ _ hloc]
  simp only [unescapeString, unescapeLoop_escaped p hp, unescapeLoop_escaped q hq,
    List.nil_append]

theorem plain_digits (s : GoString) (h : allDigits s) :
    ∀ c ∈ s, c ≠ 60 ∧ c ≠ 62 ∧ c ≠ 92 := by
  intro c hc
  have := h c hc
  omega

theorem plain_two (l d : Nat) :
    ∀ c ∈ decimal l ++ bytesOf "/" ++ decimal d, c ≠ 60 ∧ c ≠ 62 ∧ c ≠ 92 := by
  intro c hc
  simp only [List.mem_append, bytesOf] at hc
  rcases hc with (hc | hc) | hc
  · exact plain_digits _ (decimal_spec l).2.1 c hc
  · simp at hc; subst hc; decide
  · exact plain_digits _ (decimal_spec d).2.1 c hc

theorem plain_three (l d s : Nat) :
    ∀ c ∈ decimal l ++ bytesOf "/" ++ decimal d ++ bytesOf "/" ++ decimal s,
      c ≠ 60 ∧ c ≠ 62 ∧ c ≠ 92 := by
  intro c hc
  rw [List.append_assoc (decimal l ++ bytesOf "/" ++ decimal d)] at hc
  rcases List.mem_append.mp hc with hc | hc
  · exact plain_two l d c hc
  · rcases List.mem_append.mp hc with hc | hc
    · simp [bytesOf] at hc; subst hc; decide
    · exact plain_digits _ (decimal_spec s).2.1 c hc

theorem parsePattern_texts_ok (l d s : Nat) (h : l + d + s ≤ 64) :
    parsePattern (decimal l) = .ok ⟨[], [], l, 0, 0, l⟩ ∧
    parsePattern (decimal l ++ bytesOf "/" ++ decimal d) = .ok ⟨[], [], l, d, 0, l + d⟩ ∧
    parsePattern (decimal l ++ bytesOf "/" ++ decimal d ++ bytesOf "/" ++ decimal s) =
      .ok ⟨[], [], l, d, s, l + d + s⟩ := by
  have e1 : decimal l ++ bytesOf "/" ++ decimal d = decimal l ++ 47 :: decimal d := by
    simp [bytesOf]
  have e2 : decimal l ++ bytesOf "/" ++ decimal d ++ bytesOf "/" ++ decimal s =
      decimal l ++ 47 :: (decimal d ++ 47 :: decimal s) := by
    simp [bytesOf]
  have hb : (2 : Nat) ^ 63 = 9223372036854775808 := by norm_num
  refine ⟨?_, ?_, ?_⟩
  · rw [parsePattern_one l (by omega), if_neg (by omega)]
  · rw [e1, parsePattern_two l d (by omega), if_neg (by omega)]
  · rw [e2, parsePattern_three l d s (by omega), if_neg (by omega)]

/-- C8: for texts p and q without a backslash and a body of one to three
decimal segments with sum at most 64, buildPattern on
esc(p) ++ "<" ++ body ++ ">" ++ esc(q) succeeds with prefix p, suffix q and the
counts of the body; locatePattern takes the brackets of the body, right after
esc(p), as start and end, and none of the escaped ones. -/
theorem C8_escape_round_trip (p q : GoString) (l d s : Nat) (hp : 92 ∉ p) (hq : 92 ∉ q)
    (h : l + d + s ≤ 64) :
    (buildPattern (bracketed p (decimal l) q) = .ok ⟨p, q, l, 0, 0, l⟩ ∧
      locatePattern (bracketed p (decimal l) q) =
        (((escapeBrackets p).length : Int),
          ((escapeBrackets p).length : Int) + 1 + (decimal l).length)) ∧
    (buildPattern (bracketed p (decimal l ++ bytesOf "/" ++ decimal d) q) =
        .ok ⟨p, q, l, d, 0, l + d⟩ ∧
      locatePattern (bracketed p (decimal l ++ bytesOf "/" ++ decimal d) q) =
        (((escapeBrackets p).length : Int),
          ((escapeBrackets p).length : Int) + 1 +
            (decimal l ++ bytesOf "/" ++ decimal d).length)) ∧
    (buildPattern
        (bracketed p (decimal l ++ bytesOf "/" ++ decimal d ++ bytesOf "/" ++ decimal s) q) =
        .ok ⟨p, q, l, d, s, l + d + s⟩ ∧
      locatePattern
        (bracketed p (decimal l ++ bytesOf "/" ++ decimal d ++ bytesOf "/" ++ decimal s) q) =
        (((escapeBrackets p).length : Int),
          ((escapeBrackets p).length : Int) + 1 +
            (decimal l ++ bytesOf "/" ++ decimal d ++ bytesOf "/" ++ decimal s).length)) := by
  obtain ⟨h1, h2, h3⟩ := parsePattern_texts_ok l d s h
  have b1 := plain_digits _ (decimal_spec l).2.1
  have b2 := plain_two l d
  have b3 := plain_three l d s
  refine ⟨⟨?_, locate_bracketed p _ q hp hq b1⟩, ⟨?_, locate_bracketed p _ q hp hq b2⟩,
    ⟨?_, locate_bracketed p _ q hp hq b3⟩⟩
  · rw [buildPattern_bracketed p _ q hp hq b1, h1]
  · rw [buildPattern_bracketed p _ q hp hq b2, h2]
  · rw [buildPattern_bracketed p _ q hp hq b3, h3]

/-- C8 at the raw pattern "I \<3 U <4/2/1> 1 \> 0": prefix "I <3 U " and
suffix " 1 > 0". -/
theorem C8_witness_escapes :
    92 ∉ bytesOf "I <3 U " ∧ 92 ∉ bytesOf " 1 > 0" ∧ 4 + 2 + 1 ≤ 64 ∧
    bracketed (bytesOf "I <3 U ")
      (decimal 4 ++ bytesOf "/" ++ decimal 2 ++ bytesOf "/" ++ decimal 1) (bytesOf " 1 > 0") =
      bytesOf "I \\<3 U <4/2/1> 1 \\> 0" ∧
    buildPattern (bracketed (bytesOf "I <3 U ")
      (decimal 4 ++ bytesOf "/" ++ decimal 2 ++ bytesOf "/" ++ decimal 1) (bytesOf " 1 > 0")) =
      .ok ⟨bytesOf "I <3 U ", bytesOf " 1 > 0", (4 : Nat), (2 : Nat), (1 : Nat),
        (4 : Nat) + (2 : Nat) + (1 : Nat)⟩ :=
  ⟨by decide, by decide, by decide, by decide,
   (C8_escape_round_trip (bytesOf "I <3 U ") (bytesOf " 1 > 0") 4 2 1 (by decide) (by decide)
     (by decide)).2.2.1⟩

/-! ## The length cap -/

theorem parsePattern_length_le (body : GoString) (pat : strPattern)
    (h : parsePattern body = .ok pat) : pat.length ≤ 64 := by
  simp only [parsePattern] at h
  split at h
  · cases h
  · split at h
    · split at h
      · cases h
      · cases h
        simp_all [patternMaxLen]
    · cases h
    · cases h

theorem buildPattern_ok_inv (raw : GoString) (pat : strPattern)
    (h : buildPattern raw = .ok pat) :
    ∃ body pattern, parsePattern body = .ok pattern ∧ pat.length = pattern.length ∧
      pat.letters = pattern.letters ∧ pat.digits = pattern.digits ∧
      pat.specials = pattern.specials ∧
      ¬ ((locatePattern raw).1 = -1 ∨ (locatePattern raw).2 = -1 ∨
        (locatePattern raw).1 > (locatePattern raw).2) ∧
      sliceStr raw ((locatePattern raw).1 + 1) (locatePattern raw).2 = some body := by
  simp only [buildPattern] at h
  split at h
  · cases h
  · rename_i hloc
    split at h
    · cases h
    · rename_i body hbody
      split at h
      · cases h
      · cases h
      · rename_i pattern hpp
        split at h
        · cases h
        · split at h
          · cases h
          · cases h
          · split at h
            · cases h
            · split at h
              · cases h
              · cases h
              · cases h
                exact ⟨body, pattern, hpp, rfl, rfl, rfl, rfl, hloc, hbody⟩

theorem buildPattern_length_le (raw : GoString) (pat : strPattern)
    (h : buildPattern raw = .ok pat) : pat.length ≤ 64 := by
  obtain ⟨body, pattern, hpp, hlen, _⟩ := buildPattern_ok_inv raw pat h
  rw [hlen]
  exact parsePattern_length_le _ _ hpp

theorem newPatternGenerator_length_le (raw : GoString) (gen : generator)
    (h : newPatternGenerator raw = .ok gen) : gen.pattern.length ≤ 64 := by
  unfold newPatternGenerator at h
  split at h
  · rename_i pattern hb
    cases h
    exact buildPattern_length_le _ _ hb
  · cases h
  · cases h

theorem refusedTooLong_of (b : GoString) (n : Int)
    (hb : ∀ c ∈ b, c ≠ 60 ∧ c ≠ 62 ∧ c ≠ 92) (h : parsePattern b = .err (.tooLong n)) :
    refusedTooLong b n := by
  have hbuild : buildPattern (bracketed [] b []) = .err (.tooLong n) := by
    rw [buildPattern_bracketed [] b [] (by simp) (by simp) hb, h]
  exact ⟨h, hbuild, by simp [newPatternGenerator, hbuild]⟩

/-- C5: for natural numbers whose sum stays below 2^63, a body "l", "l/d" or
"l/d/s" whose segments sum to more than 64 is refused with the length error by
parsePattern, and in brackets by buildPattern and newPatternGenerator; and
every descriptor that parsePattern, buildPattern or newPatternGenerator
returns has length at most 64. -/
theorem C5_length_cap (l d s : Nat) (hb : l + d + s < 2 ^ 63) :
    (64 < l → refusedTooLong (decimal l) l) ∧
    (64 < l + d → refusedTooLong (decimal l ++ bytesOf "/" ++ decimal d) (l + d)) ∧
    (64 < l + d + s →
      refusedTooLong (decimal l ++ bytesOf "/" ++ decimal d ++ bytesOf "/" ++ decimal s)
        (l + d + s)) ∧
    (∀ body pat, parsePattern body = .ok pat → pat.length ≤ 64) ∧
    (∀ raw pat, buildPattern raw = .ok pat → pat.length ≤ 64) ∧
    (∀ raw gen, newPatternGenerator raw = .ok gen → gen.pattern.length ≤ 64) := by
  have e1 : decimal l ++ bytesOf "/" ++ decimal d = decimal l ++ 47 :: decimal d := by
    simp [bytesOf]
  have e2 : decimal l ++ bytesOf "/" ++ decimal d ++ bytesOf "/" ++ decimal s =
      decimal l ++ 47 :: (decimal d ++ 47 :: decimal s) := by
    simp [bytesOf]
  refine ⟨?_, ?_, ?_, parsePattern_length_le, buildPattern_length_le,
    newPatternGenerator_length_le⟩
  · intro h
    apply refusedTooLong_of _ _ (plain_digits _ (decimal_spec l).2.1)
    rw [parsePattern_one l (by omega), if_pos (by omega)]
  · intro h
    apply refusedTooLong_of _ _ (plain_two l d)
    rw [e1, parsePattern_two l d (by omega), if_pos (by omega)]
  · intro h
    apply refusedTooLong_of _ _ (plain_three l d s)
    rw [e2, parsePattern_three l d s (by omega), if_pos (by omega)]

/-- C5 at the patterns "<65>" and "<32/32/1>". -/
theorem C5_witness_too_long :
    32 + 32 + 1 < 2 ^ 63 ∧ 65 + 0 + 0 < 2 ^ 63 ∧
    bracketed [] (decimal 65) [] = bytesOf "<65>" ∧
    bracketed [] (decimal 32 ++ bytesOf "/" ++ decimal 32 ++ bytesOf "/" ++ decimal 1) [] =
      bytesOf "<32/32/1>" ∧
    refusedTooLong (decimal 65) (65 : Nat) ∧
    refusedTooLong (decimal 32 ++ bytesOf "/" ++ decimal 32 ++ bytesOf "/" ++ decimal 1)
      ((32 : Nat) + (32 : Nat) + (1 : Nat)) :=
  ⟨by norm_num, by norm_num, by decide, by decide,
   (C5_length_cap 65 0 0 (by norm_num)).1 (by decide),
   (C5_length_cap 32 32 1 (by norm_num)).2.2.1 (by decide)⟩

/-! ## unescapeString -/

theorem unescapeLoop_bs_bs (t res : GoString) :
    unescapeLoop (92 :: 92 :: t) res = unescapeLoop (92 :: t) (res ++ [92]) := by
  rw [unescapeLoop]
  simp

theorem unescapeLoop_run (c : Nat) (hc : c ≠ 92) (rest : GoString) :
    ∀ (k : Nat) (res : GoString),
      unescapeLoop (List.replicate (k + 1) 92 ++ c :: rest) res =
        unescapeLoop rest (res ++ List.replicate k 92 ++ [c]) := by
  intro k
  induction k with
  | zero =>
    intro res
    simp [unescapeLoop, hc]
  | succ k ih =>
    intro res
    have e : List.replicate (k + 1 + 1) 92 ++ c :: rest =
        92 :: 92 :: (List.replicate k 92 ++ c :: rest) := by
      simp [List.replicate_succ]
    have e1 : 92 :: (List.replicate k 92 ++ c :: rest) =
        List.replicate (k + 1) 92 ++ c :: rest := by
      simp [List.replicate_succ]
    rw [e, unescapeLoop_bs_bs, e1, ih]
    simp [List.replicate_succ]

theorem unescapeLoop_escRun (t : Nat × Nat) (ht : t.2 ≠ 92) (rest res : GoString) :
    unescapeLoop (escRun t ++ rest) res = unescapeLoop rest (res ++ escRunKept t) := by
  obtain ⟨k, c⟩ := t
  cases k with
  | zero =>
    have hc : c ≠ 92 := ht
    simp [escRun, escRunKept, unescapeLoop, hc]
  | succ k =>
    have := unescapeLoop_run c ht rest k res
    simpa [escRun, escRunKept, List.append_assoc] using this

theorem unescapeLoop_runs (toks : List (Nat × Nat)) :
    ∀ res, (∀ t ∈ toks, t.2 ≠ 92) →
      unescapeLoop ((toks.map escRun).flatten) res = .ok (res ++ (toks.map escRunKept).flatten) := by
  induction toks with
  | nil => intro res _; simp [unescapeLoop]
  | cons t toks ih =>
    intro res h
    have ht := h t (List.mem_cons_self _ _)
    have hrest : ∀ x ∈ toks, x.2 ≠ 92 := fun x hx => h x (List.mem_cons_of_mem _ hx)
    simp only [List.map_cons, List.flatten_cons]
    rw [unescapeLoop_escRun t ht, ih _ hrest]
    simp

theorem runs_cover (raw : GoString) (h : raw.getLast? ≠ some 92) :
    ∃ toks : List (Nat × Nat), (∀ t ∈ toks, t.2 ≠ 92) ∧ raw = (toks.map escRun).flatten := by
  induction raw with
  | nil => exact ⟨[], by simp, by simp⟩
  | cons c rest ih =>
    cases rest with
    | nil =>
      have hc : c ≠ 92 := by simpa using h
      exact ⟨[(0, c)], by simpa using hc, by simp [escRun]⟩
    | cons d rest =>
      have hlast : (d :: rest).getLast? ≠ some 92 := by
        simpa [List.getLast?_cons_cons] using h
      obtain ⟨toks, htoks, hraw⟩ := ih hlast
      by_cases hc : c = 92
      · cases toks with
        | nil => simp at hraw
        | cons t ts =>
          refine ⟨(t.1 + 1, t.2) :: ts, ?_, ?_⟩
          · intro x hx
            rcases List.mem_cons.mp hx with rfl | hx
            · exact htoks t (List.mem_cons_self _ _)
            · exact htoks x (List.mem_cons_of_mem _ hx)
          · rw [hraw, hc]
            simp [escRun, List.replicate_succ]
      · refine ⟨(0, c) :: toks, ?_, ?_⟩
        · intro x hx
          rcases List.mem_cons.mp hx with rfl | hx
          · exact hc
          · exact htoks x hx
        · rw [hraw]
          simp [escRun]

/-- C10 (as amended): unescapeString keeps a backslash exactly when the next
byte is a backslash too, and drops a backslash followed by another byte,
keeping that byte. On a text made of runs, each of k backslashes followed by a
byte that is not a backslash, it returns for each run k-1 backslashes (none for
k = 0) followed by that byte; every text that does not end in a backslash is
made of such runs. -/
theorem C10_unescape_runs :
    (∀ toks : List (Nat × Nat), (∀ t ∈ toks, t.2 ≠ 92) →
      unescapeString ((toks.map escRun).flatten) = .ok ((toks.map escRunKept).flatten)) ∧
    (∀ raw : GoString, raw.getLast? ≠ some 92 →
      ∃ toks : List (Nat × Nat), (∀ t ∈ toks, t.2 ≠ 92) ∧ raw = (toks.map escRun).flatten) ∧
    (∀ (pre rest : GoString) (c : Nat), c ≠ 92 → pre.getLast? ≠ some 92 →
      rest.getLast? ≠ some 92 → ∃ a b, unescapeString pre = .ok a ∧
        unescapeString rest = .ok b ∧
        unescapeString (pre ++ bytesOf "\\\\" ++ c :: rest) = .ok (a ++ bytesOf "\\" ++ c :: b) ∧
        unescapeString (pre ++ bytesOf "\\" ++ c :: rest) = .ok (a ++ c :: b)) := by
  refine ⟨?_, runs_cover, ?_⟩
  · intro toks h
    have := unescapeLoop_runs toks [] h
    simpa [unescapeString] using this
  · intro pre rest c hc hpre hrest
    obtain ⟨t1, h1, e1⟩ := runs_cover pre hpre
    obtain ⟨t2, h2, e2⟩ := runs_cover rest hrest
    have hall : ∀ (k : Nat), ∀ t ∈ t1 ++ (k, c) :: t2, t.2 ≠ 92 := by
      intro k t ht
      rcases List.mem_append.mp ht with ht | ht
      · exact h1 t ht
      · rcases List.mem_cons.mp ht with rfl | ht
        · exact hc
        · exact h2 t ht
    refine ⟨(t1.map escRunKept).flatten, (t2.map escRunKept).flatten, ?_, ?_, ?_, ?_⟩
    · rw [e1]
      simpa [unescapeString] using unescapeLoop_runs t1 [] h1
    · rw [e2]
      simpa [unescapeString] using unescapeLoop_runs t2 [] h2
    · have := unescapeLoop_runs (t1 ++ (2, c) :: t2) [] (hall 2)
      rw [e1, e2]
      simpa [unescapeString, escRun, escRunKept, bytesOf, List.replicate_succ] using this
    · have := unescapeLoop_runs (t1 ++ (1, c) :: t2) [] (hall 1)
      rw [e1, e2]
      simpa [unescapeString, escRun, escRunKept, bytesOf, List.replicate_succ] using this

/-- C10 as stated fails: of the two adjacent backslashes of the four bytes
a, backslash, backslash, b only one is returned. -/
theorem C10_counterexample_pair :
    unescapeString (bytesOf "a\\\\b") = .ok (bytesOf "a\\b") ∧
    unescapeString (bytesOf "a\\\\b") ≠ .ok (bytesOf "a\\\\b") := by
  decide

/-- C10 (as amended) at the runs a and backslash-backslash-b. -/
theorem C10_witness_runs :
    (∀ t ∈ [((0 : Nat), (97 : Nat)), (2, 98)], t.2 ≠ 92) ∧
    ([((0 : Nat), (97 : Nat)), (2, 98)].map escRun).flatten = bytesOf "a\\\\b" ∧
    ([((0 : Nat), (97 : Nat)), (2, 98)].map escRunKept).flatten = bytesOf "a\\b" ∧
    unescapeString (([((0 : Nat), (97 : Nat)), (2, 98)].map escRun).flatten) =
      .ok (([((0 : Nat), (97 : Nat)), (2, 98)].map escRunKept).flatten) :=
  ⟨by decide, by decide, by decide,
   C10_unescape_runs.1 [(0, 97), (2, 98)] (by decide)⟩

/-! ## The toggle of locatePattern -/

theorem getElem?_after (p : List Nat) (x : Nat) (t : List Nat) :
    (p ++ x :: t)[p.length]? = some x := by
  induction p with
  | nil => simp
  | cons a p ih => simpa using ih

theorem range_filter_idxFrom (c : Nat) (rest : GoString) :
    ∀ pre : GoString,
      (List.range' pre.length rest.length).filter (unescapedAt (pre ++ rest) c) =
        idxFrom c (decide (pre.getLast? = some 92)) pre.length rest := by
  induction rest with
  | nil => intro pre; rfl
  | cons b rest ih =>
    intro pre
    have hraw : pre ++ b :: rest = (pre ++ [b]) ++ rest := by simp
    have hat : unescapedAt (pre ++ b :: rest) c pre.length =
        decide (decide (pre.getLast? = some 92) = false ∧ b = c) := by
      rcases List.eq_nil_or_concat pre with rfl | ⟨p, x, rfl⟩
      · simp [unescapedAt]
      · rw [List.concat_eq_append]
        have h1 : (p ++ [x] ++ b :: rest)[(p ++ [x]).length]? = some b :=
          getElem?_after (p ++ [x]) b rest
        have h2 : (p ++ [x] ++ b :: rest)[(p ++ [x]).length - 1]? = some x := by
          have hl : (p ++ [x]).length - 1 = p.length := by simp
          have ha : p ++ [x] ++ b :: rest = p ++ x :: (b :: rest) := by simp
          rw [hl, ha]
          exact getElem?_after p x (b :: rest)
        have h3 : (p ++ [x]).length ≠ 0 := by simp
        simp only [unescapedAt, h1, h2, h3, false_or, List.getLast?_append, ne_eq]
        simp [Bool.and_comm]
    have hih := ih (pre ++ [b])
    simp only [List.length_append, List.length_singleton] at hih
    simp only [List.length_cons, List.range'_succ, List.filter_cons, hat, idxFrom]
    rw [hraw, hih]
    simp

theorem unescapedIdx_eq (raw : GoString) (c : Nat) :
    unescapedIdx raw c = idxFrom c false 0 raw := by
  have := range_filter_idxFrom c raw []
  simpa [unescapedIdx, List.range_eq_range'] using this

theorem scan_toggleFold (rest : GoString) :
    ∀ (esc : Bool) (i : Nat) (st : Int × Int),
      scanBytes esc i st rest =
        (toggleFold st.1 (idxFrom 60 esc i rest), toggleFold st.2 (idxFrom 62 esc i rest)) := by
  induction rest with
  | nil => intro esc i st; rfl
  | cons b rest ih =>
    intro esc i st
    rw [scanBytes, ih]
    cases esc with
    | true => simp [idxFrom, toggleStep]
    | false =>
      by_cases h60 : b = 60
      · subst h60
        simp only [idxFrom, toggleStep, toggleFold]
        split_ifs <;> simp_all
      · by_cases h62 : b = 62
        · subst h62
          simp only [idxFrom, toggleStep, toggleFold]
          split_ifs <;> simp_all
        · simp [idxFrom, toggleStep, h60, h62]

theorem toggleFold_concat (s : Int) (l : List Nat) (j : Nat) :
    toggleFold s (l ++ [j]) = if toggleFold s l = -1 then (j : Int) else -1 := by
  simp [toggleFold, List.foldl_append]

theorem toggleFold_spec (l : List Nat) :
    (l.length % 2 = 0 → toggleFold (-1) l = -1) ∧
    (l.length % 2 = 1 → toggleFold (-1) l = ((l.getLast?.getD 0 : Nat) : Int)) := by
  induction l using List.reverseRecOn with
  | nil => exact ⟨fun _ => rfl, fun h => by simp at h⟩
  | append_singleton l j ih =>
    obtain ⟨he, ho⟩ := ih
    rw [toggleFold_concat]
    constructor
    · intro h
      have hodd : l.length % 2 = 1 := by
        simp only [List.length_append, List.length_singleton] at h
        omega
      have hv := ho hodd
      have hne : toggleFold (-1) l ≠ -1 := by
        rw [hv]
        omega
      simp [hne]
    · intro h
      have hev : l.length % 2 = 0 := by
        simp only [List.length_append, List.length_singleton] at h
        omega
      simp [he hev]

theorem toggleFold_eq (l : List Nat) : toggleFold (-1) l = toggleOf l := by
  obtain ⟨he, ho⟩ := toggleFold_spec l
  unfold toggleOf
  by_cases h : l.length % 2 = 1
  · simp [h, ho h]
  · have h0 : l.length % 2 = 0 := by omega
    simp [h, he h0]

/-- locatePattern as a toggle: start is the index of the last unescaped '<'
when their number is odd and -1 when it is even, and likewise end for '>'. -/
theorem locatePattern_toggle (raw : GoString) :
    locatePattern raw = (toggleOf (unescapedIdx raw 60), toggleOf (unescapedIdx raw 62)) := by
  rw [locatePattern_eq_scan, scan_toggleFold, unescapedIdx_eq, unescapedIdx_eq,
    toggleFold_eq, toggleFold_eq]

theorem toggleOf_ne (l : List Nat) (h : toggleOf l ≠ -1) :
    l.length % 2 = 1 ∧ ∃ i, l.getLast? = some i ∧ toggleOf l = (i : Int) ∧ i ∈ l := by
  unfold toggleOf at h ⊢
  by_cases hodd : l.length % 2 = 1
  · refine ⟨hodd, ?_⟩
    cases hl : l.getLast? with
    | none =>
      rw [List.getLast?_eq_none_iff] at hl
      subst hl
      simp at hodd
    | some i =>
      refine ⟨i, rfl, by simp [hodd], ?_⟩
      exact List.mem_of_mem_getLast? hl
  · simp [hodd] at h

theorem unescapedIdx_byte (raw : GoString) (c i : Nat) (h : i ∈ unescapedIdx raw c) :
    raw[i]? = some c := by
  have := (List.mem_filter.mp h).2
  simp only [unescapedAt, decide_eq_true_eq] at this
  exact this.1

/-- C9 (as amended): buildPattern succeeds only on a raw string with an odd
number of unescaped '<' and an odd number of unescaped '>', the last
unescaped '<' standing before the last unescaped '>'; on every raw string
with an even number (none, two, ...) of unescaped '<' or of unescaped '>' it
returns the error "can't locate pattern". -/
theorem C9_buildPattern_toggle (raw : GoString) :
    (∀ pat, buildPattern raw = .ok pat →
      (unescapedIdx raw 60).length % 2 = 1 ∧ (unescapedIdx raw 62).length % 2 = 1 ∧
      ∃ i j, (unescapedIdx raw 60).getLast? = some i ∧
        (unescapedIdx raw 62).getLast? = some j ∧ i < j) ∧
    ((unescapedIdx raw 60).length % 2 = 0 ∨ (unescapedIdx raw 62).length % 2 = 0 →
      buildPattern raw = .err .cantLocate) := by
  constructor
  · intro pat h
    obtain ⟨_, _, _, _, _, _, _, hloc, _⟩ := buildPattern_ok_inv raw pat h
    rw [locatePattern_toggle] at hloc
    simp only [not_or] at hloc
    obtain ⟨h1, h2, h3⟩ := hloc
    obtain ⟨ho1, i, hi, hvi, hmi⟩ := toggleOf_ne _ h1
    obtain ⟨ho2, j, hj, hvj, hmj⟩ := toggleOf_ne _ h2
    refine ⟨ho1, ho2, i, j, hi, hj, ?_⟩
    rw [hvi, hvj] at h3
    have hne : i ≠ j := by
      intro e
      have a := unescapedIdx_byte raw 60 i hmi
      have b := unescapedIdx_byte raw 62 j hmj
      rw [e, b] at a
      cases a
    omega
  · intro h
    have hcond : (locatePattern raw).1 = -1 ∨ (locatePattern raw).2 = -1 ∨
        (locatePattern raw).1 > (locatePattern raw).2 := by
      rw [locatePattern_toggle]
      rcases h with h | h
      · left
        simp [toggleOf, h]
      · right
        left
        simp [toggleOf, h]
    simp only [buildPattern, hcond, if_true]

/-- C9 as stated fails: "<<<4>" has three unescaped '<' and buildPattern
succeeds on it, with the prefix "<<". -/
theorem C9_counterexample_three :
    unescapedIdx (bytesOf "<<<4>") 60 = [0, 1, 2] ∧
    unescapedIdx (bytesOf "<<<4>") 62 = [4] ∧
    buildPattern (bytesOf "<<<4>") = .ok ⟨bytesOf "<<", [], 4, 0, 0, 4⟩ := by
  decide

/-- C9 (as amended) at "<some prefix> <4/2/1>", "<prefix><4/2/1>" and
"<4/2/1", each with an even number of unescaped '<' or '>'. -/
theorem C9_witness_even :
    (unescapedIdx (bytesOf "<some prefix> <4/2/1>") 60).length % 2 = 0 ∧
    buildPattern (bytesOf "<some prefix> <4/2/1>") = .err .cantLocate ∧
    buildPattern (bytesOf "<prefix><4/2/1>") = .err .cantLocate ∧
    (unescapedIdx (bytesOf "<4/2/1") 62).length % 2 = 0 ∧
    buildPattern (bytesOf "<4/2/1") = .err .cantLocate :=
  ⟨by decide,
   (C9_buildPattern_toggle (bytesOf "<some prefix> <4/2/1>")).2 (Or.inl (by decide)),
   (C9_buildPattern_toggle (bytesOf "<prefix><4/2/1>")).2 (Or.inl (by decide)),
   by decide,
   (C9_buildPattern_toggle (bytesOf "<4/2/1")).2 (Or.inr (by decide))⟩

/-! ## Negative segments -/

/-- C7 fails on the code: parsePattern and buildPattern accept a segment that
denotes a negative integer and return a descriptor with a negative count. -/
theorem C7_negative_segment_accepted :
    parsePattern (bytesOf "-1") = .ok ⟨[], [], -1, 0, 0, -1⟩ ∧
    parsePattern (bytesOf "5/-2") = .ok ⟨[], [], 5, -2, 0, 3⟩ ∧
    buildPattern (bytesOf "<-1>") = .ok ⟨[], [], -1, 0, 0, -1⟩ ∧
    buildPattern (bytesOf "<5/-2>") = .ok ⟨[], [], 5, -2, 0, 3⟩ := by
  decide

theorem fillLoop_overrun (source : GoString) (h : source ≠ []) :
    ∀ (k : Nat) (bytes : List Nat) (i : Nat) (g : Rng), i ≤ bytes.length →
      bytes.length < i + k → fillLoop source k bytes i g = .panic .indexOutOfRange := by
  intro k
  induction k with
  | zero => intro bytes i g h1 h2; omega
  | succ k ih =>
    intro bytes i g h1 h2
    obtain ⟨c, g1, _, hdraw⟩ := getRandomCharFromSource_ok source g h
    by_cases hi : i < bytes.length
    · simp only [fillLoop, hdraw, hi, if_true]
      exact ih _ _ _ (by simp; omega) (by simp; omega)
    · simp only [fillLoop, hdraw, hi, if_false]

theorem Generate_negative_length (gen : generator) (g : Rng) (h : gen.pattern.length < 0) :
    gen.Generate g = .panic .makeLen := by
  simp [generator.Generate, generator.generate, h]

theorem Generate_short_buffer (gen : generator) (g : Rng) (h0 : 0 ≤ gen.pattern.length)
    (h : gen.pattern.length < gen.pattern.letters) :
    gen.Generate g = .panic .indexOutOfRange := by
  have hn : ¬ gen.pattern.length < 0 := by omega
  have hrun := fillLoop_overrun bytePoolLetters pool_nonempty.1 gen.pattern.letters.toNat
    (List.replicate gen.pattern.length.toNat 0) 0 g (Nat.zero_le _) (by simp; omega)
  simp [generator.Generate, generator.generate, hn, hrun]

/-- C1 fails on the code: New accepts a template whose one field is the
pattern of -1 letters, and one whose field is the pattern of 5 letters and -2
digits, and on the processors it returns every call of Generate aborts,
whatever the random source, the clock and the order of iteration: the first
when it makes a buffer of length -1, the second when it writes past its
3-byte buffer. -/
theorem C1_Generate_aborts :
    New (.ok templateNegative) = .ok ⟨fieldsNegative⟩ ∧
    (∀ w, processor.Generate ⟨fieldsNegative⟩ w = .panic .makeLen) ∧
    (∀ order1 order2 w, order1.Perm (fieldsNegative.map Prod.snd) →
      processor.GenerateIn ⟨fieldsNegative⟩ order1 order2 w = .panic .makeLen) ∧
    New (.ok templateMixed) = .ok ⟨fieldsMixed⟩ ∧
    (∀ w, processor.Generate ⟨fieldsMixed⟩ w = .panic .indexOutOfRange) ∧
    (∀ order1 order2 w, order1.Perm (fieldsMixed.map Prod.snd) →
      processor.GenerateIn ⟨fieldsMixed⟩ order1 order2 w = .panic .indexOutOfRange) := by
  have hneg : ∀ g, generator.Generate ⟨⟨[], [], -1, 0, 0, -1⟩⟩ g = .panic .makeLen :=
    fun g => Generate_negative_length _ g (by decide)
  have hmix : ∀ g, generator.Generate ⟨⟨[], [], 5, -2, 0, 3⟩⟩ g = .panic .indexOutOfRange :=
    fun g => Generate_short_buffer _ g (by decide) (by decide)
  refine ⟨by rfl, ?_, ?_, by rfl, ?_, ?_⟩
  · intro w
    simp [processor.Generate, processor.GenerateIn, fieldsNegative, generatePass1,
      ParsedField.Value, hneg]
  · intro order1 order2 w hp
    have : order1 = [.pattern (bytesOf "a") ⟨⟨[], [], -1, 0, 0, -1⟩⟩] := by
      simpa [fieldsNegative] using hp
    subst this
    simp [processor.GenerateIn, generatePass1, ParsedField.Value, hneg]
  · intro w
    simp [processor.Generate, processor.GenerateIn, fieldsMixed, generatePass1,
      ParsedField.Value, hmix]
  · intro order1 order2 w hp
    have : order1 = [.pattern (bytesOf "a") ⟨⟨[], [], 5, -2, 0, 3⟩⟩] := by
      simpa [fieldsMixed] using hp
    subst this
    simp [processor.GenerateIn, generatePass1, ParsedField.Value, hmix]

/-! ## The directive classifier -/

theorem stringsContains_iff (s sub : GoString) :
    stringsContains s sub = true ↔ sub <:+: s := by
  induction s with
  | nil =>
    cases sub <;> simp [stringsContains]
  | cons c rest ih =>
    rw [stringsContains, Bool.or_eq_true, ih, List.infix_cons_iff,
      List.isPrefixOf_iff_prefix]

theorem contains_marker (b : GoString) : stringsContains (goPrefix ++ b) goPrefix = true := by
  rw [stringsContains_iff]
  exact (List.prefix_append goPrefix b).isInfix

theorem slice_marker (b : GoString) :
    sliceStr (goPrefix ++ b) goPrefix.length (goPrefix ++ b).length = some b :=
  sliceStr_back goPrefix b

theorem get?_isSome_iff {α : Type} (m : GoMap α) (k : GoString) :
    (m.get? k).isSome = true ↔ k ∈ m.keys := by
  induction m with
  | nil => simp [GoMap.get?, GoMap.keys]
  | cons kv rest ih =>
    obtain ⟨k1, v⟩ := kv
    by_cases h : k1 = k
    · simp [GoMap.get?, GoMap.keys, h]
    · have h2 : ¬ k = k1 := fun e => h e.symm
      simp only [GoMap.get?, h, if_false, ih]
      simp [GoMap.keys, h2]

theorem isValidKeywordString_iff (p : parser) (b : GoString) :
    p.isValidKeywordString b = true ↔ b ∈ p.keywordSet.keys := by
  simp [parser.isValidKeywordString]

/-- C11: for every field name and every string value that does not contain
the marker "_go:" as a substring, parseStringField returns the Static field
with that name and that string as value, whatever the registry and the
template are. -/
theorem C11_plain_string_static (p : parser) (key value : GoString)
    (h : ¬ goPrefix <:+: value) :
    p.parseStringField key value = .ok (.static key (.str value)) := by
  have hc : stringsContains value goPrefix = false := by
    rw [← Bool.not_eq_true, stringsContains_iff]
    exact h
  simp [parser.parseStringField, parser.isStaticString, hc, newStaticField]

/-- C11 at the bare word "timestamp", which stays a literal. -/
theorem C11_witness_bare_word :
    ¬ goPrefix <:+: bytesOf "timestamp" ∧
    newParser.parseStringField (bytesOf "time") (bytesOf "timestamp") =
      .ok (.static (bytesOf "time") (.str (bytesOf "timestamp"))) :=
  ⟨by rw [← stringsContains_iff]; decide,
   C11_plain_string_static newParser (bytesOf "time") (bytesOf "timestamp")
     (by rw [← stringsContains_iff]; decide)⟩

/-- C12 fails on the code for the JSON value null: parseField aborts on it
(reflect.TypeOf(nil) is nil and Kind() is called on it), for every parser and
field name; every other value that is not a string is wrapped unchanged as a
Static field. -/
theorem C12_null_aborts (p : parser) (key : GoString) :
    p.parseField key .nil = .panic .nilDeref ∧
    (∀ b, p.parseField key (.bool b) = .ok (.static key (.bool b))) ∧
    (∀ n, p.parseField key (.float64 n) = .ok (.static key (.float64 n))) ∧
    (∀ xs, p.parseField key (.array xs) = .ok (.static key (.array xs))) ∧
    (∀ kvs, p.parseField key (.object kvs) = .ok (.static key (.object kvs))) :=
  ⟨rfl, fun _ => rfl, fun _ => rfl, fun _ => rfl, fun _ => rfl⟩

/-- C13: for every registry, template, field name k and body b that is a key
of the registry, parseStringField on "_go:" ++ b returns exactly what the
registered constructor returns on (k, b); with the default registry
"_go:timestamp" gives the Timestamp field named k and "_go:uuid" the UUID
field named k. -/
theorem C13_keyword_dispatch (p : parser) (key b : GoString) (fn : NewFieldFunc)
    (h : p.keywordSet.get? b = some fn) :
    p.parseStringField key (goPrefix ++ b) = fn key b ∧
    (∀ rawFields : GoMap Value,
      parser.parseStringField ⟨getDefaultKeywordSet, rawFields⟩ key
        (goPrefix ++ bytesOf "timestamp") = .ok (.timestamp key) ∧
      parser.parseStringField ⟨getDefaultKeywordSet, rawFields⟩ key
        (goPrefix ++ bytesOf "uuid") = .ok (.uuid key)) := by
  have gen : ∀ (q : parser) (b : GoString) (fn : NewFieldFunc),
      q.keywordSet.get? b = some fn → q.parseStringField key (goPrefix ++ b) = fn key b := by
    intro q b fn h
    have hk : q.isValidKeywordString b = true := by
      rw [isValidKeywordString_iff, ← get?_isSome_iff, h]
      rfl
    simp only [parser.parseStringField, parser.isStaticString, contains_marker,
      Bool.not_true, slice_marker, hk, if_true, h]
    simp
  refine ⟨gen p b fn h, fun rawFields => ⟨?_, ?_⟩⟩
  · exact gen ⟨getDefaultKeywordSet, rawFields⟩ (bytesOf "timestamp") newTimestampField rfl
  · exact gen ⟨getDefaultKeywordSet, rawFields⟩ (bytesOf "uuid") newUUIDField rfl

/-- C13 at "_go:timestamp" and the default registry. -/
theorem C13_witness_timestamp :
    getDefaultKeywordSet.get? (bytesOf "timestamp") = some newTimestampField ∧
    goPrefix ++ bytesOf "timestamp" = bytesOf "_go:timestamp" ∧
    newParser.parseStringField (bytesOf "time") (goPrefix ++ bytesOf "timestamp") =
      newTimestampField (bytesOf "time") (bytesOf "timestamp") :=
  ⟨rfl, by decide,
   (C13_keyword_dispatch newParser (bytesOf "time") (bytesOf "timestamp") newTimestampField
     rfl).1⟩

theorem slice_tail (c : Nat) (rest : GoString) :
    sliceStr (c :: rest) 1 (c :: rest).length = some rest := by
  have := sliceStr_back [c] rest
  simpa using this

theorem parseStringField_fallthrough (p : parser) (key body : GoString)
    (hkw : p.isValidKeywordString body = false) :
    p.parseStringField key (goPrefix ++ body) =
      match p.isValidReferenceString body with
      | .panic q => .panic q
      | .err e => .err e
      | .ok true =>
        match sliceStr body 1 body.length with
        | none => .panic .sliceBounds
        | some target => .ok (newReferenceField key target)
      | .ok false => newPatternField key body := by
  simp only [parser.parseStringField, parser.isStaticString, contains_marker,
    Bool.not_true, slice_marker, hkw]
  simp

/-- C14 fails on the code: isValidReferenceString drops the first byte of the
body without looking at it, so a body whose first byte is not an underscore
and whose rest is a key of the template gives a Reference field; with the
template keys `password` and `confirm`, the directive "_go:xpassword" gives the
Reference field to `password`. -/
theorem C14_reference_without_underscore :
    (∀ (p : parser) (key : GoString) (c : Nat) (rest : GoString),
      p.isValidKeywordString (c :: rest) = false → (p.rawFields.get? rest).isSome = true →
      p.parseStringField key (goPrefix ++ c :: rest) = .ok (.reference key rest)) ∧
    parserNoUnderscore.isValidReferenceString (bytesOf "xpassword") = .ok true ∧
    parserNoUnderscore.parseStringField (bytesOf "confirm") (bytesOf "_go:xpassword") =
      .ok (.reference (bytesOf "confirm") (bytesOf "password")) := by
  have gen : ∀ (p : parser) (key : GoString) (c : Nat) (rest : GoString),
      p.isValidKeywordString (c :: rest) = false → (p.rawFields.get? rest).isSome = true →
      p.parseStringField key (goPrefix ++ c :: rest) = .ok (.reference key rest) := by
    intro p key c rest hkw hkey
    rw [parseStringField_fallthrough p key _ hkw]
    simp only [parser.isValidReferenceString, slice_tail, hkey, newReferenceField]
  refine ⟨gen, by decide, ?_⟩
  exact gen parserNoUnderscore (bytesOf "confirm") 120 (bytesOf "password") (by decide)
    (by decide)

theorem buildPattern_even (raw : GoString)
    (h : (unescapedIdx raw 60).length % 2 = 0 ∨ (unescapedIdx raw 62).length % 2 = 0) :
    buildPattern raw = .err .cantLocate := by
  have hcond : (locatePattern raw).1 = -1 ∨ (locatePattern raw).2 = -1 ∨
      (locatePattern raw).1 > (locatePattern raw).2 := by
    rw [locatePattern_toggle]
    rcases h with h | h
    · left
      simp [toggleOf, h]
    · right
      left
      simp [toggleOf, h]
  simp only [buildPattern, hcond, if_true]

theorem newPatternField_not_reference (key body : GoString) (f : ParsedField)
    (h : newPatternField key body = .ok f) : f.isReference = false := by
  unfold newPatternField at h
  split at h
  · cases h
    rfl
  · cases h
  · cases h

/-- C15 (as amended): for a directive body that starts with an underscore,
is not a registered keyword, and whose rest after the underscore is not a key
of the template, parseStringField builds no Reference field and returns what
newPatternField returns for the whole body: the InvalidPattern error with the
cause "can't locate pattern" whenever the body has an even number (none
included) of unescaped '<' or of unescaped '>'. -/
theorem C15_dangling_reference (p : parser) (key rest : GoString)
    (hkw : p.isValidKeywordString (95 :: rest) = false)
    (hkey : p.rawFields.get? rest = none) :
    p.parseStringField key (goPrefix ++ 95 :: rest) = newPatternField key (95 :: rest) ∧
    (∀ f, p.parseStringField key (goPrefix ++ 95 :: rest) = .ok f → f.isReference = false) ∧
    ((unescapedIdx (95 :: rest) 60).length % 2 = 0 ∨
        (unescapedIdx (95 :: rest) 62).length % 2 = 0 →
      p.parseStringField key (goPrefix ++ 95 :: rest) =
        .err (.invalidPattern (95 :: rest) .cantLocate)) := by
  have hrun : p.parseStringField key (goPrefix ++ 95 :: rest) =
      newPatternField key (95 :: rest) := by
    rw [parseStringField_fallthrough p key _ hkw]
    simp only [parser.isValidReferenceString, slice_tail, hkey]
    rfl
  refine ⟨hrun, ?_, ?_⟩
  · intro f hf
    rw [hrun] at hf
    exact newPatternField_not_reference _ _ f hf
  · intro h
    rw [hrun]
    simp [newPatternField, newPatternGenerator, buildPattern_even _ h]

/-- C15 as stated fails: with no key "<4>" in the template, the directive
"_go:_<4>" is not an error but the Pattern field with prefix "_" and 4
letters. -/
theorem C15_counterexample_pattern :
    parser.isValidKeywordString ⟨getDefaultKeywordSet, []⟩ (bytesOf "_<4>") = false ∧
    GoMap.get? ([] : GoMap Value) (bytesOf "<4>") = none ∧
    parser.parseStringField ⟨getDefaultKeywordSet, []⟩ (bytesOf "a") (bytesOf "_go:_<4>") =
      .ok (.pattern (bytesOf "a") ⟨⟨bytesOf "_", [], 4, 0, 0, 4⟩⟩) :=
  ⟨by decide, rfl, by rfl⟩

/-- C15 (as amended) at "_go:_name" with no key `name` in the template. -/
theorem C15_witness_name :
    parserNoUnderscore.isValidKeywordString (95 :: bytesOf "name") = false ∧
    parserNoUnderscore.rawFields.get? (bytesOf "name") = none ∧
    goPrefix ++ 95 :: bytesOf "name" = bytesOf "_go:_name" ∧
    parserNoUnderscore.parseStringField (bytesOf "confirm") (goPrefix ++ 95 :: bytesOf "name") =
      .err (.invalidPattern (95 :: bytesOf "name") .cantLocate) :=
  ⟨by decide, rfl, by decide,
   (C15_dangling_reference parserNoUnderscore (bytesOf "confirm") (bytesOf "name")
     (by decide) rfl).2.2 (Or.inl (by decide))⟩

/-! ## Go maps -/

theorem get?_set_self {α : Type} (m : GoMap α) (k : GoString) (v : α) :
    (m.set k v).get? k = some v := by
  induction m with
  | nil => simp [GoMap.set, GoMap.get?]
  | cons kv rest ih =>
    obtain ⟨k1, v1⟩ := kv
    by_cases h : k1 = k
    · simp [GoMap.set, GoMap.get?, h]
    · simp [GoMap.set, GoMap.get?, h, ih]

theorem get?_set_ne {α : Type} (m : GoMap α) (k k2 : GoString) (v : α) (hne : k2 ≠ k) :
    (m.set k v).get? k2 = m.get? k2 := by
  induction m with
  | nil =>
    have : ¬ k = k2 := fun e => hne e.symm
    simp [GoMap.set, GoMap.get?, this]
  | cons kv rest ih =>
    obtain ⟨k1, v1⟩ := kv
    by_cases h : k1 = k
    · have h2 : ¬ k = k2 := fun e => hne e.symm
      have h3 : ¬ k1 = k2 := fun e => hne (e.symm.trans h)
      simp [GoMap.set, GoMap.get?, h, h2]
    · by_cases h4 : k1 = k2
      · subst h4
        simp [GoMap.set, GoMap.get?, h]
      · simp [GoMap.set, GoMap.get?, h, h4, ih]

theorem keys_set {α : Type} (m : GoMap α) (k k2 : GoString) (v : α) :
    k2 ∈ (m.set k v).keys ↔ k2 = k ∨ k2 ∈ m.keys := by
  rw [← get?_isSome_iff, ← get?_isSome_iff]
  by_cases h : k2 = k
  · subst h
    simp [get?_set_self]
  · simp [get?_set_ne m k k2 v h, h]

theorem get?_eq_none_iff {α : Type} (m : GoMap α) (k : GoString) :
    m.get? k = none ↔ k ∉ m.keys := by
  rw [← get?_isSome_iff]
  cases m.get? k <;> simp

theorem nodup_set {α : Type} (m : GoMap α) (k : GoString) (v : α) (h : m.keys.Nodup) :
    (m.set k v).keys.Nodup := by
  induction m with
  | nil => simp [GoMap.set, GoMap.keys]
  | cons kv rest ih =>
    obtain ⟨k1, v1⟩ := kv
    have hcons : k1 ∉ GoMap.keys rest ∧ (GoMap.keys rest).Nodup := by
      simpa [GoMap.keys] using h
    by_cases h1 : k1 = k
    · subst h1
      simpa [GoMap.set, GoMap.keys] using hcons
    · have hnot : k1 ∉ (GoMap.set rest k v).keys := by
        rw [keys_set]
        rintro (e | e)
        · exact h1 e
        · exact hcons.1 e
      have hrec := ih hcons.2
      simp only [GoMap.set, h1, if_false]
      simp only [GoMap.keys, List.map_cons, List.nodup_cons]
      exact ⟨hnot, hrec⟩

theorem mem_of_get? {α : Type} (m : GoMap α) (k : GoString) (v : α)
    (h : m.get? k = some v) : (k, v) ∈ m := by
  induction m with
  | nil => simp [GoMap.get?] at h
  | cons kv rest ih =>
    obtain ⟨k1, v1⟩ := kv
    by_cases h1 : k1 = k
    · simp only [GoMap.get?, h1, if_true, Option.some.injEq] at h
      simp [h1, h]
    · simp only [GoMap.get?, h1, if_false] at h
      exact List.mem_cons_of_mem _ (ih h)

theorem get?_of_mem {α : Type} (m : GoMap α) (k : GoString) (v : α) (hn : m.keys.Nodup)
    (h : (k, v) ∈ m) : m.get? k = some v := by
  induction m with
  | nil => simp at h
  | cons kv rest ih =>
    obtain ⟨k1, v1⟩ := kv
    have hcons : k1 ∉ GoMap.keys rest ∧ (GoMap.keys rest).Nodup := by
      simpa [GoMap.keys] using hn
    rcases List.mem_cons.mp h with e | hrest
    · cases e
      simp [GoMap.get?]
    · have hk : k ∈ GoMap.keys rest := List.mem_map.mpr ⟨(k, v), hrest, rfl⟩
      have hne : k1 ≠ k := fun e => hcons.1 (e ▸ hk)
      simp only [GoMap.get?, hne, if_false]
      exact ih hcons.2 hrest

theorem foldl_set_get? {α : Type} (C : GoMap α) :
    C.keys.Nodup → ∀ (m : GoMap α) (k : GoString),
      (C.foldl (fun m kv => m.set kv.1 kv.2) m).get? k =
        match C.get? k with
        | some f => some f
        | none => m.get? k := by
  induction C with
  | nil => intro _ m k; rfl
  | cons kv rest ih =>
    obtain ⟨k1, v1⟩ := kv
    intro hn m k
    have hcons : k1 ∉ GoMap.keys rest ∧ (GoMap.keys rest).Nodup := by
      simpa [GoMap.keys] using hn
    rw [List.foldl_cons, ih hcons.2]
    by_cases h : k1 = k
    · subst h
      have hnone : GoMap.get? rest k1 = none := (get?_eq_none_iff rest k1).mpr hcons.1
      simp [GoMap.get?, hnone, get?_set_self]
    · have hne : k ≠ k1 := fun e => h e.symm
      simp [GoMap.get?, h, get?_set_ne m k1 k v1 hne]

theorem foldl_set_nodup {α : Type} (C : GoMap α) :
    ∀ m : GoMap α, m.keys.Nodup → (C.foldl (fun m kv => m.set kv.1 kv.2) m).keys.Nodup := by
  induction C with
  | nil => intro m h; exact h
  | cons kv rest ih =>
    intro m h
    rw [List.foldl_cons]
    exact ih _ (nodup_set m kv.1 kv.2 h)

/-- C16: for a caller's keyword map C (a map: its keys are distinct), the
registry built by newParserWithCustomKeywords has the keys of C together with
"timestamp" and "uuid", binds every key of C to the caller's constructor (also
"timestamp" and "uuid" when C has them), binds each default name that C does
not have to its default constructor, and is a map again; newParser has exactly
the two default bindings. -/
theorem C16_registry_merge (C : GoMap NewFieldFunc) (hC : C.keys.Nodup) :
    (∀ k, k ∈ (newParserWithCustomKeywords C).keywordSet.keys ↔
      k ∈ C.keys ∨ k = bytesOf "timestamp" ∨ k = bytesOf "uuid") ∧
    (∀ k fn, C.get? k = some fn →
      (newParserWithCustomKeywords C).keywordSet.get? k = some fn) ∧
    (bytesOf "timestamp" ∉ C.keys →
      (newParserWithCustomKeywords C).keywordSet.get? (bytesOf "timestamp") =
        some newTimestampField) ∧
    (bytesOf "uuid" ∉ C.keys →
      (newParserWithCustomKeywords C).keywordSet.get? (bytesOf "uuid") = some newUUIDField) ∧
    (newParserWithCustomKeywords C).keywordSet.keys.Nodup ∧
    newParser.keywordSet =
      [(bytesOf "timestamp", newTimestampField), (bytesOf "uuid", newUUIDField)] := by
  have hget := foldl_set_get? C hC getDefaultKeywordSet
  refine ⟨?_, ?_, ?_, ?_, ?_, rfl⟩
  · intro k
    rw [← get?_isSome_iff, ← get?_isSome_iff]
    show ((C.foldl (fun m kv => m.set kv.1 kv.2) getDefaultKeywordSet).get? k).isSome = true ↔ _
    rw [hget k]
    cases hk : C.get? k with
    | some f => simp
    | none =>
      have hd : (getDefaultKeywordSet.get? k).isSome = true ↔
          k = bytesOf "timestamp" ∨ k = bytesOf "uuid" := by
        rw [get?_isSome_iff]
        simp [getDefaultKeywordSet, GoMap.keys]
      simpa using hd
  · intro k fn hk
    show (C.foldl (fun m kv => m.set kv.1 kv.2) getDefaultKeywordSet).get? k = _
    rw [hget k, hk]
  · intro hk
    show (C.foldl (fun m kv => m.set kv.1 kv.2) getDefaultKeywordSet).get? _ = _
    rw [hget, (get?_eq_none_iff C _).mpr hk]
    rfl
  · intro hk
    show (C.foldl (fun m kv => m.set kv.1 kv.2) getDefaultKeywordSet).get? _ = _
    rw [hget, (get?_eq_none_iff C _).mpr hk]
    rfl
  · exact foldl_set_nodup C getDefaultKeywordSet (by decide)

/-- C16 at a caller's map that adds `dummy` and rebinds `uuid`: the caller's
binding of `uuid` wins and `timestamp` keeps its default. -/
theorem C16_witness_override :
    customKeywords.keys.Nodup ∧ bytesOf "timestamp" ∉ customKeywords.keys ∧
    (newParserWithCustomKeywords customKeywords).keywordSet.get? (bytesOf "uuid") =
      some newTimestampField ∧
    (newParserWithCustomKeywords customKeywords).keywordSet.get? (bytesOf "timestamp") =
      some newTimestampField :=
  ⟨by decide, by decide,
   (C16_registry_merge customKeywords (by decide)).2.1 (bytesOf "uuid") newTimestampField rfl,
   (C16_registry_merge customKeywords (by decide)).2.2.1 (by decide)⟩

/-! ## parse: all or nothing -/

theorem parseLoop_ok_iff (p : parser) (T : List (GoString × Value)) :
    ∀ F0 : GoMap ParsedField, (∃ F, p.parseLoop T F0 = .ok F) ↔
      ∀ kv ∈ T, ∃ f, p.parseField kv.1 kv.2 = .ok f := by
  induction T with
  | nil => intro F0; simp [parser.parseLoop]
  | cons kv rest ih =>
    obtain ⟨k, v⟩ := kv
    intro F0
    cases hf : p.parseField k v with
    | ok f =>
      simp only [parser.parseLoop, hf, ih, List.mem_cons, forall_eq_or_imp]
      simp
    | err e => simp [parser.parseLoop, hf]
    | panic q => simp [parser.parseLoop, hf]

theorem parseLoop_frame (p : parser) (T : List (GoString × Value)) :
    ∀ (F0 F : GoMap ParsedField) (k : GoString), p.parseLoop T F0 = .ok F →
      k ∉ GoMap.keys T → F.get? k = F0.get? k := by
  induction T with
  | nil =>
    intro F0 F k h _
    simp only [parser.parseLoop, Res.ok.injEq] at h
    rw [h]
  | cons kv rest ih =>
    obtain ⟨k1, v1⟩ := kv
    intro F0 F k h hk
    have hk2 : k ≠ k1 ∧ k ∉ GoMap.keys rest := by
      simpa [GoMap.keys] using hk
    cases hf : p.parseField k1 v1 with
    | ok f =>
      simp only [parser.parseLoop, hf] at h
      rw [ih _ _ _ h hk2.2, get?_set_ne _ _ _ _ hk2.1]
    | err e => simp [parser.parseLoop, hf] at h
    | panic q => simp [parser.parseLoop, hf] at h

theorem parseLoop_keys (p : parser) (T : List (GoString × Value)) :
    ∀ (F0 F : GoMap ParsedField), p.parseLoop T F0 = .ok F →
      ∀ k, k ∈ F.keys ↔ k ∈ F0.keys ∨ k ∈ GoMap.keys T := by
  induction T with
  | nil =>
    intro F0 F h k
    simp only [parser.parseLoop, Res.ok.injEq] at h
    simp [h, GoMap.keys]
  | cons kv rest ih =>
    obtain ⟨k1, v1⟩ := kv
    intro F0 F h k
    cases hf : p.parseField k1 v1 with
    | ok f =>
      simp only [parser.parseLoop, hf] at h
      rw [ih _ _ h k, keys_set]
      simp only [GoMap.keys, List.map_cons, List.mem_cons]
      tauto
    | err e => simp [parser.parseLoop, hf] at h
    | panic q => simp [parser.parseLoop, hf] at h

theorem parseLoop_nodup (p : parser) (T : List (GoString × Value)) :
    ∀ (F0 F : GoMap ParsedField), p.parseLoop T F0 = .ok F → F0.keys.Nodup →
      F.keys.Nodup := by
  induction T with
  | nil =>
    intro F0 F h hn
    simp only [parser.parseLoop, Res.ok.injEq] at h
    rw [← h]
    exact hn
  | cons kv rest ih =>
    obtain ⟨k1, v1⟩ := kv
    intro F0 F h hn
    cases hf : p.parseField k1 v1 with
    | ok f =>
      simp only [parser.parseLoop, hf] at h
      exact ih _ _ h (nodup_set F0 k1 f hn)
    | err e => simp [parser.parseLoop, hf] at h
    | panic q => simp [parser.parseLoop, hf] at h

theorem parseLoop_get (p : parser) (T : List (GoString × Value)) :
    ∀ (F0 F : GoMap ParsedField), p.parseLoop T F0 = .ok F → (GoMap.keys T).Nodup →
      ∀ k v, (k, v) ∈ T → ∃ f, p.parseField k v = .ok f ∧ F.get? k = some f := by
  induction T with
  | nil => intro F0 F _ _ k v hm; simp at hm
  | cons kv rest ih =>
    obtain ⟨k1, v1⟩ := kv
    intro F0 F h hn k v hm
    have hcons : k1 ∉ GoMap.keys rest ∧ (GoMap.keys rest).Nodup := by
      simpa [GoMap.keys] using hn
    cases hf : p.parseField k1 v1 with
    | ok f =>
      simp only [parser.parseLoop, hf] at h
      rcases List.mem_cons.mp hm with e | hrest
      · have hk : k = k1 := (Prod.mk.inj e).1
        have hv : v = v1 := (Prod.mk.inj e).2
        subst hk hv
        refine ⟨f, hf, ?_⟩
        rw [parseLoop_frame p rest _ _ k h hcons.1, get?_set_self]
      · exact ih _ _ h hcons.2 k v hrest
    | err e => simp [parser.parseLoop, hf] at h
    | panic q => simp [parser.parseLoop, hf] at h

theorem mem_set {α : Type} (m : GoMap α) (k k2 : GoString) (v v2 : α)
    (h : (k2, v2) ∈ m.set k v) : (k2 = k ∧ v2 = v) ∨ (k2, v2) ∈ m := by
  induction m with
  | nil =>
    simp only [GoMap.set, List.mem_singleton, Prod.mk.injEq] at h
    exact Or.inl h
  | cons kv rest ih =>
    obtain ⟨k1, v1⟩ := kv
    by_cases h1 : k1 = k
    · simp only [GoMap.set, h1, if_true, List.mem_cons, Prod.mk.injEq] at h
      rcases h with h | h
      · exact Or.inl h
      · exact Or.inr (List.mem_cons_of_mem _ h)
    · simp only [GoMap.set, h1, if_false, List.mem_cons] at h
      rcases h with h | h
      · exact Or.inr (by simp [h])
      · rcases ih h with h | h
        · exact Or.inl h
        · exact Or.inr (List.mem_cons_of_mem _ h)

theorem parseLoop_mem (p : parser) (T : List (GoString × Value)) :
    ∀ (F0 F : GoMap ParsedField), p.parseLoop T F0 = .ok F →
      ∀ k f, (k, f) ∈ F → (k, f) ∈ F0 ∨ ∃ v, (k, v) ∈ T ∧ p.parseField k v = .ok f := by
  induction T with
  | nil =>
    intro F0 F h k f hm
    simp only [parser.parseLoop, Res.ok.injEq] at h
    exact Or.inl (h ▸ hm)
  | cons kv rest ih =>
    obtain ⟨k1, v1⟩ := kv
    intro F0 F h k f hm
    cases hf : p.parseField k1 v1 with
    | ok f1 =>
      simp only [parser.parseLoop, hf] at h
      rcases ih _ _ h k f hm with h1 | ⟨v, hv, hp⟩
      · rcases mem_set _ _ _ _ _ h1 with ⟨e1, e2⟩ | h2
        · subst e1 e2
          exact Or.inr ⟨v1, List.mem_cons_self _ _, hf⟩
        · exact Or.inl h2
      · exact Or.inr ⟨v, List.mem_cons_of_mem _ hv, hp⟩
    | err e => simp [parser.parseLoop, hf] at h
    | panic q => simp [parser.parseLoop, hf] at h

theorem parseLoop_err (p : parser) (T : List (GoString × Value)) :
    ∀ (F0 : GoMap ParsedField) (e : GoError), p.parseLoop T F0 = .err e →
      ∃ kv ∈ T, p.parseField kv.1 kv.2 = .err e := by
  induction T with
  | nil => intro F0 e h; simp [parser.parseLoop] at h
  | cons kv rest ih =>
    obtain ⟨k1, v1⟩ := kv
    intro F0 e h
    cases hf : p.parseField k1 v1 with
    | ok f =>
      simp only [parser.parseLoop, hf] at h
      obtain ⟨kv, hkv, he⟩ := ih _ _ h
      exact ⟨kv, List.mem_cons_of_mem _ hkv, he⟩
    | err e1 =>
      simp only [parser.parseLoop, hf, Res.err.injEq] at h
      exact ⟨(k1, v1), List.mem_cons_self _ _, by rw [hf, h]⟩
    | panic q => simp [parser.parseLoop, hf] at h

theorem parseLoop_err_of (p : parser) (T : List (GoString × Value)) :
    ∀ F0 : GoMap ParsedField, (∀ kv ∈ T, (p.parseField kv.1 kv.2).isPanic = false) →
      (∃ kv ∈ T, ∃ e, p.parseField kv.1 kv.2 = .err e) → ∃ e, p.parseLoop T F0 = .err e := by
  induction T with
  | nil => intro F0 _ h; obtain ⟨kv, hkv, _⟩ := h; simp at hkv
  | cons kv rest ih =>
    obtain ⟨k1, v1⟩ := kv
    intro F0 hnp h
    cases hf : p.parseField k1 v1 with
    | ok f =>
      simp only [parser.parseLoop, hf]
      apply ih _ (fun kv hkv => hnp kv (List.mem_cons_of_mem _ hkv))
      obtain ⟨kv, hkv, e, he⟩ := h
      rcases List.mem_cons.mp hkv with rfl | hkv
      · rw [hf] at he
        cases he
      · exact ⟨kv, hkv, e, he⟩
    | err e1 => exact ⟨e1, by simp [parser.parseLoop, hf]⟩
    | panic q =>
      have := hnp (k1, v1) (List.mem_cons_self _ _)
      simp [hf, Res.isPanic] at this

/-- C17: parse on a decoded template T (a map: its keys are distinct) returns
a field set exactly when parseField returns a field for every entry of T, and
then the field set has exactly the keys of T, each bound to what parseField
returns for that key and value; an error that parse returns is the error of
parseField on some entry; and, when no call of parseField aborts, parse
returns an error exactly when parseField fails on some entry. So the result is
a complete field set or none at all. A decoding error is returned as it is. -/
theorem C17_parse_all_or_nothing (p : parser) (T : GoMap Value) (hT : T.keys.Nodup) :
    ((∃ F, p.parse (.ok T) = .ok F) ↔
      ∀ kv ∈ T, ∃ f, parser.parseField { p with rawFields := T } kv.1 kv.2 = .ok f) ∧
    (∀ F, p.parse (.ok T) = .ok F →
      (∀ k, k ∈ F.keys ↔ k ∈ T.keys) ∧ F.keys.Nodup ∧
      ∀ k v, (k, v) ∈ T →
        ∃ f, parser.parseField { p with rawFields := T } k v = .ok f ∧ F.get? k = some f) ∧
    (∀ e, p.parse (.ok T) = .err e →
      ∃ kv ∈ T, parser.parseField { p with rawFields := T } kv.1 kv.2 = .err e) ∧
    ((∀ kv ∈ T, (parser.parseField { p with rawFields := T } kv.1 kv.2).isPanic = false) →
      ((∃ e, p.parse (.ok T) = .err e) ↔
        ∃ kv ∈ T, ∃ e, parser.parseField { p with rawFields := T } kv.1 kv.2 = .err e)) ∧
    (∀ e, p.parse (.error e) = .err e) := by
  refine ⟨parseLoop_ok_iff _ T [], ?_, ?_, ?_, fun _ => rfl⟩
  · intro F hF
    refine ⟨?_, parseLoop_nodup _ T [] F hF (by simp [GoMap.keys]),
      parseLoop_get _ T [] F hF hT⟩
    intro k
    rw [parseLoop_keys _ T [] F hF k]
    simp [GoMap.keys]
  · intro e he
    exact parseLoop_err _ T [] e he
  · intro hnp
    constructor
    · rintro ⟨e, he⟩
      obtain ⟨kv, hkv, h⟩ := parseLoop_err _ T [] e he
      exact ⟨kv, hkv, e, h⟩
    · intro h
      exact parseLoop_err_of _ T [] hnp h

/-- C17 at the template of the parser tests: every entry parses, and parse
returns the complete field set. -/
theorem C17_witness_test_template :
    templateTest.keys.Nodup ∧ newParser.parse (.ok templateTest) = .ok fieldsTest ∧
    (∀ k, k ∈ fieldsTest.keys ↔ k ∈ templateTest.keys) :=
  ⟨by decide, by rfl,
   ((C17_parse_all_or_nothing newParser templateTest (by decide)).2.1 fieldsTest
     (by rfl)).1⟩

/-! ## Reference fields point to template keys -/

theorem parseStringField_reference (p : parser) (key value name target : GoString)
    (hreg : ∀ k fn, p.keywordSet.get? k = some fn →
      ∀ a b f, fn a b = .ok f → f.isReference = false)
    (h : p.parseStringField key value = .ok (.reference name target)) :
    name = key ∧ target ∈ p.rawFields.keys := by
  unfold parser.parseStringField at h
  split at h
  · simp [newStaticField] at h
  · split at h
    · cases h
    · split at h
      · split at h
        · rename_i fn hfn
          have := hreg _ fn hfn _ _ _ h
          simp [ParsedField.isReference] at this
        · cases h
      · split at h
        · cases h
        · cases h
        · rename_i hvalid
          split at h
          · cases h
          · rename_i tgt htgt
            simp only [newReferenceField, Res.ok.injEq, ParsedField.reference.injEq] at h
            obtain ⟨hname, htarget⟩ := h
            refine ⟨hname.symm, ?_⟩
            unfold parser.isValidReferenceString at hvalid
            rw [htgt] at hvalid
            simp only [Res.ok.injEq] at hvalid
            rw [← htarget, ← get?_isSome_iff]
            exact hvalid
        · have := newPatternField_not_reference _ _ _ h
          simp [ParsedField.isReference] at this

theorem parseField_reference (p : parser) (key name target : GoString) (v : Value)
    (hreg : ∀ k fn, p.keywordSet.get? k = some fn →
      ∀ a b f, fn a b = .ok f → f.isReference = false)
    (h : p.parseField key v = .ok (.reference name target)) :
    name = key ∧ target ∈ p.rawFields.keys := by
  cases v with
  | str s => exact parseStringField_reference p key s name target hreg h
  | nil => simp [parser.parseField] at h
  | bool b => simp [parser.parseField, newStaticField] at h
  | float64 n => simp [parser.parseField, newStaticField] at h
  | int64 n => simp [parser.parseField, newStaticField] at h
  | array xs => simp [parser.parseField, newStaticField] at h
  | object kvs => simp [parser.parseField, newStaticField] at h

theorem default_registry_no_reference :
    ∀ k fn, getDefaultKeywordSet.get? k = some fn →
      ∀ a b f, fn a b = .ok f → f.isReference = false := by
  intro k fn h a b f hf
  simp only [getDefaultKeywordSet, GoMap.get?] at h
  split at h
  · cases h
    simp only [newTimestampField, Res.ok.injEq] at hf
    rw [← hf]
    rfl
  · split at h
    · cases h
      simp only [newUUIDField, Res.ok.injEq] at hf
      rw [← hf]
      rfl
    · cases h

/-- C18: in every field set that parse returns for a template T, with a
registry whose constructors build no Reference field (the default registry;
the type is not exported, so no caller's constructor can build one), every
Reference field carries the name of its key, and its target is a key of T
and so a key of the field set. -/
theorem C18_reference_targets (p : parser) (T : GoMap Value) (F : GoMap ParsedField)
    (hreg : ∀ k fn, p.keywordSet.get? k = some fn →
      ∀ a b f, fn a b = .ok f → f.isReference = false)
    (hparse : p.parse (.ok T) = .ok F) :
    ∀ k name target, (k, ParsedField.reference name target) ∈ F →
      name = k ∧ target ∈ T.keys ∧ target ∈ F.keys := by
  intro k name target hm
  have hloop : parser.parseLoop { p with rawFields := T } T [] = .ok F := hparse
  rcases parseLoop_mem _ T [] F hloop k _ hm with h0 | ⟨v, _, hv⟩
  · simp at h0
  · obtain ⟨hname, htarget⟩ :=
      parseField_reference { p with rawFields := T } k name target v hreg hv
    refine ⟨hname, htarget, ?_⟩
    rw [parseLoop_keys _ T [] F hloop target]
    exact Or.inr htarget

/-- C18 at the template of the parser tests: `confirm_password` refers to
`password`, a key of the template. -/
theorem C18_witness_test_template :
    newParser.parse (.ok templateTest) = .ok fieldsTest ∧
    (bytesOf "confirm_password",
      ParsedField.reference (bytesOf "confirm_password") (bytesOf "password")) ∈ fieldsTest ∧
    bytesOf "password" ∈ templateTest.keys ∧ bytesOf "password" ∈ fieldsTest.keys :=
  ⟨by rfl, by simp [fieldsTest],
   (C18_reference_targets newParser templateTest fieldsTest default_registry_no_reference
     (by rfl) (bytesOf "confirm_password") (bytesOf "confirm_password") (bytesOf "password")
     (by simp [fieldsTest])).2⟩

/-! ## Generate: the two passes -/

theorem pass1_keys (fs : List ParsedField) :
    ∀ (out : GoMap Value) (w : World) (out1 : GoMap Value) (w1 : World),
      generatePass1 fs out w = .ok (out1, w1) →
      ∀ k, k ∈ out1.keys ↔ k ∈ out.keys ∨ k ∈ fs.map ParsedField.Name := by
  induction fs with
  | nil =>
    intro out w out1 w1 h k
    simp only [generatePass1, Res.ok.injEq, Prod.mk.injEq] at h
    simp [h.1]
  | cons f rest ih =>
    intro out w out1 w1 h k
    cases hv : f.Value w with
    | ok r =>
      obtain ⟨v, w2⟩ := r
      simp only [generatePass1, hv] at h
      rw [ih _ _ _ _ h k, keys_set]
      simp only [List.map_cons, List.mem_cons]
      tauto
    | err e => simp [generatePass1, hv] at h
    | panic q => simp [generatePass1, hv] at h

theorem pass1_nodup (fs : List ParsedField) :
    ∀ (out : GoMap Value) (w : World) (out1 : GoMap Value) (w1 : World),
      generatePass1 fs out w = .ok (out1, w1) → out.keys.Nodup → out1.keys.Nodup := by
  induction fs with
  | nil =>
    intro out w out1 w1 h hn
    simp only [generatePass1, Res.ok.injEq, Prod.mk.injEq] at h
    rw [← h.1]
    exact hn
  | cons f rest ih =>
    intro out w out1 w1 h hn
    cases hv : f.Value w with
    | ok r =>
      obtain ⟨v, w2⟩ := r
      simp only [generatePass1, hv] at h
      exact ih _ _ _ _ h (nodup_set out _ v hn)
    | err e => simp [generatePass1, hv] at h
    | panic q => simp [generatePass1, hv] at h

theorem pass2_cons_other (f : ParsedField) (rest : List ParsedField) (out : GoMap Value)
    (h : f.isReference = false) :
    generatePass2 (f :: rest) out = generatePass2 rest out := by
  cases f <;> first | rfl | simp [ParsedField.isReference] at h

theorem pass2_keys (fs : List ParsedField) :
    ∀ (out : GoMap Value) (k : GoString),
      k ∈ (generatePass2 fs out).keys ↔
        k ∈ out.keys ∨ ∃ x, ParsedField.reference k x ∈ fs := by
  induction fs with
  | nil => intro out k; simp [generatePass2]
  | cons f rest ih =>
    intro out k
    by_cases hf : f.isReference = false
    · rw [pass2_cons_other f rest out hf, ih]
      have : ∀ x, ParsedField.reference k x ≠ f := by
        intro x e
        rw [← e] at hf
        simp [ParsedField.isReference] at hf
      simp only [List.mem_cons]
      constructor
      · rintro (h | ⟨x, hx⟩)
        · exact Or.inl h
        · exact Or.inr ⟨x, Or.inr hx⟩
      · rintro (h | ⟨x, hx | hx⟩)
        · exact Or.inl h
        · exact absurd hx (this x)
        · exact Or.inr ⟨x, hx⟩
    · cases f with
      | reference name target =>
        simp only [generatePass2]
        rw [ih, keys_set]
        simp only [List.mem_cons, ParsedField.reference.injEq]
        constructor
        · rintro ((h | h) | ⟨x, hx⟩)
          · exact Or.inr ⟨target, Or.inl ⟨h, rfl⟩⟩
          · exact Or.inl h
          · exact Or.inr ⟨x, Or.inr hx⟩
        · rintro (h | ⟨x, hx | hx⟩)
          · exact Or.inl (Or.inr h)
          · exact Or.inl (Or.inl hx.1)
          · exact Or.inr ⟨x, hx⟩
      | static _ _ => simp [ParsedField.isReference] at hf
      | timestamp _ => simp [ParsedField.isReference] at hf
      | uuid _ => simp [ParsedField.isReference] at hf
      | pattern _ _ => simp [ParsedField.isReference] at hf
      | custom _ _ => simp [ParsedField.isReference] at hf

theorem pass2_nodup (fs : List ParsedField) :
    ∀ out : GoMap Value, out.keys.Nodup → (generatePass2 fs out).keys.Nodup := by
  induction fs with
  | nil => intro out h; exact h
  | cons f rest ih =>
    intro out h
    cases f with
    | reference name target =>
      simp only [generatePass2]
      exact ih _ (nodup_set out _ _ h)
    | static _ _ => exact ih _ h
    | timestamp _ => exact ih _ h
    | uuid _ => exact ih _ h
    | pattern _ _ => exact ih _ h
    | custom _ _ => exact ih _ h

theorem pass2_frame (fs : List ParsedField) :
    ∀ (out : GoMap Value) (k : GoString), (∀ x, ParsedField.reference k x ∉ fs) →
      (generatePass2 fs out).get? k = out.get? k := by
  induction fs with
  | nil => intro out k _; rfl
  | cons f rest ih =>
    intro out k hk
    have hrest : ∀ x, ParsedField.reference k x ∉ rest :=
      fun x hx => hk x (List.mem_cons_of_mem _ hx)
    cases f with
    | reference name target =>
      have hne : k ≠ name := by
        intro e
        exact hk target (by rw [e]; exact List.mem_cons_self _ _)
      simp only [generatePass2]
      rw [ih _ _ hrest, get?_set_ne _ _ _ _ hne]
    | static _ _ => exact ih _ _ hrest
    | timestamp _ => exact ih _ _ hrest
    | uuid _ => exact ih _ _ hrest
    | pattern _ _ => exact ih _ _ hrest
    | custom _ _ => exact ih _ _ hrest

theorem pass2_ref (fs : List ParsedField) :
    ∀ (out : GoMap Value) (r t : GoString), (fs.map ParsedField.Name).Nodup →
      ParsedField.reference r t ∈ fs → (∀ x, ParsedField.reference t x ∉ fs) →
      (generatePass2 fs out).get? r = some ((out.get? t).getD .nil) := by
  induction fs with
  | nil => intro out r t _ h; simp at h
  | cons f rest ih =>
    intro out r t hn hm ht
    have hcons : f.Name ∉ rest.map ParsedField.Name ∧ (rest.map ParsedField.Name).Nodup := by
      simpa using hn
    have htrest : ∀ x, ParsedField.reference t x ∉ rest :=
      fun x hx => ht x (List.mem_cons_of_mem _ hx)
    rcases List.mem_cons.mp hm with e | hrest
    · subst e
      have hnone : ∀ x, ParsedField.reference r x ∉ rest := by
        intro x hx
        apply hcons.1
        exact List.mem_map.mpr ⟨_, hx, rfl⟩
      simp only [generatePass2]
      rw [pass2_frame rest _ r hnone, get?_set_self]
    · cases f with
      | reference name target =>
        have hne : t ≠ name := by
          intro e
          exact ht target (by rw [e]; exact List.mem_cons_self _ _)
        simp only [generatePass2]
        rw [ih _ r t hcons.2 hrest htrest, get?_set_ne _ _ _ _ hne]
      | static _ _ => exact ih _ r t hcons.2 hrest htrest
      | timestamp _ => exact ih _ r t hcons.2 hrest htrest
      | uuid _ => exact ih _ r t hcons.2 hrest htrest
      | pattern _ _ => exact ih _ r t hcons.2 hrest htrest
      | custom _ _ => exact ih _ r t hcons.2 hrest htrest

theorem Value_total (f : ParsedField) (w : World)
    (h : ∀ name gen, f = .pattern name gen → gen.pattern.wellFormed) :
    ∃ v w1, f.Value w = .ok (v, w1) := by
  cases f with
  | pattern name gen =>
    obtain ⟨hl, hd, hs, hlen⟩ := h name gen rfl
    obtain ⟨body, g1, _, _, _, hrun, _⟩ := generate_perm gen w.rng hl hd hs hlen
    exact ⟨.str (gen.pattern.prefixStr ++ body ++ gen.pattern.suffixStr),
      { w with rng := g1 }, by simp [ParsedField.Value, generator.Generate, hrun]⟩
  | static _ _ => exact ⟨_, _, rfl⟩
  | reference _ _ => exact ⟨_, _, rfl⟩
  | timestamp _ => exact ⟨_, _, rfl⟩
  | uuid _ => exact ⟨_, _, rfl⟩
  | custom _ _ => exact ⟨_, _, rfl⟩

theorem pass1_total (fs : List ParsedField) :
    (∀ f ∈ fs, ∀ name gen, f = .pattern name gen → gen.pattern.wellFormed) →
      ∀ (out : GoMap Value) (w : World), ∃ out1 w1, generatePass1 fs out w = .ok (out1, w1) := by
  induction fs with
  | nil => intro _ out w; exact ⟨out, w, rfl⟩
  | cons f rest ih =>
    intro h out w
    obtain ⟨v, w1, hv⟩ := Value_total f w (h f (List.mem_cons_self _ _))
    obtain ⟨out1, w2, hrun⟩ :=
      ih (fun g hg => h g (List.mem_cons_of_mem _ hg)) (out.set f.Name v) w1
    exact ⟨out1, w2, by simp [generatePass1, hv, hrun]⟩

/-! ## The output record -/

theorem default_registry_names :
    ∀ k fn, getDefaultKeywordSet.get? k = some fn →
      ∀ a b f, fn a b = .ok f → f.Name = a := by
  intro k fn h a b f hf
  simp only [getDefaultKeywordSet, GoMap.get?] at h
  split at h
  · cases h
    simp only [newTimestampField, Res.ok.injEq] at hf
    rw [← hf]
    rfl
  · split at h
    · cases h
      simp only [newUUIDField, Res.ok.injEq] at hf
      rw [← hf]
      rfl
    · cases h

theorem newPatternField_name (key body : GoString) (f : ParsedField)
    (h : newPatternField key body = .ok f) : f.Name = key := by
  unfold newPatternField at h
  split at h
  · cases h
    rfl
  · cases h
  · cases h

theorem parseStringField_name (p : parser) (key value : GoString) (f : ParsedField)
    (hreg : ∀ k fn, p.keywordSet.get? k = some fn → ∀ a b f, fn a b = .ok f → f.Name = a)
    (h : p.parseStringField key value = .ok f) : f.Name = key := by
  unfold parser.parseStringField at h
  split at h
  · cases h
    rfl
  · split at h
    · cases h
    · split at h
      · split at h
        · rename_i fn hfn
          exact hreg _ fn hfn _ _ _ h
        · cases h
      · split at h
        · cases h
        · cases h
        · split at h
          · cases h
          · cases h
            rfl
        · exact newPatternField_name _ _ _ h

theorem parseField_name (p : parser) (key : GoString) (v : Value) (f : ParsedField)
    (hreg : ∀ k fn, p.keywordSet.get? k = some fn → ∀ a b f, fn a b = .ok f → f.Name = a)
    (h : p.parseField key v = .ok f) : f.Name = key := by
  cases v with
  | str s => exact parseStringField_name p key s f hreg h
  | nil => simp [parser.parseField] at h
  | bool b => simp only [parser.parseField, Res.ok.injEq] at h; rw [← h]; rfl
  | float64 n => simp only [parser.parseField, Res.ok.injEq] at h; rw [← h]; rfl
  | int64 n => simp only [parser.parseField, Res.ok.injEq] at h; rw [← h]; rfl
  | array xs => simp only [parser.parseField, Res.ok.injEq] at h; rw [← h]; rfl
  | object kvs => simp only [parser.parseField, Res.ok.injEq] at h; rw [← h]; rfl

theorem New_fields (T : GoMap Value) (p : processor) (h : New (.ok T) = .ok p) :
    (∀ k, k ∈ p.fields.keys ↔ k ∈ T.keys) ∧ p.fields.keys.Nodup ∧
    (∀ k f, (k, f) ∈ p.fields → f.Name = k) ∧
    newParser.parse (.ok T) = .ok p.fields := by
  unfold New at h
  split at h
  · rename_i fields hparse
    cases h
    have hloop : parser.parseLoop { newParser with rawFields := T } T [] = .ok fields := hparse
    refine ⟨?_, parseLoop_nodup _ T [] fields hloop (by simp [GoMap.keys]), ?_, hparse⟩
    · intro k
      rw [parseLoop_keys _ T [] fields hloop k]
      simp [GoMap.keys]
    · intro k f hm
      rcases parseLoop_mem _ T [] fields hloop k f hm with h0 | ⟨v, _, hv⟩
      · simp at h0
      · exact parseField_name _ k v f default_registry_names hv
  · cases h
  · cases h

theorem names_eq_keys (F : GoMap ParsedField) (h : ∀ k f, (k, f) ∈ F → f.Name = k) :
    (F.map Prod.snd).map ParsedField.Name = F.keys := by
  rw [List.map_map]
  apply List.map_congr_left
  intro kv hkv
  exact h kv.1 kv.2 hkv

theorem order_names (F : GoMap ParsedField) (order : List ParsedField)
    (h : ∀ k f, (k, f) ∈ F → f.Name = k) (hp : order.Perm (F.map Prod.snd)) :
    (order.map ParsedField.Name).Perm F.keys := by
  rw [← names_eq_keys F h]
  exact hp.map _

theorem GenerateIn_ok_inv (p : processor) (order1 order2 : List ParsedField) (w : World)
    (out : GoMap Value) (w1 : World) (h : p.GenerateIn order1 order2 w = .ok (out, w1)) :
    ∃ out1, generatePass1 order1 [] w = .ok (out1, w1) ∧ out = generatePass2 order2 out1 := by
  unfold processor.GenerateIn at h
  split at h
  · rename_i o1 w2 hp1
    simp only [Res.ok.injEq, Prod.mk.injEq] at h
    exact ⟨o1, by rw [hp1, h.2], h.1.symm⟩
  · cases h
  · cases h

theorem GenerateIn_total (p : processor) (order1 order2 : List ParsedField) (w : World)
    (hp : order1.Perm (p.fields.map Prod.snd))
    (hwf : ∀ k name gen, (k, ParsedField.pattern name gen) ∈ p.fields →
      gen.pattern.wellFormed) :
    ∃ out w1, p.GenerateIn order1 order2 w = .ok (out, w1) := by
  have hall : ∀ f ∈ order1, ∀ name gen, f = .pattern name gen → gen.pattern.wellFormed := by
    intro f hf name gen e
    have hm : f ∈ p.fields.map Prod.snd := hp.mem_iff.mp hf
    obtain ⟨kv, hkv, hsnd⟩ := List.mem_map.mp hm
    apply hwf kv.1 name gen
    rw [← e, ← hsnd]
    exact hkv
  obtain ⟨out1, w1, hrun⟩ := pass1_total order1 hall [] w
  exact ⟨generatePass2 order2 out1, w1, by simp [processor.GenerateIn, hrun]⟩

/-- C19: for a template T that New accepts, and for every order in which the
two loops of Generate visit the fields, every state of the random source and
the clock: the map that Generate hands to the encoder has exactly the keys of
T, each once; and Generate does produce that map whenever every pattern field
has non-negative counts with length their sum. -/
theorem C19_output_keys (T : GoMap Value) (p : processor) (hnew : New (.ok T) = .ok p)
    (order1 order2 : List ParsedField) (h1 : order1.Perm (p.fields.map Prod.snd))
    (h2 : order2.Perm (p.fields.map Prod.snd)) (w : World) :
    (∀ out w1, p.GenerateIn order1 order2 w = .ok (out, w1) →
      (∀ k, k ∈ out.keys ↔ k ∈ T.keys) ∧ out.keys.Nodup) ∧
    ((∀ k name gen, (k, ParsedField.pattern name gen) ∈ p.fields → gen.pattern.wellFormed) →
      ∃ out w1, p.GenerateIn order1 order2 w = .ok (out, w1)) := by
  obtain ⟨hkeys, hnodup, hnames, _⟩ := New_fields T p hnew
  refine ⟨?_, GenerateIn_total p order1 order2 w h1⟩
  intro out w1 hgen
  obtain ⟨out1, hp1, hout⟩ := GenerateIn_ok_inv p order1 order2 w out w1 hgen
  have hn1 := order_names p.fields order1 hnames h1
  have hn2 := order_names p.fields order2 hnames h2
  constructor
  · intro k
    rw [hout, pass2_keys, pass1_keys order1 [] w out1 w1 hp1 k, ← hkeys k, ← hn1.mem_iff]
    constructor
    · rintro ((h | h) | ⟨x, hx⟩)
      · simp [GoMap.keys] at h
      · exact h
      · have : k ∈ order2.map ParsedField.Name := List.mem_map.mpr ⟨_, hx, rfl⟩
        exact hn1.mem_iff.mpr (hn2.mem_iff.mp this)
    · intro h
      exact Or.inl (Or.inr h)
  · rw [hout]
    exact pass2_nodup order2 out1 (pass1_nodup order1 [] w out1 w1 hp1 (by simp [GoMap.keys]))

/-- C19 at the template of the parser tests. -/
theorem C19_witness_test_template :
    New (.ok templateTest) = .ok ⟨fieldsTest⟩ ∧
    (∀ out w1, processor.Generate ⟨fieldsTest⟩ sampleWorld = .ok (out, w1) →
      (∀ k, k ∈ out.keys ↔ k ∈ templateTest.keys) ∧ out.keys.Nodup) ∧
    ∃ out w1, processor.Generate ⟨fieldsTest⟩ sampleWorld = .ok (out, w1) :=
  ⟨by rfl,
   (C19_output_keys templateTest ⟨fieldsTest⟩ (by rfl) _ _ (List.Perm.refl _)
     (List.Perm.refl _) sampleWorld).1,
   (C19_output_keys templateTest ⟨fieldsTest⟩ (by rfl) _ _ (List.Perm.refl _)
     (List.Perm.refl _) sampleWorld).2 (by
       intro k name gen hm
       simp [fieldsTest] at hm
       rcases hm with ⟨_, _, rfl⟩ | ⟨_, _, rfl⟩ | ⟨_, _, rfl⟩ <;>
         simp [strPattern.wellFormed])⟩

/-- C20: for a template that New accepts, a Reference field r whose target t
is a field that is not a Reference field, every order of the two loops and
every state of the random source and the clock: in the map that Generate
produces, the entry of r is the entry of t, which is the value that the first
loop computed for t in this call; and Generate does produce the map whenever
every pattern field has non-negative counts with length their sum. -/
theorem C20_reference_copies_target (T : GoMap Value) (p : processor)
    (hnew : New (.ok T) = .ok p) (order1 order2 : List ParsedField)
    (h1 : order1.Perm (p.fields.map Prod.snd)) (h2 : order2.Perm (p.fields.map Prod.snd))
    (w : World) (r name t : GoString) (ft : ParsedField)
    (hr : (r, ParsedField.reference name t) ∈ p.fields) (ht : (t, ft) ∈ p.fields)
    (hnr : ft.isReference = false) :
    (∀ out w1, p.GenerateIn order1 order2 w = .ok (out, w1) →
      ∃ v out1, generatePass1 order1 [] w = .ok (out1, w1) ∧ out1.get? t = some v ∧
        out.get? t = some v ∧ out.get? r = some v) ∧
    ((∀ k name gen, (k, ParsedField.pattern name gen) ∈ p.fields → gen.pattern.wellFormed) →
      ∃ out w1, p.GenerateIn order1 order2 w = .ok (out, w1)) := by
  obtain ⟨_, hnodup, hnames, _⟩ := New_fields T p hnew
  refine ⟨?_, GenerateIn_total p order1 order2 w h1⟩
  intro out w1 hgen
  obtain ⟨out1, hp1, hout⟩ := GenerateIn_ok_inv p order1 order2 w out w1 hgen
  have hn1 := order_names p.fields order1 hnames h1
  have hn2 := order_names p.fields order2 hnames h2
  have hname : name = r := hnames r _ hr
  subst hname
  -- the target has an entry after the first loop
  have htkey : t ∈ out1.keys := by
    rw [pass1_keys order1 [] w out1 w1 hp1 t, hn1.mem_iff]
    exact Or.inr (List.mem_map.mpr ⟨(t, ft), ht, rfl⟩)
  obtain ⟨v, hv⟩ := Option.isSome_iff_exists.mp ((get?_isSome_iff out1 t).mpr htkey)
  -- no reference field is named t
  have hnot : ∀ x, ParsedField.reference t x ∉ order2 := by
    intro x hx
    have hm : ParsedField.reference t x ∈ p.fields.map Prod.snd := h2.mem_iff.mp hx
    obtain ⟨kv, hkv, hsnd⟩ := List.mem_map.mp hm
    have hk : kv.1 = t := by
      have := hnames kv.1 kv.2 hkv
      rw [hsnd] at this
      exact this.symm
    have hmem : (t, ParsedField.reference t x) ∈ p.fields := by
      have e : kv = (t, ParsedField.reference t x) := Prod.ext hk hsnd
      rw [← e]
      exact hkv
    have e1 := get?_of_mem p.fields t _ hnodup hmem
    have e2 := get?_of_mem p.fields t _ hnodup ht
    rw [e1] at e2
    simp only [Option.some.injEq] at e2
    rw [← e2] at hnr
    simp [ParsedField.isReference] at hnr
  have hin : ParsedField.reference name t ∈ order2 :=
    h2.mem_iff.mpr (List.mem_map.mpr ⟨(name, .reference name t), hr, rfl⟩)
  have hnd2 : (order2.map ParsedField.Name).Nodup := hn2.nodup_iff.mpr hnodup
  refine ⟨v, out1, hp1, hv, ?_, ?_⟩
  · rw [hout, pass2_frame order2 out1 t hnot, hv]
  · rw [hout, pass2_ref order2 out1 name t hnd2 hin hnot, hv]
    rfl

/-- C20 at the template with x = "plain" and y = "_go:_x": the output has
y = x = "plain". -/
theorem C20_witness_xy :
    New (.ok templateXY) = .ok ⟨fieldsXY⟩ ∧
    processor.Generate ⟨fieldsXY⟩ sampleWorld =
      .ok ([(bytesOf "x", .str (bytesOf "plain")), (bytesOf "y", .str (bytesOf "plain"))],
        sampleWorld) ∧
    (∀ out w1, processor.Generate ⟨fieldsXY⟩ sampleWorld = .ok (out, w1) →
      ∃ v out1, generatePass1 (fieldsXY.map Prod.snd) [] sampleWorld = .ok (out1, w1) ∧
        out1.get? (bytesOf "x") = some v ∧
        out.get? (bytesOf "x") = some v ∧ out.get? (bytesOf "y") = some v) :=
  ⟨by rfl, by rfl,
   (C20_reference_copies_target templateXY ⟨fieldsXY⟩ (by rfl) _ _ (List.Perm.refl _)
     (List.Perm.refl _) sampleWorld (bytesOf "y") (bytesOf "y") (bytesOf "x")
     (.static (bytesOf "x") (.str (bytesOf "plain"))) (by simp [fieldsXY])
     (by simp [fieldsXY]) rfl).1⟩

/-! ## Keyword fields and the clock -/

/-- C22: with the clock as an input, the value of a Timestamp field is the
reading of the clock at the moment Value() is called (the field itself, built
at parsing, holds only its name), the value of a UUID field at the same state
is that same integer, and each call takes one reading; so a UUID field and a
Timestamp field evaluate identically. -/
theorem C22_timestamp_uuid_value (name name2 : GoString) (w : World) :
    (ParsedField.timestamp name).Value w =
      .ok (.int64 (w.clock w.tick), { w with tick := w.tick + 1 }) ∧
    (ParsedField.uuid name2).Value w =
      .ok (.int64 (w.clock w.tick), { w with tick := w.tick + 1 }) ∧
    (ParsedField.uuid name2).Value w = (ParsedField.timestamp name).Value w ∧
    (∀ body, newTimestampField name body = .ok (.timestamp name)) ∧
    (∀ body, newUUIDField name2 body = .ok (.uuid name2)) :=
  ⟨rfl, rfl, rfl, fun _ => rfl, fun _ => rfl⟩

/-! ## The toggle law -/

theorem unescapedIdx_mem (raw : GoString) (c i : Nat) :
    i ∈ unescapedIdx raw c ↔ raw[i]? = some c ∧ (i = 0 ∨ raw[i - 1]? ≠ some 92) := by
  simp only [unescapedIdx, List.mem_filter, List.mem_range, unescapedAt, decide_eq_true_eq]
  constructor
  · exact fun h => h.2
  · intro h
    refine ⟨?_, h⟩
    by_contra hlt
    have : raw[i]? = none := List.getElem?_eq_none (by omega)
    rw [this] at h
    exact absurd h.1 (by simp)

theorem unescapedIdx_sorted (raw : GoString) (c : Nat) :
    (unescapedIdx raw c).Pairwise (· < ·) :=
  (List.pairwise_lt_range raw.length).filter _

/-- C23: call a byte c in raw unescaped at index i when raw[i] = c and i = 0
or raw[i-1] is not a backslash; `unescapedIdx raw c` lists these indices in
increasing order. For every string, the start that locatePattern returns is
the index of the last unescaped '<' when their number is odd and -1 when it is
even, and the end is the index of the last unescaped '>' when their number is
odd and -1 when it is even. -/
theorem C23_locatePattern_toggle (raw : GoString) :
    (∀ c i, i ∈ unescapedIdx raw c ↔
      raw[i]? = some c ∧ (i = 0 ∨ raw[i - 1]? ≠ some 92)) ∧
    (∀ c, (unescapedIdx raw c).Pairwise (· < ·)) ∧
    ((unescapedIdx raw 60).length % 2 = 1 →
      ∃ i, (unescapedIdx raw 60).getLast? = some i ∧ (locatePattern raw).1 = (i : Int)) ∧
    ((unescapedIdx raw 60).length % 2 = 0 → (locatePattern raw).1 = -1) ∧
    ((unescapedIdx raw 62).length % 2 = 1 →
      ∃ j, (unescapedIdx raw 62).getLast? = some j ∧ (locatePattern raw).2 = (j : Int)) ∧
    ((unescapedIdx raw 62).length % 2 = 0 → (locatePattern raw).2 = -1) := by
  have hodd : ∀ l : List Nat, l.length % 2 = 1 →
      ∃ i, l.getLast? = some i ∧ toggleOf l = (i : Int) := by
    intro l h
    cases hl : l.getLast? with
    | none =>
      rw [List.getLast?_eq_none_iff] at hl
      subst hl
      simp at h
    | some i => exact ⟨i, rfl, by simp [toggleOf, h, hl]⟩
  have heven : ∀ l : List Nat, l.length % 2 = 0 → toggleOf l = -1 := by
    intro l h
    simp [toggleOf, h]
  rw [locatePattern_toggle]
  exact ⟨unescapedIdx_mem raw, unescapedIdx_sorted raw, hodd _, heven _, hodd _, heven _⟩

/-- C23 at "<4/<2/1>", which gives (-1, 7), and at "\<prefix\><4/2/1>", which
gives (10, 16). -/
theorem C23_witness_tests :
    unescapedIdx (bytesOf "<4/<2/1>") 60 = [0, 3] ∧
    unescapedIdx (bytesOf "<4/<2/1>") 62 = [7] ∧
    (locatePattern (bytesOf "<4/<2/1>")).1 = -1 ∧
    (∃ j, (unescapedIdx (bytesOf "<4/<2/1>") 62).getLast? = some j ∧
      (locatePattern (bytesOf "<4/<2/1>")).2 = (j : Int)) ∧
    locatePattern (bytesOf "<4/<2/1>") = (-1, 7) ∧
    unescapedIdx (bytesOf "\\<prefix\\><4/2/1>") 60 = [10] ∧
    unescapedIdx (bytesOf "\\<prefix\\><4/2/1>") 62 = [16] ∧
    (∃ i, (unescapedIdx (bytesOf "\\<prefix\\><4/2/1>") 60).getLast? = some i ∧
      (locatePattern (bytesOf "\\<prefix\\><4/2/1>")).1 = (i : Int)) ∧
    locatePattern (bytesOf "\\<prefix\\><4/2/1>") = (10, 16) :=
  ⟨by decide, by decide,
   (C23_locatePattern_toggle (bytesOf "<4/<2/1>")).2.2.2.1 (by decide),
   (C23_locatePattern_toggle (bytesOf "<4/<2/1>")).2.2.2.2.1 (by decide),
   by decide, by decide, by decide,
   (C23_locatePattern_toggle (bytesOf "\\<prefix\\><4/2/1>")).2.2.1 (by decide),
   by decide⟩

/-! ## The fixed-offset strip -/

theorem parseStringField_marker (p : parser) (key v : GoString) (h : goPrefix <:+: v) :
    p.parseStringField key v = p.parseStringField key (goPrefix ++ v.drop 4) := by
  have hc : stringsContains v goPrefix = true := (stringsContains_iff v goPrefix).mpr h
  have hlen : 4 ≤ v.length := by
    have := h.length_le
    simpa [goPrefix, bytesOf] using this
  have hslice : sliceStr v goPrefix.length v.length = some (v.drop 4) := by
    have hcond : (0 : Int) ≤ (goPrefix.length : Int) ∧ (goPrefix.length : Int) ≤ (v.length : Int) ∧
        (v.length : Int) ≤ (v.length : Int) := by
      simp only [goPrefix, bytesOf]
      simp
      omega
    rw [sliceStr, if_pos hcond]
    simp [goPrefix, bytesOf]
  have hslice2 := slice_marker (v.drop 4)
  simp only [parser.parseStringField, parser.isStaticString, hc, contains_marker, hslice,
    hslice2, Bool.not_true]
  simp

/-- C25: for every string v that contains the marker "_go:" anywhere,
parseStringField classifies v[4:], the string without its first four bytes:
its result on v is its result on "_go:" ++ v[4:]. So two strings that contain
the marker and agree from byte 4 on have the same result, and w ++ b with a
4-byte w is classified like "_go:" ++ b whenever it contains the marker. -/
theorem C25_fixed_offset_strip (p : parser) (key v : GoString) (h : goPrefix <:+: v) :
    p.parseStringField key v = p.parseStringField key (goPrefix ++ v.drop 4) ∧
    (∀ v2, goPrefix <:+: v2 → v2.drop 4 = v.drop 4 →
      p.parseStringField key v2 = p.parseStringField key v) ∧
    (∀ w b, w.length = 4 → v = w ++ b →
      p.parseStringField key v = p.parseStringField key (goPrefix ++ b)) := by
  refine ⟨parseStringField_marker p key v h, ?_, ?_⟩
  · intro v2 h2 hd
    rw [parseStringField_marker p key v2 h2, parseStringField_marker p key v h, hd]
  · intro w b hw hv
    rw [parseStringField_marker p key v h, hv]
    congr 2
    rw [← hw]
    exact List.drop_left w b

/-- C25 at "abcd_go:<4>": the marker stands at byte 4, the body classified is
"_go:<4>", and the result is the Pattern field with the prefix "_go:". -/
theorem C25_witness_shifted_marker :
    goPrefix <:+: bytesOf "abcd_go:<4>" ∧
    newParser.parseStringField (bytesOf "a") (bytesOf "abcd_go:<4>") =
      newParser.parseStringField (bytesOf "a") (goPrefix ++ bytesOf "_go:<4>") ∧
    newParser.parseStringField (bytesOf "a") (bytesOf "abcd_go:<4>") =
      .ok (.pattern (bytesOf "a") ⟨⟨bytesOf "_go:", [], 4, 0, 0, 4⟩⟩) :=
  ⟨by rw [← stringsContains_iff]; decide,
   (C25_fixed_offset_strip newParser (bytesOf "a") (bytesOf "abcd_go:<4>")
     (by rw [← stringsContains_iff]; decide)).2.2 (bytesOf "abcd") (bytesOf "_go:<4>")
     (by decide) (by decide),
   by rfl⟩

/-! ## Aborts of the classifier and of the pattern compiler -/

theorem newPatternField_ok_shape (key body : GoString) (f : ParsedField)
    (h : newPatternField key body = .ok f) : ∃ gen, f = .pattern key gen := by
  unfold newPatternField at h
  split at h
  · rename_i gen _
    cases h
    exact ⟨gen, rfl⟩
  · cases h
  · cases h

theorem newPatternField_err_shape (key body : GoString) (e : GoError)
    (h : newPatternField key body = .err e) : ∃ cause, e = .invalidPattern body cause := by
  unfold newPatternField at h
  split at h
  · cases h
  · rename_i e1 hgen
    cases h
    unfold newPatternGenerator at hgen
    split at hgen
    · cases hgen
    · rename_i cause _
      cases hgen
      exact ⟨cause, rfl⟩
    · cases hgen
  · cases h

/-- C26 fails on the code for the empty body: on the value "_go:" (with no
keyword registered under the empty name) parseStringField aborts, because
isValidReferenceString slices value[1:] of the empty string; newPatternGenerator
on the empty string, which the claim expects to decide, returns an error. For
a non-empty body that is neither a keyword nor a valid reference the result
is the one of newPatternField: a Pattern field, or the InvalidPattern error
with the body. -/
theorem C26_empty_body_aborts (p : parser) (key : GoString) :
    (p.isValidKeywordString [] = false →
      p.parseStringField key goPrefix = .panic .sliceBounds) ∧
    newParser.parseStringField key (bytesOf "_go:") = .panic .sliceBounds ∧
    newPatternGenerator [] = .err (.invalidPattern [] .cantLocate) ∧
    (∀ c rest, p.isValidKeywordString (c :: rest) = false → p.rawFields.get? rest = none →
      p.parseStringField key (goPrefix ++ c :: rest) = newPatternField key (c :: rest)) ∧
    (∀ body f, newPatternField key body = .ok f → ∃ gen, f = .pattern key gen) ∧
    (∀ body e, newPatternField key body = .err e → ∃ cause, e = .invalidPattern body cause) := by
  have hempty : ∀ q : parser, q.isValidKeywordString [] = false →
      q.parseStringField key goPrefix = .panic .sliceBounds := by
    intro q hkw
    have h := parseStringField_fallthrough q key [] hkw
    rw [List.append_nil] at h
    rw [h]
    rfl
  refine ⟨hempty p, hempty newParser (by decide), by decide, ?_,
    newPatternField_ok_shape key, newPatternField_err_shape key⟩
  intro c rest hkw hkey
  rw [parseStringField_fallthrough p key _ hkw]
  simp only [parser.isValidReferenceString, slice_tail, hkey]
  rfl

theorem unescapeLoop_trailing (raw : GoString) :
    ∀ res, raw.getLast? = some 92 → unescapeLoop raw res = .panic .indexOutOfRange := by
  induction raw with
  | nil => intro res h; simp at h
  | cons c rest ih =>
    intro res h
    cases rest with
    | nil =>
      have hc : c = 92 := by simpa using h
      simp [unescapeLoop, hc]
    | cons d rest =>
      have hlast : (d :: rest).getLast? = some 92 := by
        simpa [List.getLast?_cons_cons] using h
      rw [unescapeLoop]
      split
      · split
        · exact ih _ hlast
        · exact ih _ hlast
      · exact ih _ hlast

theorem unescapeString_total (raw : GoString) (h : raw.getLast? ≠ some 92) :
    ∃ out, unescapeString raw = .ok out := by
  obtain ⟨toks, htoks, hraw⟩ := runs_cover raw h
  refine ⟨(toks.map escRunKept).flatten, ?_⟩
  rw [hraw]
  simpa [unescapeString] using unescapeLoop_runs toks [] htoks

theorem locate_bracketed_trailing (p b q : GoString) (hp : 92 ∉ p) (hq : 92 ∉ q)
    (hb : ∀ c ∈ b, c ≠ 60 ∧ c ≠ 62 ∧ c ≠ 92) :
    locatePattern (escapeBrackets p ++ 60 :: (b ++ 62 :: (escapeBrackets q ++ [92]))) =
      (((escapeBrackets p).length : Int), ((escapeBrackets p).length : Int) + 1 + b.length) := by
  have hb92 : 92 ∉ b := fun m => (hb 92 m).2.2 rfl
  have hbe : escapeBrackets b = b :=
    escapeBrackets_plain b (fun c hc => ⟨(hb c hc).1, (hb c hc).2.1⟩)
  have hscanb := scan_escaped b hb92
  rw [hbe] at hscanb
  rw [locatePattern_eq_scan, scan_escaped p hp]
  rw [scanBytes, show decide ((60 : Nat) = 92) = false by decide, hscanb, scanBytes]
  simp only [show decide ((62 : Nat) = 92) = false by decide]
  rw [scan_escaped q hq]
  simp [scanBytes, toggleStep]

theorem take_getLast (raw : GoString) (i : Nat) (hi : i < raw.length)
    (h : i = 0 ∨ raw[i - 1]? ≠ some 92) : (raw.take i).getLast? ≠ some 92 := by
  rcases Nat.eq_zero_or_pos i with h0 | hpos
  · subst h0
    simp
  · have hne : raw[i - 1]? ≠ some 92 := by
      rcases h with h | h
      · omega
      · exact h
    rw [List.getLast?_eq_getElem?, List.length_take, Nat.min_eq_left (Nat.le_of_lt hi),
      List.getElem?_take_of_lt (by omega)]
    exact hne

/-- C27 fails on the code: unescapeString reads raw[i+1] for a backslash at
the last index, so it aborts on every text that ends in a backslash (and
returns on every other text), and buildPattern aborts on every raw pattern
whose text after the closing bracket ends in a backslash, such as the four
bytes of "<4>" followed by a backslash. The text before the opening bracket
never ends in a backslash, so unescapeString returns on it. -/
theorem C27_trailing_backslash_aborts :
    (∀ raw : GoString, raw.getLast? = some 92 →
      unescapeString raw = .panic .indexOutOfRange) ∧
    (∀ raw : GoString, raw.getLast? ≠ some 92 → ∃ out, unescapeString raw = .ok out) ∧
    buildPattern (bytesOf "<4>\\") = .panic .indexOutOfRange ∧
    newPatternGenerator (bytesOf "<4>\\") = .panic .indexOutOfRange ∧
    (∀ (p q : GoString) (l : Nat), 92 ∉ p → 92 ∉ q → l ≤ 64 →
      buildPattern (bracketed p (decimal l) q ++ bytesOf "\\") = .panic .indexOutOfRange) ∧
    (∀ raw : GoString, (locatePattern raw).1 ≠ -1 →
      ∃ rawPrefix pre, sliceStr raw 0 (locatePattern raw).1 = some rawPrefix ∧
        unescapeString rawPrefix = .ok pre) := by
  refine ⟨fun raw h => unescapeLoop_trailing raw [] h, unescapeString_total, by decide,
    by decide, ?_, ?_⟩
  · intro p q l hp hq hl
    have hb := plain_digits _ (decimal_spec l).2.1
    have hloc := locate_bracketed_trailing p (decimal l) q hp hq hb
    have hraw : bracketed p (decimal l) q ++ bytesOf "\\" =
        escapeBrackets p ++ 60 :: (decimal l ++ 62 :: (escapeBrackets q ++ [92])) := by
      simp [bracketed, bytesOf]
    have hparse := (parsePattern_texts_ok l 0 0 (by omega)).1
    have htrail : unescapeString (escapeBrackets q ++ [92]) = .panic .indexOutOfRange :=
      unescapeLoop_trailing _ [] (by simp)
    rw [hraw, buildPattern_of_locate _ _ _ hloc, hparse]
    simp only [unescapeString, unescapeLoop_escaped p hp]
    simp only [unescapeString] at htrail
    rw [htrail]
  · intro raw hstart
    rw [locatePattern_toggle] at hstart ⊢
    obtain ⟨_, i, _, hv, hmem⟩ := toggleOf_ne _ hstart
    obtain ⟨hbyte, hprev⟩ := (unescapedIdx_mem raw 60 i).mp hmem
    have hi : i < raw.length := by
      by_contra hlt
      have : raw[i]? = none := List.getElem?_eq_none (by omega)
      rw [this] at hbyte
      exact absurd hbyte (by simp)
    have hcond : (0 : Int) ≤ 0 ∧ (0 : Int) ≤ (i : Int) ∧ (i : Int) ≤ (raw.length : Int) := by
      omega
    obtain ⟨out, hout⟩ := unescapeString_total (raw.take i) (take_getLast raw i hi hprev)
    refine ⟨raw.take i, out, ?_, hout⟩
    simp only [hv]
    rw [sliceStr, if_pos hcond]
    simp

/-! ## Values stored by the first loop -/

theorem pass1_frame (fs : List ParsedField) :
    ∀ (out : GoMap Value) (w : World) (out1 : GoMap Value) (w1 : World) (k : GoString),
      generatePass1 fs out w = .ok (out1, w1) → k ∉ fs.map ParsedField.Name →
      out1.get? k = out.get? k := by
  induction fs with
  | nil =>
    intro out w out1 w1 k h _
    simp only [generatePass1, Res.ok.injEq, Prod.mk.injEq] at h
    rw [h.1]
  | cons f rest ih =>
    intro out w out1 w1 k h hk
    have hk2 : k ≠ f.Name ∧ k ∉ rest.map ParsedField.Name := by
      simpa using hk
    cases hv : f.Value w with
    | ok r =>
      obtain ⟨v, w2⟩ := r
      simp only [generatePass1, hv] at h
      rw [ih _ _ _ _ k h hk2.2, get?_set_ne _ _ _ _ hk2.1]
    | err e => simp [generatePass1, hv] at h
    | panic q => simp [generatePass1, hv] at h

theorem pass1_const (fs : List ParsedField) :
    ∀ (out : GoMap Value) (w : World) (out1 : GoMap Value) (w1 : World) (f : ParsedField)
      (c : Value), (fs.map ParsedField.Name).Nodup → f ∈ fs →
      (∀ w0, f.Value w0 = .ok (c, w0)) → generatePass1 fs out w = .ok (out1, w1) →
      out1.get? f.Name = some c := by
  induction fs with
  | nil => intro out w out1 w1 f c _ hf; simp at hf
  | cons g rest ih =>
    intro out w out1 w1 f c hn hf hc h
    have hcons : g.Name ∉ rest.map ParsedField.Name ∧ (rest.map ParsedField.Name).Nodup := by
      simpa using hn
    cases hv : g.Value w with
    | ok r =>
      obtain ⟨v, w2⟩ := r
      simp only [generatePass1, hv] at h
      rcases List.mem_cons.mp hf with e | hrest
      · subst e
        have hvc : v = c := by
          have := hc w
          rw [hv] at this
          simp only [Res.ok.injEq, Prod.mk.injEq] at this
          exact this.1
        rw [pass1_frame rest _ _ _ _ _ h hcons.1, get?_set_self, hvc]
      · exact ih _ _ _ _ f c hcons.2 hrest hc h
    | err e => simp [generatePass1, hv] at h
    | panic q => simp [generatePass1, hv] at h

theorem pass2_append (A B : List ParsedField) :
    ∀ out : GoMap Value, generatePass2 (A ++ B) out = generatePass2 B (generatePass2 A out) := by
  induction A with
  | nil => intro out; rfl
  | cons f rest ih =>
    intro out
    cases f with
    | reference name target =>
      simp only [List.cons_append, generatePass2]
      exact ih _
    | static _ _ => exact ih out
    | timestamp _ => exact ih out
    | uuid _ => exact ih out
    | pattern _ _ => exact ih out
    | custom _ _ => exact ih out

theorem order_mem (F : GoMap ParsedField) (order : List ParsedField)
    (hnames : ∀ k f, (k, f) ∈ F → f.Name = k) (hp : order.Perm (F.map Prod.snd))
    (f : ParsedField) (hf : f ∈ order) : (f.Name, f) ∈ F := by
  have hm : f ∈ F.map Prod.snd := hp.mem_iff.mp hf
  obtain ⟨kv, hkv, hsnd⟩ := List.mem_map.mp hm
  have hk : kv.1 = f.Name := by
    have := hnames kv.1 kv.2 hkv
    rw [hsnd] at this
    exact this.symm
  have e : kv = (f.Name, f) := Prod.ext hk hsnd
  rw [← e]
  exact hkv

theorem no_reference_named (F : GoMap ParsedField) (order : List ParsedField)
    (hnodup : F.keys.Nodup) (hnames : ∀ k f, (k, f) ∈ F → f.Name = k)
    (hp : order.Perm (F.map Prod.snd)) (t : GoString) (ft : ParsedField)
    (ht : (t, ft) ∈ F) (hnr : ft.isReference = false) :
    ∀ x, ParsedField.reference t x ∉ order := by
  intro x hx
  have hmem := order_mem F order hnames hp _ hx
  have e1 := get?_of_mem F t _ hnodup hmem
  have e2 := get?_of_mem F t _ hnodup ht
  rw [e1] at e2
  simp only [Option.some.injEq] at e2
  rw [← e2] at hnr
  simp [ParsedField.isReference] at hnr

/-! ## Static fields -/

theorem default_registry_no_static :
    ∀ k fn, getDefaultKeywordSet.get? k = some fn →
      ∀ a b n v, fn a b ≠ .ok (.static n v) := by
  intro k fn h a b n v hf
  simp only [getDefaultKeywordSet, GoMap.get?] at h
  split at h
  · cases h
    simp [newTimestampField] at hf
  · split at h
    · cases h
      simp [newUUIDField] at hf
    · cases h

theorem parseStringField_static (p : parser) (key value n : GoString) (val : Value)
    (hreg : ∀ k fn, p.keywordSet.get? k = some fn → ∀ a b n v, fn a b ≠ .ok (.static n v))
    (h : p.parseStringField key value = .ok (.static n val)) :
    n = key ∧ val = .str value := by
  unfold parser.parseStringField at h
  split at h
  · simp only [newStaticField, Res.ok.injEq, ParsedField.static.injEq] at h
    exact ⟨h.1.symm, h.2.symm⟩
  · split at h
    · cases h
    · split at h
      · split at h
        · rename_i fn hfn
          exact absurd h (hreg _ fn hfn _ _ _ _)
        · cases h
      · split at h
        · cases h
        · cases h
        · split at h
          · cases h
          · simp [newReferenceField] at h
        · obtain ⟨gen, hgen⟩ := newPatternField_ok_shape _ _ _ h
          cases hgen

theorem parseField_static (p : parser) (key n : GoString) (v val : Value)
    (hreg : ∀ k fn, p.keywordSet.get? k = some fn → ∀ a b n v, fn a b ≠ .ok (.static n v))
    (h : p.parseField key v = .ok (.static n val)) : n = key ∧ val = v := by
  cases v with
  | str s => exact parseStringField_static p key s n val hreg h
  | nil => simp [parser.parseField] at h
  | bool b =>
    simp only [parser.parseField, newStaticField, Res.ok.injEq, ParsedField.static.injEq] at h
    exact ⟨h.1.symm, h.2.symm⟩
  | float64 x =>
    simp only [parser.parseField, newStaticField, Res.ok.injEq, ParsedField.static.injEq] at h
    exact ⟨h.1.symm, h.2.symm⟩
  | int64 x =>
    simp only [parser.parseField, newStaticField, Res.ok.injEq, ParsedField.static.injEq] at h
    exact ⟨h.1.symm, h.2.symm⟩
  | array xs =>
    simp only [parser.parseField, newStaticField, Res.ok.injEq, ParsedField.static.injEq] at h
    exact ⟨h.1.symm, h.2.symm⟩
  | object kvs =>
    simp only [parser.parseField, newStaticField, Res.ok.injEq, ParsedField.static.injEq] at h
    exact ⟨h.1.symm, h.2.symm⟩

/-- C21: for a template T that New accepts and a field that parsed as Static
under the key k, the field holds the value that T has under k, and in every
map that Generate produces, for every order of its two loops and every state
of the random source and the clock, the entry of k is that value; so it is the
same in any two calls. Generate does produce the map whenever every pattern
field has non-negative counts with length their sum. -/
theorem C21_static_stable (T : GoMap Value) (p : processor) (hnew : New (.ok T) = .ok p)
    (k name : GoString) (val : Value) (hs : (k, ParsedField.static name val) ∈ p.fields) :
    (k, val) ∈ T ∧
    (∀ order1 order2 w out w1, order1.Perm (p.fields.map Prod.snd) →
      order2.Perm (p.fields.map Prod.snd) → p.GenerateIn order1 order2 w = .ok (out, w1) →
      out.get? k = some val) ∧
    (∀ order1 order2 w out w1 order3 order4 w2 out2 w3,
      order1.Perm (p.fields.map Prod.snd) → order2.Perm (p.fields.map Prod.snd) →
      order3.Perm (p.fields.map Prod.snd) → order4.Perm (p.fields.map Prod.snd) →
      p.GenerateIn order1 order2 w = .ok (out, w1) →
      p.GenerateIn order3 order4 w2 = .ok (out2, w3) → out.get? k = out2.get? k) ∧
    (∀ order1 order2 w, order1.Perm (p.fields.map Prod.snd) →
      (∀ k name gen, (k, ParsedField.pattern name gen) ∈ p.fields → gen.pattern.wellFormed) →
      ∃ out w1, p.GenerateIn order1 order2 w = .ok (out, w1)) := by
  obtain ⟨_, hnodup, hnames, hparse⟩ := New_fields T p hnew
  have hname : name = k := hnames k _ hs
  subst hname
  have hloop : parser.parseLoop { newParser with rawFields := T } T [] = .ok p.fields := hparse
  have hT : (name, val) ∈ T := by
    rcases parseLoop_mem _ T [] p.fields hloop name _ hs with h0 | ⟨v, hv, hpf⟩
    · simp at h0
    · have := (parseField_static _ name name v val default_registry_no_static hpf).2
      rw [this]
      exact hv
  have hval : ∀ order1 order2 w out w1, order1.Perm (p.fields.map Prod.snd) →
      order2.Perm (p.fields.map Prod.snd) → p.GenerateIn order1 order2 w = .ok (out, w1) →
      out.get? name = some val := by
    intro order1 order2 w out w1 h1 h2 hgen
    obtain ⟨out1, hp1, hout⟩ := GenerateIn_ok_inv p order1 order2 w out w1 hgen
    have hn1 := order_names p.fields order1 hnames h1
    have hnd1 : (order1.map ParsedField.Name).Nodup := hn1.nodup_iff.mpr hnodup
    have hin : ParsedField.static name val ∈ order1 :=
      h1.mem_iff.mpr (List.mem_map.mpr ⟨(name, .static name val), hs, rfl⟩)
    have hnot := no_reference_named p.fields order2 hnodup hnames h2 name _ hs rfl
    rw [hout, pass2_frame order2 out1 name hnot]
    exact pass1_const order1 [] w out1 w1 (.static name val) val hnd1 hin (fun _ => rfl) hp1
  refine ⟨hT, hval, ?_, ?_⟩
  · intro order1 order2 w out w1 order3 order4 w2 out2 w3 h1 h2 h3 h4 hg1 hg2
    rw [hval order1 order2 w out w1 h1 h2 hg1, hval order3 order4 w2 out2 w3 h3 h4 hg2]
  · intro order1 order2 w h1 hwf
    exact GenerateIn_total p order1 order2 w h1 hwf

/-- C21 at a template with a number, a boolean, a plain string and a pattern:
the plain string "timestamp" is in the output as it is in the template. -/
theorem C21_witness_static :
    New (.ok templateStatic) = .ok ⟨fieldsStatic⟩ ∧
    (bytesOf "s", Value.str (bytesOf "timestamp")) ∈ templateStatic ∧
    (∀ out w1, processor.Generate ⟨fieldsStatic⟩ sampleWorld = .ok (out, w1) →
      out.get? (bytesOf "s") = some (.str (bytesOf "timestamp"))) ∧
    ∃ out w1, processor.Generate ⟨fieldsStatic⟩ sampleWorld = .ok (out, w1) :=
  ⟨by rfl,
   (C21_static_stable templateStatic ⟨fieldsStatic⟩ (by rfl) (bytesOf "s") (bytesOf "s")
     (.str (bytesOf "timestamp")) (by simp [fieldsStatic])).1,
   fun out w1 h =>
     (C21_static_stable templateStatic ⟨fieldsStatic⟩ (by rfl) (bytesOf "s") (bytesOf "s")
       (.str (bytesOf "timestamp")) (by simp [fieldsStatic])).2.1 _ _ sampleWorld out w1
       (List.Perm.refl _) (List.Perm.refl _) h,
   (C21_static_stable templateStatic ⟨fieldsStatic⟩ (by rfl) (bytesOf "s") (bytesOf "s")
     (.str (bytesOf "timestamp")) (by simp [fieldsStatic])).2.2.2 _ _ sampleWorld
     (List.Perm.refl _) (by
       intro k name gen hm
       simp [fieldsStatic] at hm
       obtain ⟨_, _, rfl⟩ := hm
       simp [strPattern.wellFormed])⟩

/-! ## No value of the output map is nil -/

theorem default_registry_values :
    ∀ k fn, getDefaultKeywordSet.get? k = some fn →
      ∀ a b f, fn a b = .ok f → ∀ w val w1, f.Value w = .ok (val, w1) → val ≠ .nil := by
  intro k fn h a b f hf w val w1 hv
  simp only [getDefaultKeywordSet, GoMap.get?] at h
  split at h
  · cases h
    simp only [newTimestampField, Res.ok.injEq] at hf
    subst hf
    simp only [ParsedField.Value, Res.ok.injEq, Prod.mk.injEq] at hv
    rw [← hv.1]
    simp
  · split at h
    · cases h
      simp only [newUUIDField, Res.ok.injEq] at hf
      subst hf
      simp only [ParsedField.Value, Res.ok.injEq, Prod.mk.injEq] at hv
      rw [← hv.1]
      simp
    · cases h

theorem pattern_value_str (name : GoString) (gen : generator) (w : World) (val : Value)
    (w1 : World) (h : (ParsedField.pattern name gen).Value w = .ok (val, w1)) :
    ∃ s, val = .str s := by
  simp only [ParsedField.Value] at h
  split at h
  · simp only [Res.ok.injEq, Prod.mk.injEq] at h
    exact ⟨_, h.1.symm⟩
  · cases h
  · cases h

theorem parseStringField_value (p : parser) (key value : GoString) (f : ParsedField)
    (hreg : ∀ k fn, p.keywordSet.get? k = some fn →
      ∀ a b f, fn a b = .ok f → ∀ w val w1, f.Value w = .ok (val, w1) → val ≠ .nil)
    (h : p.parseStringField key value = .ok f) :
    ∀ w val w1, f.Value w = .ok (val, w1) → val ≠ .nil := by
  intro w val w1 hv
  unfold parser.parseStringField at h
  split at h
  · simp only [newStaticField, Res.ok.injEq] at h
    subst h
    simp only [ParsedField.Value, Res.ok.injEq, Prod.mk.injEq] at hv
    rw [← hv.1]
    simp
  · split at h
    · cases h
    · split at h
      · split at h
        · rename_i fn hfn
          exact hreg _ fn hfn _ _ f h w val w1 hv
        · cases h
      · split at h
        · cases h
        · cases h
        · split at h
          · cases h
          · simp only [newReferenceField, Res.ok.injEq] at h
            subst h
            simp only [ParsedField.Value, Res.ok.injEq, Prod.mk.injEq] at hv
            rw [← hv.1]
            simp
        · obtain ⟨gen, hgen⟩ := newPatternField_ok_shape _ _ _ h
          subst hgen
          obtain ⟨s, hs⟩ := pattern_value_str _ _ w val w1 hv
          rw [hs]
          simp

theorem parseField_value (p : parser) (key : GoString) (v : Value) (f : ParsedField)
    (hreg : ∀ k fn, p.keywordSet.get? k = some fn →
      ∀ a b f, fn a b = .ok f → ∀ w val w1, f.Value w = .ok (val, w1) → val ≠ .nil)
    (h : p.parseField key v = .ok f) :
    ∀ w val w1, f.Value w = .ok (val, w1) → val ≠ .nil := by
  intro w val w1 hv
  cases v with
  | str s => exact parseStringField_value p key s f hreg h w val w1 hv
  | nil => simp [parser.parseField] at h
  | bool b =>
    simp only [parser.parseField, newStaticField, Res.ok.injEq] at h
    subst h
    simp only [ParsedField.Value, Res.ok.injEq, Prod.mk.injEq] at hv
    rw [← hv.1]
    simp
  | float64 x =>
    simp only [parser.parseField, newStaticField, Res.ok.injEq] at h
    subst h
    simp only [ParsedField.Value, Res.ok.injEq, Prod.mk.injEq] at hv
    rw [← hv.1]
    simp
  | int64 x =>
    simp only [parser.parseField, newStaticField, Res.ok.injEq] at h
    subst h
    simp only [ParsedField.Value, Res.ok.injEq, Prod.mk.injEq] at hv
    rw [← hv.1]
    simp
  | array xs =>
    simp only [parser.parseField, newStaticField, Res.ok.injEq] at h
    subst h
    simp only [ParsedField.Value, Res.ok.injEq, Prod.mk.injEq] at hv
    rw [← hv.1]
    simp
  | object kvs =>
    simp only [parser.parseField, newStaticField, Res.ok.injEq] at h
    subst h
    simp only [ParsedField.Value, Res.ok.injEq, Prod.mk.injEq] at hv
    rw [← hv.1]
    simp

theorem pass1_nonnil (fs : List ParsedField) :
    ∀ (out : GoMap Value) (w : World) (out1 : GoMap Value) (w1 : World),
      (∀ f, f ∈ fs → ∀ w0 val w2, f.Value w0 = .ok (val, w2) → val ≠ .nil) →
      (∀ k v, out.get? k = some v → v ≠ .nil) →
      generatePass1 fs out w = .ok (out1, w1) →
      ∀ k v, out1.get? k = some v → v ≠ .nil := by
  induction fs with
  | nil =>
    intro out w out1 w1 _ hout h
    simp only [generatePass1, Res.ok.injEq, Prod.mk.injEq] at h
    rw [← h.1]
    exact hout
  | cons f rest ih =>
    intro out w out1 w1 hfs hout h
    cases hv : f.Value w with
    | ok r =>
      obtain ⟨v, w2⟩ := r
      simp only [generatePass1, hv] at h
      refine ih _ _ _ _ (fun g hg => hfs g (List.mem_cons_of_mem _ hg)) ?_ h
      intro k v2 hk
      by_cases e : k = f.Name
      · subst e
        rw [get?_set_self] at hk
        simp only [Option.some.injEq] at hk
        rw [← hk]
        exact hfs f (List.mem_cons_self _ _) w v w2 hv
      · rw [get?_set_ne _ _ _ _ e] at hk
        exact hout k v2 hk
    | err e => simp [generatePass1, hv] at h
    | panic q => simp [generatePass1, hv] at h

theorem pass2_nonnil (fs : List ParsedField) :
    ∀ (out : GoMap Value),
      (∀ n t, ParsedField.reference n t ∈ fs → t ∈ out.keys) →
      (∀ k v, out.get? k = some v → v ≠ .nil) →
      ∀ k v, (generatePass2 fs out).get? k = some v → v ≠ .nil := by
  induction fs with
  | nil => intro out _ hout; exact hout
  | cons f rest ih =>
    intro out hk hout
    have hrest : ∀ n t, ParsedField.reference n t ∈ rest → t ∈ out.keys :=
      fun n t h => hk n t (List.mem_cons_of_mem _ h)
    cases f with
    | reference name target =>
      simp only [generatePass2]
      have ht : target ∈ out.keys := hk name target (List.mem_cons_self _ _)
      have hsome := (get?_isSome_iff out target).mpr ht
      obtain ⟨vt, hvt⟩ := Option.isSome_iff_exists.mp hsome
      refine ih _ ?_ ?_
      · intro n t h
        exact (keys_set out name t _).mpr (Or.inr (hrest n t h))
      · intro k v hkv
        by_cases e : k = name
        · subst e
          rw [get?_set_self, hvt] at hkv
          simp only [Option.getD_some, Option.some.injEq] at hkv
          rw [← hkv]
          exact hout target vt hvt
        · rw [get?_set_ne _ _ _ _ e] at hkv
          exact hout k v hkv
    | static _ _ => exact ih out hrest hout
    | timestamp _ => exact ih out hrest hout
    | uuid _ => exact ih out hrest hout
    | pattern _ _ => exact ih out hrest hout
    | custom _ _ => exact ih out hrest hout

/-! ## References to references -/

/-- C24 as the code has it: the first loop of Generate stores an entry for
every field, Reference fields included, and the entry of a Reference field is
the name of its target. So for an accepted template with a Reference field r
whose target t is itself a Reference field with target x, the first loop
leaves the string t under r and the string x under t, and every map that
Generate produces has a value under r that is not nil: the string x when the
second loop visits r before t, and the output value of t when it visits t
before r. Generate does produce the map whenever every pattern field has
non-negative counts with length their sum. -/
theorem C24_reference_chain (T : GoMap Value) (p : processor) (hnew : New (.ok T) = .ok p)
    (r t x name name2 : GoString)
    (hr : (r, ParsedField.reference name t) ∈ p.fields)
    (ht : (t, ParsedField.reference name2 x) ∈ p.fields)
    (order1 order2 : List ParsedField) (w : World)
    (h1 : order1.Perm (p.fields.map Prod.snd)) (h2 : order2.Perm (p.fields.map Prod.snd)) :
    (∀ out1 w1, generatePass1 order1 [] w = .ok (out1, w1) →
      out1.get? r = some (.str t) ∧ out1.get? t = some (.str x)) ∧
    (∀ out w1, p.GenerateIn order1 order2 w = .ok (out, w1) →
      (∃ v, out.get? r = some v ∧ v ≠ .nil) ∧
      (∀ A B, order2 = A ++ ParsedField.reference name t :: B →
        ((∀ y, ParsedField.reference t y ∉ A) → out.get? r = some (.str x)) ∧
        ((∃ y, ParsedField.reference t y ∈ A) → out.get? r = out.get? t))) ∧
    ((∀ k name gen, (k, ParsedField.pattern name gen) ∈ p.fields → gen.pattern.wellFormed) →
      ∃ out w1, p.GenerateIn order1 order2 w = .ok (out, w1)) := by
  obtain ⟨_, hnodup, hnames, hparse⟩ := New_fields T p hnew
  have hname : name = r := hnames r _ hr
  have hname2 : name2 = t := hnames t _ ht
  subst hname
  subst hname2
  have hloop : parser.parseLoop { newParser with rawFields := T } T [] = .ok p.fields := hparse
  have hn1 := order_names p.fields order1 hnames h1
  have hnd1 : (order1.map ParsedField.Name).Nodup := hn1.nodup_iff.mpr hnodup
  have hn2 := order_names p.fields order2 hnames h2
  have hnd2 : (order2.map ParsedField.Name).Nodup := hn2.nodup_iff.mpr hnodup
  have hpass1 : ∀ out1 w1, generatePass1 order1 [] w = .ok (out1, w1) →
      out1.get? name = some (.str name2) ∧ out1.get? name2 = some (.str x) := by
    intro out1 w1 hp1
    have hin1 : ParsedField.reference name name2 ∈ order1 :=
      h1.mem_iff.mpr (List.mem_map.mpr ⟨(name, ParsedField.reference name name2), hr, rfl⟩)
    have hin2 : ParsedField.reference name2 x ∈ order1 :=
      h1.mem_iff.mpr (List.mem_map.mpr ⟨(name2, .reference name2 x), ht, rfl⟩)
    exact ⟨pass1_const order1 [] w out1 w1 (.reference name name2) (.str name2) hnd1 hin1
        (fun _ => rfl) hp1,
      pass1_const order1 [] w out1 w1 (.reference name2 x) (.str x) hnd1 hin2
        (fun _ => rfl) hp1⟩
  refine ⟨hpass1, ?_, fun hwf => GenerateIn_total p order1 order2 w h1 hwf⟩
  intro out w1 hgen
  obtain ⟨out1, hp1, hout⟩ := GenerateIn_ok_inv p order1 order2 w out w1 hgen
  obtain ⟨hr1, ht1⟩ := hpass1 out1 w1 hp1
  have hkeys1 : ∀ k, k ∈ out1.keys ↔ k ∈ p.fields.keys := by
    intro k
    rw [pass1_keys order1 [] w out1 w1 hp1 k]
    simp only [GoMap.keys, List.map_nil, List.not_mem_nil, false_or]
    exact hn1.mem_iff
  have hnn1 : ∀ k v, out1.get? k = some v → v ≠ .nil := by
    refine pass1_nonnil order1 [] w out1 w1 ?_ ?_ hp1
    · intro f hf
      have hmem := order_mem p.fields order1 hnames h1 f hf
      rcases parseLoop_mem _ T [] p.fields hloop _ _ hmem with h0 | ⟨v, _, hpf⟩
      · simp at h0
      · exact parseField_value _ _ v f default_registry_values hpf
    · intro k v hk
      simp [GoMap.get?] at hk
  have htargets : ∀ n y, ParsedField.reference n y ∈ order2 → y ∈ out1.keys := by
    intro n y hy
    have hmem := order_mem p.fields order2 hnames h2 _ hy
    rcases parseLoop_mem _ T [] p.fields hloop _ _ hmem with h0 | ⟨v, _, hpf⟩
    · simp at h0
    · have htk := (parseField_reference { newParser with rawFields := T } _ n y v
        default_registry_no_reference hpf).2
      rw [hkeys1, parseLoop_keys _ T [] p.fields hloop y]
      exact Or.inr htk
  have hnn : ∀ k v, out.get? k = some v → v ≠ .nil := by
    rw [hout]
    exact pass2_nonnil order2 out1 htargets hnn1
  have hrk : name ∈ out.keys := by
    rw [hout, pass2_keys]
    exact Or.inl ((hkeys1 name).mpr (List.mem_map.mpr ⟨(name, _), hr, rfl⟩))
  obtain ⟨v, hv⟩ := Option.isSome_iff_exists.mp ((get?_isSome_iff out name).mpr hrk)
  refine ⟨⟨v, hv, hnn name v hv⟩, ?_⟩
  intro A B hAB
  have hndAB : ((A.map ParsedField.Name) ++ name :: B.map ParsedField.Name).Nodup := by
    have := hnd2
    rw [hAB] at this
    simpa using this
  have hrA : name ∉ A.map ParsedField.Name := by
    intro hm
    exact (List.nodup_append.mp hndAB).2.2 hm (List.mem_cons_self _ _)
  have hrB : name ∉ B.map ParsedField.Name := by
    have := (List.nodup_append.mp hndAB).2.1
    exact (List.nodup_cons.mp this).1
  have hnoB : ∀ y, ParsedField.reference name y ∉ B := by
    intro y hy
    exact hrB (List.mem_map.mpr ⟨_, hy, rfl⟩)
  have houtr : out.get? name =
      some (((generatePass2 A out1).get? name2).getD .nil) := by
    rw [hout, hAB, pass2_append]
    simp only [generatePass2]
    rw [pass2_frame B _ name hnoB, get?_set_self]
  refine ⟨?_, ?_⟩
  · intro hnoA
    rw [houtr, pass2_frame A out1 name2 hnoA, ht1]
    rfl
  · rintro ⟨y, hy⟩
    by_cases e : name = name2
    · rw [e]
    · have htA : name2 ∈ A.map ParsedField.Name := List.mem_map.mpr ⟨_, hy, rfl⟩
      have htB : ∀ z, ParsedField.reference name2 z ∉ B := by
        intro z hz
        have hzB : name2 ∈ name :: B.map ParsedField.Name :=
          List.mem_cons_of_mem _ (List.mem_map.mpr ⟨_, hz, rfl⟩)
        exact (List.nodup_append.mp hndAB).2.2 htA hzB
      have hkA : name2 ∈ (generatePass2 A out1).keys := by
        rw [pass2_keys]
        exact Or.inl ((hkeys1 name2).mpr (List.mem_map.mpr ⟨(name2, _), ht, rfl⟩))
      obtain ⟨vt, hvt⟩ := Option.isSome_iff_exists.mp
        ((get?_isSome_iff (generatePass2 A out1) name2).mpr hkA)
      have houtt : out.get? name2 = (generatePass2 A out1).get? name2 := by
        rw [hout, hAB, pass2_append]
        simp only [generatePass2]
        rw [pass2_frame B _ name2 htB, get?_set_ne _ _ _ _ (fun h => e h.symm)]
      rw [houtr, houtt, hvt]
      rfl

/-- C24 refuted at the template with `x` a plain string, `y` a reference to
`x` and `z` a reference to `y`: New accepts it, the first loop stores the
strings `x` and `y` under `y` and `z`, and the output value of `z` is the
string `plain` when the second loop runs in the stored order and the string
`x` when it visits `z` first, never absent and never nil. -/
theorem C24_counterexample_chain :
    New (.ok templateXYZ) = .ok ⟨fieldsXYZ⟩ ∧
    generatePass1 (fieldsXYZ.map Prod.snd) [] sampleWorld =
      .ok ([(bytesOf "x", .str (bytesOf "plain")), (bytesOf "y", .str (bytesOf "x")),
            (bytesOf "z", .str (bytesOf "y"))], sampleWorld) ∧
    processor.Generate ⟨fieldsXYZ⟩ sampleWorld =
      .ok ([(bytesOf "x", .str (bytesOf "plain")), (bytesOf "y", .str (bytesOf "plain")),
            (bytesOf "z", .str (bytesOf "plain"))], sampleWorld) ∧
    processor.GenerateIn ⟨fieldsXYZ⟩ (fieldsXYZ.map Prod.snd)
        [.reference (bytesOf "z") (bytesOf "y"), .reference (bytesOf "y") (bytesOf "x"),
         .static (bytesOf "x") (.str (bytesOf "plain"))] sampleWorld =
      .ok ([(bytesOf "x", .str (bytesOf "plain")), (bytesOf "y", .str (bytesOf "plain")),
            (bytesOf "z", .str (bytesOf "x"))], sampleWorld) :=
  ⟨by rfl, by rfl, by rfl, by rfl⟩

/-- C24 as amended, at the template `templateXYZ` with the second loop
visiting `z` before `y`: the first loop stores the names of the targets, and
the output value of `z` is the string `x`. -/
theorem C24_witness_chain :
    New (.ok templateXYZ) = .ok ⟨fieldsXYZ⟩ ∧
    (∀ out1 w1, generatePass1 (fieldsXYZ.map Prod.snd) [] sampleWorld = .ok (out1, w1) →
      out1.get? (bytesOf "z") = some (.str (bytesOf "y")) ∧
      out1.get? (bytesOf "y") = some (.str (bytesOf "x"))) ∧
    (∀ out w1, processor.GenerateIn ⟨fieldsXYZ⟩ (fieldsXYZ.map Prod.snd)
        [.reference (bytesOf "z") (bytesOf "y"), .reference (bytesOf "y") (bytesOf "x"),
         .static (bytesOf "x") (.str (bytesOf "plain"))] sampleWorld = .ok (out, w1) →
      out.get? (bytesOf "z") = some (.str (bytesOf "x"))) :=
  ⟨by rfl,
   (C24_reference_chain templateXYZ ⟨fieldsXYZ⟩ (by rfl) (bytesOf "z") (bytesOf "y")
     (bytesOf "x") (bytesOf "z") (bytesOf "y") (by simp [fieldsXYZ]) (by simp [fieldsXYZ])
     (fieldsXYZ.map Prod.snd)
     [.reference (bytesOf "z") (bytesOf "y"), .reference (bytesOf "y") (bytesOf "x"),
      .static (bytesOf "x") (.str (bytesOf "plain"))] sampleWorld (List.Perm.refl _)
     (List.reverse_perm (fieldsXYZ.map Prod.snd))).1,
   fun out w1 h =>
     ((C24_reference_chain templateXYZ ⟨fieldsXYZ⟩ (by rfl) (bytesOf "z") (bytesOf "y")
       (bytesOf "x") (bytesOf "z") (bytesOf "y") (by simp [fieldsXYZ]) (by simp [fieldsXYZ])
       (fieldsXYZ.map Prod.snd)
       [.reference (bytesOf "z") (bytesOf "y"), .reference (bytesOf "y") (bytesOf "x"),
        .static (bytesOf "x") (.str (bytesOf "plain"))] sampleWorld (List.Perm.refl _)
       (List.reverse_perm (fieldsXYZ.map Prod.snd))).2.1 out w1 h).2 [] _ rfl |>.1 (by simp)⟩

end Goson
